import Mathlib

/-!
Verification of the enlighten progress-bar library's layout/redraw engine.

The definitions below are a shallow embedding of the Python sources:

* `enlighten/_manager.py`   — class `Manager` (row table, scroll area, write,
  resize handling, stop)
* `enlighten/_basemanager.py` — class `BaseManager._add_counter` (the variant
  with a `replace` argument and a `position < 1` check)
* `enlighten/_basecounter.py` — class `PrintableCounter` (clear, refresh, close)
* `enlighten/_counter.py`   — `Counter.update`, `SubCounter.__init__`,
  `SubCounter.update_from`

Counters are identified by natural-number ids.  The manager's ordered
dictionary `self.counters` is an insertion-ordered association list from
counter id to row position; Python dict assignment on an existing key keeps
the insertion order, which `upsert` mirrors.  Row positions, heights and
scroll offsets are Python ints, embedded as `Int`.  Terminal control
sequences are abstract `Event`s; a stream is the list of events written to
it.  Wall-clock tests (`min_delta` timing) are abstracted into a `due`
oracle.  A raised Python exception is an `Except.error` carrying the message
together with the state at the moment of the raise, so that mutations made
before a raise are preserved exactly as in the source.
-/

namespace Enlighten

/-- Abstract terminal output events: each constructor is one control sequence
or payload written by the manager (`term.move`, `'\r'`, `term.clear_eol`,
`term.clear_eos`, a counter's formatted text, a literal string, `'\n' * n`,
`term.hide_cursor`, `term.normal_cursor`, `term.csr`). -/
inductive Event where
  | move (row col : Int)
  | cr
  | clearEol
  | clearEos
  | text (cid : Nat)
  | raw (s : String)
  | feed (n : Nat)
  | hideCursor
  | normalCursor
  | csr (top bottom : Int)
  deriving DecidableEq, Repr

/-- Attributes of one counter object (`PrintableCounter.__slots__` members that
the layout engine reads): running count, optional total, `enabled`, `leave`,
whether `_closed` is nonzero, and the `_pinned` flag. -/
structure CtrState where
  count : Int := 0
  total : Option Int := none
  enabled : Bool := true
  leave : Bool := true
  closed : Bool := false
  pinned : Bool := false
  deriving DecidableEq, Repr

/-- Generic ordered-dict lookup on an association list. -/
def alookup {κ α : Type} [DecidableEq κ] (k : κ) : List (κ × α) → Option α
  | [] => none
  | (k1, v) :: t => if k1 = k then some v else alookup k t

/-- Python dict assignment `d[k] = v`: replace in place if the key exists
(keeping insertion order), otherwise append. -/
def upsert {κ α : Type} [DecidableEq κ] (k : κ) (v : α) : List (κ × α) → List (κ × α)
  | [] => [(k, v)]
  | (k1, v1) :: t => if k1 = k then (k, v) :: t else (k1, v1) :: upsert k v t

/-- Python dict deletion `del d[k]` (no-op when the key is absent, matching
the `except KeyError: pass` call sites). -/
def aerase {κ α : Type} [DecidableEq κ] (k : κ) : List (κ × α) → List (κ × α)
  | [] => []
  | (k1, v1) :: t => if k1 = k then t else (k1, v1) :: aerase k t

/-- Keys of an association list in insertion order. -/
def akeys {κ α : Type} (l : List (κ × α)) : List κ := l.map Prod.fst

/-- State of one `Manager` (from `Manager.__init__` in `enlighten/_manager.py`)
together with every counter object created against it (`ctrs`).  `counters` is
the ordered dict mapping counter id to row position.  `termHeight` is the live
`term.height`; `height` is the manager's cached copy.  `resizePending` is the
`_resize` flag.  `out` is the sequence of events written to the output stream
so far; `buffer` is `_buffer`.  The companion stream is not modelled (the
embedding fixes `companion_stream = None`, one of the constructor options).
`warnings` counts non-fatal `EnlightenWarning`s issued. -/
structure World where
  counters : List (Nat × Int) := []
  ctrs : List (Nat × CtrState) := []
  autorefresh : List Nat := []
  scroll_offset : Int := 1
  height : Int := 25
  termHeight : Int := 25
  enabled : Bool := true
  set_scroll : Bool := true
  threaded : Bool := false
  process_exit : Bool := false
  refresh_lock : Bool := false
  resize_lock : Bool := false
  resizePending : Bool := false
  buffer : List Event := []
  out : List Event := []
  warnings : Nat := 0
  deriving DecidableEq, Repr

/-- Result of an operation: normal return, or a raised exception carrying the
message and the state at the moment of the raise. -/
abbrev MRes := Except (String × World) World

/-- Python `max(d.values())` over a nonempty ordered dict (call sites guard
emptiness; on an empty dict Python raises, embedded as an error at each call
site). -/
def maxVals (l : List (Nat × Int)) : Int :=
  match l with
  | [] => 0
  | (_, v) :: t => (t.map Prod.snd).foldl max v

/-- `Manager._flush_streams`: write the joined buffer to the stream and empty
it (`_manager.py` lines 372-391; companion stream not modelled). -/
def flush_streams (w : World) : World :=
  { w with out := w.out ++ w.buffer, buffer := [] }

/-- `Manager._set_scroll_area` (`_manager.py` lines 321-370): update
`scroll_offset` to `max(counters.values()) + 1` when that grew, then (when
enabled) stage scroll-region control sequences.  `atexit`/`signal`
registration is the `process_exit` flag; it stages no output. -/
def set_scroll_area (w : World) (force : Bool) : MRes :=
  if w.counters.isEmpty then .error ("ValueError: max() arg is an empty sequence", w)
  else
    let oldOffset := w.scroll_offset
    let newOffset := maxVals w.counters + 1
    let use_new := decide (newOffset > oldOffset)
    let w1 := if use_new then { w with scroll_offset := newOffset } else w
    if ¬ w1.enabled then .ok w1
    else
      let w2 := if ¬ w1.process_exit then { w1 with process_exit := true } else w1
      if w2.set_scroll then
        let newHeight := w2.termHeight
        let scrollPos := max 0 (newHeight - w2.scroll_offset)
        let changed := force ∨ use_new ∨ newHeight ≠ w2.height
        let evs : List Event :=
          (if changed then
             (if use_new then
                [Event.move (max 0 (newHeight - oldOffset)) 0,
                 Event.feed (newOffset - oldOffset).toNat]
              else []) ++ [Event.hideCursor, Event.csr 0 scrollPos]
           else []) ++ [Event.move scrollPos 0]
        .ok { w2 with height := if changed then newHeight else w2.height,
                      buffer := w2.buffer ++ evs }
      else .ok w2

/-- The four events `Manager.write` stages for one output at one position
(`_manager.py` lines 527-530). -/
def stage (w : World) (output : Event) (position : Int) : World :=
  { w with buffer := w.buffer ++
      [Event.move (w.termHeight - position) 0, Event.cr, Event.clearEol, output] }

/-- `Manager.write` specialised to call sites inside `Manager._autorefresh`,
where `refresh_lock` is held: the trailing block guarded by
`if not self.refresh_lock` is skipped, and the resize branch cannot fire
because every call site has already passed the resize check of the outer
`write` (so `_resize and not resize_lock` is false there).  Only the enabled
check, the position lookup (a `KeyError` when the counter is not in the row
table) and the staging remain. -/
def writeLocked (w : World) (output : Event) (counter : Option Nat) : MRes :=
  if ¬ w.enabled then .ok w
  else
    match counter with
    | none => .ok (stage w output 0)
    | some cid =>
      match alookup cid w.counters with
      | none => .error ("KeyError", w)
      | some position => .ok (stage w output position)

/-- Loop body of `Manager._autorefresh` (`_manager.py` lines 549-564): refresh
each autorefresh bar that is not excluded and whose `min_delta` has elapsed
(the `due` oracle).  Each refresh goes through `PrintableCounter.refresh` into
`Manager.write` while `refresh_lock` is held, hence `writeLocked`. -/
def autorefreshGo (exclude : Option Nat) (due : Nat → Bool) :
    List Nat → World → MRes
  | [], w => .ok w
  | cid :: rest, w =>
    if exclude = some cid ∨ ¬ due cid then autorefreshGo exclude due rest w
    else
      match alookup cid w.ctrs with
      | none => .error ("AttributeError", w)
      | some st =>
        if st.enabled then
          match writeLocked w (Event.text cid) (some cid) with
          | .error e => .error e
          | .ok w1 => autorefreshGo exclude due rest w1
        else autorefreshGo exclude due rest w

/-- `Manager._autorefresh`: take the refresh lock, run the loop, release it.
A raise inside the loop leaves the lock held, as in the source (no finally). -/
def autorefreshRun (w : World) (exclude : Option Nat) (due : Nat → Bool) : MRes :=
  match autorefreshGo exclude due w.autorefresh { w with refresh_lock := true } with
  | .error e => .error e
  | .ok w1 => .ok { w1 with refresh_lock := false }

/-- Body of `Manager.write` after the resize branch (`_manager.py` lines
519-539): resolve the position (`KeyError` when the counter is no longer in
the row table), stage the four events, then unless `refresh_lock` is held run
autorefresh, reset the scroll area and optionally flush. -/
def writeBody (w : World) (output : Event) (flush : Bool) (counter : Option Nat)
    (due : Nat → Bool) : MRes :=
  match (match counter with
         | none => some (0 : Int)
         | some cid => alookup cid w.counters) with
  | none => .error ("KeyError", w)
  | some position =>
    let w1 := stage w output position
    if w1.refresh_lock then .ok w1
    else
      match (if w1.autorefresh.isEmpty then .ok w1 else autorefreshRun w1 counter due) with
      | .error e => .error e
      | .ok w2 =>
        match set_scroll_area w2 false with
        | .error e => .error e
        | .ok w3 => .ok (if flush then flush_streams w3 else w3)

/-- Refresh every counter of a list with `flush=False`, as the loop at the end
of `Manager._resize_handler` does (`_manager.py` lines 315-316).  Each
iteration is `PrintableCounter.refresh` reaching `Manager.write` while
`resize_lock` is held, so the resize branch of `write` is not taken and the
call reduces to `writeBody`. -/
def refreshAllGo (due : Nat → Bool) : List Nat → World → MRes
  | [], w => .ok w
  | cid :: rest, w =>
    match alookup cid w.ctrs with
    | none => .error ("AttributeError", w)
    | some st =>
      if st.enabled then
        match writeBody w (Event.text cid) false (some cid) due with
        | .error e => .error e
        | .ok w1 => refreshAllGo due rest w1
      else refreshAllGo due rest w

/-- `Manager._resize_handler` (`_manager.py` lines 282-319): under the resize
lock, stage blank-line padding and a clear, reset the scroll area with
`force=True`, redraw every counter, and flush.  `term.height` is read as
`termHeight` (the live height) while `self.height` is the stale cached one. -/
def resize_handler (w : World) (due : Nat → Bool) : MRes :=
  if w.resize_lock then .ok w
  else
    let w0 := { w with resize_lock := true }
    let newHeight := w0.termHeight
    match (if newHeight < w0.height then
             (if w0.counters.isEmpty then
               Except.error ("ValueError: max() arg is an empty sequence", w0)
              else
               Except.ok { w0 with buffer := w0.buffer ++
                 [Event.move (max 0 (newHeight - w0.scroll_offset)) 0,
                  Event.feed (2 * maxVals w0.counters).toNat] })
           else if newHeight > w0.height ∧ w0.threaded then
             Except.ok { w0 with buffer := w0.buffer ++
               [Event.move newHeight 0, Event.feed (w0.scroll_offset - 1).toNat] }
           else Except.ok w0) with
    | .error e => .error e
    | .ok w1 =>
      let w2 := { w1 with buffer := w1.buffer ++
        [Event.move (max 0 (newHeight - w1.scroll_offset)) 0, Event.clearEos] }
      match set_scroll_area w2 true with
      | .error e => .error e
      | .ok w3 =>
        match refreshAllGo due (akeys w3.counters) w3 with
        | .error e => .error e
        | .ok w4 => .ok { flush_streams w4 with resize_lock := false }

/-- `Manager.write` (`_manager.py` lines 491-539): no-op when disabled; when a
resize is pending and no handler is running, run the handler, clear the flag
and return (the requested output is dropped); otherwise the normal body. -/
def Manager.write (w : World) (output : Event) (flush : Bool) (counter : Option Nat)
    (due : Nat → Bool) : MRes :=
  if ¬ w.enabled then .ok w
  else if w.resizePending ∧ ¬ w.resize_lock then
    match resize_handler w due with
    | .error (m, w1) => .error (m, { w1 with resizePending := false })
    | .ok w1 => .ok { w1 with resizePending := false }
  else writeBody w output flush counter due

/-- `PrintableCounter.clear` (`_basecounter.py` lines 245-255): when the
counter is enabled, write an empty output at the counter's row.  The
`last_update` reset is wall-clock state, not modelled. -/
def PrintableCounter.clear (w : World) (cid : Nat) (flush : Bool)
    (due : Nat → Bool) : MRes :=
  match alookup cid w.ctrs with
  | none => .error ("AttributeError", w)
  | some st =>
    if st.enabled then Manager.write w (Event.raw "") flush (some cid) due
    else .ok w

/-- `PrintableCounter.refresh` (`_basecounter.py` lines 288-299): when the
counter is enabled, write the bar's rendered text (`self.format`, abstracted
to `Event.text cid`) at the counter's row. -/
def PrintableCounter.refresh (w : World) (cid : Nat) (flush : Bool)
    (due : Nat → Bool) : MRes :=
  match alookup cid w.ctrs with
  | none => .error ("AttributeError", w)
  | some st =>
    if st.enabled then Manager.write w (Event.text cid) flush (some cid) due
    else .ok w

/-- `Manager.remove` (`_manager.py` lines 417-435): drop the counter from the
row table and autorefresh list unless `leave` is set; missing entries are
swallowed (`except (KeyError, ValueError): pass`). -/
def Manager.remove (w : World) (cid : Nat) : World :=
  match alookup cid w.ctrs with
  | none => w
  | some st =>
    if ¬ st.leave then
      { w with counters := aerase cid w.counters, autorefresh := w.autorefresh.erase cid }
    else w

/-- `PrintableCounter.close` (`_basecounter.py` lines 257-279): warn (without
raising) on a second close, otherwise record the close time; then clear or
refresh, and remove from the manager. -/
def PrintableCounter.close (w : World) (cid : Nat) (clear : Bool)
    (due : Nat → Bool) : MRes :=
  match alookup cid w.ctrs with
  | none => .error ("AttributeError", w)
  | some st =>
    let w1 := if st.closed then { w with warnings := w.warnings + 1 }
              else { w with ctrs := upsert cid { st with closed := true } w.ctrs }
    match (if clear ∧ ¬ st.leave then PrintableCounter.clear w1 cid true due
           else if (alookup cid w1.counters).isSome then
             PrintableCounter.refresh w1 cid true due
           else .ok w1) with
    | .error e => .error e
    | .ok w2 => .ok (Manager.remove w2 cid)

/-- `Counter.update` (`_counter.py` lines 1020-1037): increment the count,
then redraw when enabled and forced, at 100 percent, or once `min_delta` has
elapsed (the `due` oracle). -/
def Counter.update (w : World) (cid : Nat) (incr : Int) (force : Bool)
    (due : Nat → Bool) : MRes :=
  match alookup cid w.ctrs with
  | none => .error ("AttributeError", w)
  | some st =>
    let st2 := { st with count := st.count + incr }
    let w1 := { w with ctrs := upsert cid st2 w.ctrs }
    if st2.enabled ∧ (force ∨ st2.total = some st2.count ∨ due cid) then
      PrintableCounter.refresh w1 cid true due
    else .ok w1

/-- Python `range(a, 0, -1)` as a list: `[a, a-1, ..., 1]`, empty for `a ≤ 0`. -/
def rangeDown (a : Int) : List Int :=
  (List.range a.toNat).map (fun (i : Nat) => a - (i : Int))

/-- The per-row effect of `Manager.stop`: set `enabled = False` on every
counter held in the row table (`_manager.py` lines 482-483). -/
def disableAll (ctrs : List (Nat × CtrState)) (cids : List Nat) : List (Nat × CtrState) :=
  ctrs.map (fun e => if e.1 ∈ cids then (e.1, { e.2 with enabled := false }) else e)

/-- `Manager.stop` (`_manager.py` lines 437-489): no-op when disabled;
otherwise clear every row from `scroll_offset - 1` down to 1 that no counter
occupies, restore the scroll region and cursor when `set_scroll` is set,
re-home the cursor, disable the manager and all its counters, feed one line
when row 1 is occupied, and flush.  Signal-handler restoration has no stream
effect and is not modelled. -/
def Manager.stop (w : World) : World :=
  if ¬ w.enabled then w
  else
    let positions := w.counters.map Prod.snd
    let clears := (rangeDown (w.scroll_offset - 1)).filter (fun n => ¬ n ∈ positions)
    let clearEvents := clears.map (fun n => [Event.move (w.termHeight - n) 0, Event.clearEol])
    let w1 := { w with buffer := w.buffer ++ clearEvents.flatten }
    let w2 := if w1.set_scroll then
        { w1 with buffer := w1.buffer ++ [Event.normalCursor, Event.csr 0 (w1.height - 1)] }
      else w1
    let w3 := { w2 with buffer := w2.buffer ++ [Event.move w2.termHeight 0],
                        process_exit := false, enabled := false,
                        ctrs := disableAll w2.ctrs (akeys w2.counters) }
    let w4 := if (1 : Int) ∈ positions then
        { w3 with buffer := w3.buffer ++ [Event.feed 1] }
      else w3
    flush_streams w4

/-- The `while pos in pinned: pos += 1` loop of `_add_counter`: the first
offset at or above `p` that is not a key of the pinned dict.  The recursion
erases the hit key, which does not change the result (the scan only moves
upward) and gives a decreasing measure. -/
def nextFreeGo : Nat → List Int → Int → Int
  | 0, _, p => p
  | n + 1, ks, p => if p ∈ ks then nextFreeGo n (ks.erase p) (p + 1) else p

/-- The entry point: a hit removes one key from the scan set, so the set's
size bounds the number of iterations and is enough fuel. -/
def nextFree (ks : List Int) (p : Int) : Int :=
  nextFreeGo ks.length ks p

/-- The pinned dict of `_add_counter`
(`pinned = dict of position to counter for pinned counters`, built by scanning
the row table in insertion order; `_manager.py` line 218, `_basemanager.py`
line 223).  Later entries overwrite earlier ones at the same position, as with
a Python dict comprehension. -/
def buildPinned (counters : List (Nat × Int)) (ctrs : List (Nat × CtrState)) :
    List (Int × Nat) :=
  counters.foldl (fun acc e =>
    match alookup e.1 ctrs with
    | some st => if st.pinned then upsert e.2 e.1 acc else acc
    | none => acc) []

/-- The reassignment loop of `Manager._add_counter` (`_manager.py` lines
235-256): walk the snapshot of row-table keys in reverse insertion order;
skip pinned counters; give each remaining counter the next offset that is not
pinned; when the offset changed, clear the counter at its old row (unless it
is the counter being added and not a status bar) and queue it for refresh.
`clearNewToo` is `counter_class is self.status_bar_class`. -/
def assignLoop (clearNewToo : Bool) (newCid : Nat) (pinned : List (Int × Nat))
    (due : Nat → Bool) :
    List Nat → Int → List Nat → World → Except (String × World) (World × List Nat)
  | [], _, toR, w => .ok (w, toR)
  | cid :: rest, pos, toR, w =>
    if cid ∈ pinned.map Prod.snd then assignLoop clearNewToo newCid pinned due rest pos toR w
    else
      match alookup cid w.counters with
      | none => .error ("KeyError", w)
      | some old_pos =>
        let q := nextFree (pinned.map Prod.fst) pos
        if q = old_pos then assignLoop clearNewToo newCid pinned due rest (q + 1) toR w
        else if cid ≠ newCid ∨ clearNewToo then
          match PrintableCounter.clear w cid false due with
          | .error e => .error e
          | .ok w1 =>
            let w2 := { w1 with counters := upsert cid q w1.counters }
            assignLoop clearNewToo newCid pinned due rest (q + 1) (toR ++ [cid]) w2
        else
          let w2 := { w with counters := upsert cid q w.counters }
          assignLoop clearNewToo newCid pinned due rest (q + 1) toR w2

/-- The queued refreshes at the end of `Manager._add_counter` (`_manager.py`
lines 259-260); the argument list is already reversed. -/
def refreshListGo (due : Nat → Bool) : List Nat → World → MRes
  | [], w => .ok w
  | cid :: rest, w =>
    match PrintableCounter.refresh w cid false due with
    | .error e => .error e
    | .ok w1 => refreshListGo due rest w1

/-- Tail of `Manager._add_counter` after the position branch (`_manager.py`
lines 235-263): run the reassignment loop over the reversed row table, reset
the scroll area, refresh the queued counters in reverse queue order, flush. -/
def addFinish (w : World) (newCid : Nat) (isStatusBar : Bool)
    (pinned : List (Int × Nat)) (toRefresh : List Nat) (due : Nat → Bool) : MRes :=
  match assignLoop isStatusBar newCid pinned due ((akeys w.counters).reverse) 1 toRefresh w with
  | .error e => .error e
  | .ok (w1, toR) =>
    match set_scroll_area w1 false with
    | .error e => .error e
    | .ok w2 =>
      match refreshListGo due toR.reverse w2 with
      | .error e => .error e
      | .ok w3 => .ok (flush_streams w3)

/-- `Manager._add_counter` (`_manager.py` lines 181-263).  `cid` is the id of
the freshly constructed counter object and `st0` its attributes as built from
the keyword arguments and manager defaults (`__init__` forces `_pinned` false
and `_closed` zero).  With an explicit position the only validations are
collision with a pinned offset and exceeding the terminal height; there is no
lower-bound check in this variant.  `isStatusBar` is
`counter_class is self.status_bar_class`. -/
def Manager.add_counter (w : World) (cid : Nat) (st0 : CtrState) (position : Option Int)
    (autorefreshFlag isStatusBar : Bool) (due : Nat → Bool) : MRes :=
  let wA := { w with ctrs := upsert cid { st0 with pinned := false, closed := false } w.ctrs }
  let wB := if autorefreshFlag then { wA with autorefresh := wA.autorefresh ++ [cid] } else wA
  let pinned := buildPinned wB.counters wB.ctrs
  match position with
  | some p =>
    if p ∈ pinned.map Prod.fst then
      .error ("ValueError: Counter position is already occupied.", wB)
    else if p > wB.height then
      .error ("ValueError: Counter position is greater than terminal height.", wB)
    else
      let wC := { wB with ctrs := upsert cid { st0 with pinned := true, closed := false } wB.ctrs,
                          counters := upsert cid p wB.counters }
      addFinish wC cid isStatusBar (upsert p cid pinned)
        (if isStatusBar then [cid] else []) due
  | none =>
      let wC := { wB with counters := upsert cid 0 wB.counters }
      addFinish wC cid isStatusBar pinned [] due

/-- State of a `BaseManager` (`enlighten/_basemanager.py`): the row table,
counter objects, autorefresh list, cached height, and a warning counter.
`BaseManager._set_scroll_area` is a no-op and its `write`/`_flush_streams`
are implemented by subclasses that only touch the output stream
(`NotebookManager` in this tree), so no output state is tracked here. -/
structure BMState where
  counters : List (Nat × Int) := []
  ctrs : List (Nat × CtrState) := []
  autorefresh : List Nat := []
  height : Int := 25
  warnings : Nat := 0
  deriving DecidableEq, Repr

/-- Row-table-only form of the reassignment loop of
`BaseManager._add_counter` (`_basemanager.py` lines 262-283); identical to
the `Manager` loop except that the per-counter `clear` calls reach only a
subclass `write` that does not touch these fields. -/
def bmAssignLoop (pinned : List (Int × Nat)) :
    List Nat → Int → List (Nat × Int) → Except String (List (Nat × Int))
  | [], _, table => .ok table
  | cid :: rest, pos, table =>
    if cid ∈ pinned.map Prod.snd then bmAssignLoop pinned rest pos table
    else
      match alookup cid table with
      | none => .error "KeyError"
      | some old_pos =>
        let q := nextFree (pinned.map Prod.fst) pos
        if q = old_pos then bmAssignLoop pinned rest (q + 1) table
        else bmAssignLoop pinned rest (q + 1) (upsert cid q table)

/-- `BaseManager._add_counter` (`_basemanager.py` lines 183-290): the variant
with a `replace` argument and a `position < 1` check.  Replacement closes the
old counter with `leave` forced off (removing it from the row table and the
autorefresh list, and warning when it was already closed), then installs the
new counter at the old position, inheriting a pinned position.  Status-bar
refreshes and per-counter clears touch only the subclass output stream. -/
def BaseManager.add_counter (w : BMState) (cid : Nat) (st0 : CtrState)
    (position : Option Int) (autorefreshFlag : Bool)
    (replace : Option Nat) : Except (String × BMState) BMState :=
  let wA := { w with ctrs := upsert cid { st0 with pinned := false, closed := false } w.ctrs }
  let wB := if autorefreshFlag then { wA with autorefresh := wA.autorefresh ++ [cid] } else wA
  let pinned := buildPinned wB.counters wB.ctrs
  match replace with
  | some rid =>
    (match alookup rid wB.counters with
     | none => .error ("ValueError: Counter to replace is not currently managed.", wB)
     | some rpos =>
       match alookup rid wB.ctrs with
       | none => .error ("AttributeError", wB)
       | some rst =>
         let wC := { wB with
           ctrs := upsert rid { rst with leave := false, closed := true } wB.ctrs,
           warnings := wB.warnings + (if rst.closed then 1 else 0),
           counters := aerase rid wB.counters,
           autorefresh := wB.autorefresh.erase rid }
         let wD := { wC with counters := upsert cid rpos wC.counters }
         let wE := if rst.pinned then
             { wD with ctrs := upsert cid { st0 with pinned := true, closed := false } wD.ctrs }
           else wD
         let pinned2 := if rst.pinned then upsert rpos cid pinned else pinned
         match bmAssignLoop pinned2 ((akeys wE.counters).reverse) 1 wE.counters with
         | .error m => .error (m, wE)
         | .ok table => .ok { wE with counters := table })
  | none =>
    match position with
    | some p =>
      if p < 1 then .error ("ValueError: Counter position is less than 1.", wB)
      else if p ∈ pinned.map Prod.fst then
        .error ("ValueError: Counter position is already occupied.", wB)
      else if p > wB.height then
        .error ("ValueError: Counter position is greater than terminal height.", wB)
      else
        let wC := { wB with
          ctrs := upsert cid { st0 with pinned := true, closed := false } wB.ctrs,
          counters := upsert cid p wB.counters }
        match bmAssignLoop (upsert p cid pinned) ((akeys wC.counters).reverse) 1 wC.counters with
        | .error m => .error (m, wC)
        | .ok table => .ok { wC with counters := table }
    | none =>
      let wC := { wB with counters := upsert cid 0 wB.counters }
      match bmAssignLoop pinned ((akeys wC.counters).reverse) 1 wC.counters with
      | .error m => .error (m, wC)
      | .ok table => .ok { wC with counters := table }

/-- A multicolored bar: the parent `Counter`'s count and the counts of its
`SubCounter`s in creation order (`_counter.py`; `Counter.subcount` is the sum
of the subcounter counts). -/
structure MultiBar where
  parentCount : Int
  subCounts : List Int
  deriving DecidableEq, Repr

/-- `Counter.subcount` (`_counter.py` lines 830-835). -/
def MultiBar.subcount (b : MultiBar) : Int := b.subCounts.sum

/-- The `source` argument of `SubCounter.update_from`: the parent counter, or
a subcounter of the same parent designated by its index (anything else fails
the `source is self.parent or getattr(source, 'parent', None) is self.parent`
test). -/
inductive SrcRef where
  | parent
  | peer (j : Nat)
  deriving DecidableEq, Repr

/-- `SubCounter.__init__` via `Counter.add_subcounter` (`_counter.py` lines
208-222 and 1040-1056): reject an initial count that would drive the parent's
uncovered remainder negative, else append the subcounter. -/
def Counter.add_subcounter (b : MultiBar) (count : Int) : Except String MultiBar :=
  if b.parentCount - b.subcount - count < 0 then .error "ValueError: Invalid count"
  else .ok { b with subCounts := b.subCounts ++ [count] }

/-- `SubCounter.update_from` (`_counter.py` lines 240-272) for the subcounter
at index `dest`.  All validation precedes any mutation, exactly as in the
source: the increment may not drive the destination or source count negative,
and a transfer from the parent may not drive the parent's uncovered remainder
negative.  When the source is the parent, only the destination count changes
(the trailing `self.parent.update(0, force)` adds zero); when the source is a
peer, the source count is decremented before the destination is incremented. -/
def SubCounter.update_from (b : MultiBar) (dest : Nat) (src : SrcRef) (incr : Int) :
    Except String MultiBar :=
  match src with
  | .parent =>
    let selfCount := b.subCounts.getD dest 0
    if selfCount + incr < 0 ∨ b.parentCount - incr < 0 then
      .error "ValueError: Invalid increment"
    else if b.parentCount - b.subcount - incr < 0 then
      .error "ValueError: Invalid increment"
    else .ok { b with subCounts := b.subCounts.set dest (selfCount + incr) }
  | .peer j =>
    if j < b.subCounts.length then
      let selfCount := b.subCounts.getD dest 0
      let srcCount := b.subCounts.getD j 0
      if selfCount + incr < 0 ∨ srcCount - incr < 0 then
        .error "ValueError: Invalid increment"
      else
        let afterSrc := b.subCounts.set j (srcCount - incr)
        .ok { b with subCounts := afterSrc.set dest (afterSrc.getD dest 0 + incr) }
    else .error "ValueError: source must be parent or peer"

/-- The state carried by a result: the normal return, or the state at the
moment of the raise. -/
def resState : MRes → World
  | .ok w => w
  | .error (_, w) => w

/-- Whether a result is a raised exception. -/
def isRaised : MRes → Bool
  | .ok _ => false
  | .error _ => true

/-- Message of a raised `Manager` exception, if any. -/
def errMsg : MRes → Option String
  | .error (m, _) => some m
  | .ok _ => none

/-- Message of a raised `BaseManager` exception, if any. -/
def bmErrMsg : Except (String × BMState) BMState → Option String
  | .error (m, _) => some m
  | .ok _ => none

/-- The `due` oracle for a run in which no `min_delta` interval has elapsed. -/
def dueNever : Nat → Bool := fun _ => false

/-- Events that only reposition the cursor or adjust the scroll region:
everything `_set_scroll_area` and the resize padding emit.  They never draw
or erase a counter's text. -/
def isCtl : Event → Bool
  | .move _ _ => true
  | .hideCursor => true
  | .csr _ _ => true
  | .feed _ => true
  | _ => false

/-- The row table, counter objects and autorefresh list agree. -/
def EqTables (w w1 : World) : Prop :=
  w1.counters = w.counters ∧ w1.ctrs = w.ctrs ∧ w1.autorefresh = w.autorefresh

/-- The configuration flags and live terminal height agree. -/
def EqFlags (w w1 : World) : Prop :=
  w1.enabled = w.enabled ∧ w1.set_scroll = w.set_scroll ∧ w1.threaded = w.threaded ∧
  w1.refresh_lock = w.refresh_lock ∧ w1.resize_lock = w.resize_lock ∧
  w1.resizePending = w.resizePending ∧ w1.termHeight = w.termHeight

/-- The assignment the spec describes: walk the given counters in order,
giving each in turn the next offset not claimed by a pinned counter. -/
def walkAssign (ks : List Int) : List Nat → Int → List (Nat × Int)
  | [], _ => []
  | c :: rest, p =>
    let q := nextFree ks p
    (c, q) :: walkAssign ks rest (q + 1)

/-- The pinned dict held by the reassignment loop of a `_add_counter` call:
the pre-call pinned dict, extended with the new counter when it is pinned. -/
def pinnedAfterAdd (w : World) (cid : Nat) (position : Option Int) : List (Int × Nat) :=
  match position with
  | some p => upsert p cid (buildPinned w.counters w.ctrs)
  | none => buildPinned w.counters w.ctrs

/-- Fields no code path of the write layer (`Manager.write` and everything it
reaches, including the resize handler and autorefresh) ever mutates, whether
the call returns or raises. -/
def CoreEq (w w1 : World) : Prop :=
  w1.counters = w.counters ∧ w1.ctrs = w.ctrs ∧ w1.autorefresh = w.autorefresh ∧
  w1.enabled = w.enabled ∧ w1.set_scroll = w.set_scroll ∧ w1.threaded = w.threaded ∧
  w1.warnings = w.warnings ∧ w1.termHeight = w.termHeight

/-- Whether the counter object with this id has `_pinned` set. -/
def pinnedOf (ctrs : List (Nat × CtrState)) (c : Nat) : Bool :=
  match alookup c ctrs with
  | some st => st.pinned
  | none => false

/-- C1's invariant: no two pinned counters share a row offset. -/
def PinnedDistinct (w : World) : Prop :=
  ∀ c1 c2 st1 st2 p1 p2, c1 ≠ c2 →
    alookup c1 w.ctrs = some st1 → st1.pinned = true →
    alookup c2 w.ctrs = some st2 → st2.pinned = true →
    alookup c1 w.counters = some p1 → alookup c2 w.counters = some p2 →
    p1 ≠ p2

/-- Well-formedness every reachable manager state satisfies: the row table's
keys are distinct (it is a Python dict), every key has a live counter object,
and no two pinned counters share an offset. -/
def WF (w : World) : Prop :=
  (akeys w.counters).Nodup ∧
  (∀ c ∈ akeys w.counters, (alookup c w.ctrs).isSome = true) ∧
  PinnedDistinct w

/-- Result state of the pair-returning reassignment loop. -/
def resStateL : Except (String × World) (World × List Nat) → World
  | .ok (w, _) => w
  | .error (_, w) => w

/-- One public operation of the embedded layout engine, relating a state to
the state after the call — for a raising call, the state the exception
carries.  A freshly constructed counter object is never already a key of the
row table. -/
inductive Step : World → World → Prop where
  | add (w : World) (cid : Nat) (st0 : CtrState) (position : Option Int)
      (ar isSB : Bool) (due : Nat → Bool) (hfresh : cid ∉ akeys w.counters) :
      Step w (resState (Manager.add_counter w cid st0 position ar isSB due))
  | write (w : World) (output : Event) (flush : Bool) (counter : Option Nat)
      (due : Nat → Bool) : Step w (resState (Manager.write w output flush counter due))
  | clear (w : World) (cid : Nat) (flush : Bool) (due : Nat → Bool) :
      Step w (resState (PrintableCounter.clear w cid flush due))
  | refresh (w : World) (cid : Nat) (flush : Bool) (due : Nat → Bool) :
      Step w (resState (PrintableCounter.refresh w cid flush due))
  | update (w : World) (cid : Nat) (incr : Int) (force : Bool) (due : Nat → Bool) :
      Step w (resState (Counter.update w cid incr force due))
  | close (w : World) (cid : Nat) (clearFlag : Bool) (due : Nat → Bool) :
      Step w (resState (PrintableCounter.close w cid clearFlag due))
  | remove (w : World) (cid : Nat) : Step w (Manager.remove w cid)
  | stop (w : World) : Step w (Manager.stop w)
  | resize (w : World) (due : Nat → Bool) : Step w (resState (resize_handler w due))

/-- States reachable from a freshly constructed manager (its row table is
empty) through the public operations. -/
inductive Reachable : World → Prop where
  | init (w : World) (hinit : w.counters = []) : Reachable w
  | step (w w1 : World) (h : Reachable w) (hs : Step w w1) : Reachable w1

/-- The `BaseManager` state holding the same tables as a `Manager` state, as
when the two implementations are run side by side on the same input. -/
def bmOf (w : World) : BMState :=
  { counters := w.counters, ctrs := w.ctrs, autorefresh := w.autorefresh,
    height := w.height, warnings := w.warnings }

/-- A reachable state with one pinned counter: a disabled manager that pinned
counter object 10 at offset 5. -/
def exC1base : World := { enabled := false }

/-- The keyword attributes of the first counter added in the C1 scenario. -/
def exC1st0 : CtrState := { enabled := false }

/-- The C1 scenario state: counter 10 pinned at offset 5. -/
def exC1w : World := resState (Manager.add_counter exC1base 10 exC1st0 (some 5) false false dueNever)

/-- Counter 10's stored attributes in the C1 scenario state. -/
def exC1stored : CtrState := { enabled := false, pinned := true, closed := false }

/-- First state of the C3 scenario: counter 1 (leave=False) added to a
disabled manager. -/
def exC3w1 : World := resState (Manager.add_counter exC1base 1 { enabled := false, leave := false } none false false dueNever)

/-- Second state of the C3 scenario: counter 2 added; the table is
`[(1, 2), (2, 1)]` and `scroll_offset` is 3. -/
def exC3w2 : World := resState (Manager.add_counter exC3w1 2 { enabled := false } none false false dueNever)

/-- Result state of a `BaseManager` call, also at a raise. -/
def bmResState : Except (String × BMState) BMState → BMState
  | .ok b => b
  | .error (_, b) => b

/-- The C5 scenario, `Manager` side: a fresh enabled manager pins counter 10
at offset 5. -/
def exC5e1 : World := resState (Manager.add_counter {} 10 {} (some 5) false false dueNever)

/-- Second C5 state: auto-placed counter 11 added. -/
def exC5e2 : World := resState (Manager.add_counter exC5e1 11 {} none false false dueNever)

/-- Third C5 state: auto-placed counter 12 added. -/
def exC5e3 : World := resState (Manager.add_counter exC5e2 12 {} none false false dueNever)

/-- The C5 scenario, `BaseManager` side. -/
def exC5b1 : BMState := bmResState (BaseManager.add_counter {} 10 {} (some 5) false none)

def exC5b2 : BMState := bmResState (BaseManager.add_counter exC5b1 11 {} none false none)

def exC5b3 : BMState := bmResState (BaseManager.add_counter exC5b2 12 {} none false none)

/-- The C7 counterexample manager: enabled, one counter at row 1, but
`set_scroll` off (as with `set_scroll=False` at construction). -/
def exC7w : World := { set_scroll := false, counters := [(1, 1)], ctrs := [(1, {})], scroll_offset := 2 }

/-- A widget call of the kind C8 quantifies over: `update`, `refresh`,
`clear` or `close` on a given counter. -/
inductive WOp where
  | updateOp (cid : Nat) (incr : Int) (force : Bool)
  | refreshOp (cid : Nat) (flush : Bool)
  | clearOp (cid : Nat) (flush : Bool)
  | closeOp (cid : Nat) (clearFlag : Bool)
  deriving DecidableEq, Repr

/-- The counter a widget call addresses. -/
def WOp.cid : WOp → Nat
  | .updateOp c _ _ => c
  | .refreshOp c _ => c
  | .clearOp c _ => c
  | .closeOp c _ => c

/-- Run one widget call. -/
def runOp (due : Nat → Bool) (w : World) : WOp → MRes
  | .updateOp cid incr force => Counter.update w cid incr force due
  | .refreshOp cid flush => PrintableCounter.refresh w cid flush due
  | .clearOp cid flush => PrintableCounter.clear w cid flush due
  | .closeOp cid clearFlag => PrintableCounter.close w cid clearFlag due

/-- Run a sequence of widget calls, stopping at the first raise. -/
def runSeq (due : Nat → Bool) : List WOp → World → MRes
  | [], w => .ok w
  | op :: rest, w =>
    match runOp due w op with
    | .error e => .error e
    | .ok w1 => runSeq due rest w1

/-- The C8 witness manager: disabled, one counter at row 1. -/
def exC8w : World := { enabled := false, counters := [(1, 1)], ctrs := [(1, {})], scroll_offset := 2 }

/-- The C8 witness call sequence: update, refresh, clear, a close, and a
refresh after the close. -/
def exC8ops : List WOp :=
  [WOp.updateOp 1 1 false, WOp.refreshOp 1 true, WOp.clearOp 1 false,
   WOp.closeOp 1 true, WOp.refreshOp 1 true]

/-- The C9 counterexample manager: enabled, counter 7 at row 1 whose object
is already closed. -/
def exC9w : World := { counters := [(7, 1)], ctrs := [(7, { closed := true })], scroll_offset := 2 }

/-- Whether an event is anything but a raw payload write. -/
def notRaw : Event → Bool
  | .raw _ => false
  | _ => true

/-- The C10 witness manager: enabled, a pending resize, one counter at
row 1, and an empty staging buffer. -/
def exC10w : World := { resizePending := true, counters := [(1, 1)], ctrs := [(1, {})], scroll_offset := 2 }

/-- The C10 counterexample manager: enabled, threaded, a pending resize, and
an empty row table — the state left after every `leave=False` counter has
been closed before the deferred resize runs. -/
def exC10e : World := { resizePending := true, threaded := true }

theorem alookup_upsert_self {κ α : Type} [DecidableEq κ] (k : κ) (v : α) (l : List (κ × α)) :
    alookup k (upsert k v l) = some v := by
  induction l with
  | nil => simp [alookup, upsert]
  | cons h t ih =>
    by_cases hk : h.1 = k
    · simp [upsert, alookup, hk]
    · simp [upsert, alookup, hk, ih]

theorem alookup_upsert_ne {κ α : Type} [DecidableEq κ] (k k2 : κ) (v : α) (l : List (κ × α))
    (hne : k ≠ k2) : alookup k2 (upsert k v l) = alookup k2 l := by
  induction l with
  | nil => simp [alookup, upsert, hne]
  | cons h t ih =>
    by_cases hk : h.1 = k
    · simp [upsert, alookup, hk, hne]
    · simp only [upsert, hk, if_false, alookup]
      by_cases hk2 : h.1 = k2 <;> simp [hk2, ih]

theorem akeys_upsert_mem {κ α : Type} [DecidableEq κ] (k : κ) (v : α) (l : List (κ × α))
    (hmem : k ∈ akeys l) : akeys (upsert k v l) = akeys l := by
  induction l with
  | nil => simp [akeys] at hmem
  | cons h t ih =>
    by_cases hk : h.1 = k
    · simp [upsert, akeys, hk]
    · simp only [akeys, List.map_cons, List.mem_cons] at hmem
      rcases hmem with hmem | hmem
      · exact absurd hmem.symm hk
      · have ih2 := ih (by simpa [akeys] using hmem)
        simp only [akeys] at ih2
        simp [upsert, hk, akeys, ih2]

theorem akeys_upsert_not_mem {κ α : Type} [DecidableEq κ] (k : κ) (v : α) (l : List (κ × α))
    (hmem : k ∉ akeys l) : akeys (upsert k v l) = akeys l ++ [k] := by
  induction l with
  | nil => simp [akeys, upsert]
  | cons h t ih =>
    simp only [akeys, List.map_cons, List.mem_cons] at hmem
    push_neg at hmem
    have ih2 := ih (by simpa [akeys] using hmem.2)
    simp only [akeys] at ih2
    simp [upsert, Ne.symm hmem.1, akeys, ih2]

theorem alookup_isSome_iff_mem_akeys {κ α : Type} [DecidableEq κ] (k : κ) (l : List (κ × α)) :
    (alookup k l).isSome = true ↔ k ∈ akeys l := by
  induction l with
  | nil => simp [alookup, akeys]
  | cons h t ih =>
    by_cases hk : h.1 = k
    · simp [alookup, akeys, hk]
    · simp [alookup, akeys, hk, ih, Ne.symm hk]

theorem alookup_eq_none_of_not_mem {κ α : Type} [DecidableEq κ] (k : κ) (l : List (κ × α))
    (hmem : k ∉ akeys l) : alookup k l = none := by
  cases hval : alookup k l with
  | none => rfl
  | some v =>
    exact absurd ((alookup_isSome_iff_mem_akeys k l).1 (by simp [hval])) hmem

theorem aerase_sublist {κ α : Type} [DecidableEq κ] (k : κ) (l : List (κ × α)) :
    (aerase k l).Sublist l := by
  induction l with
  | nil => simp [aerase]
  | cons h t ih =>
    by_cases hk : h.1 = k
    · simp only [aerase, hk, if_pos]
      exact List.sublist_cons_self h t
    · simpa [aerase, hk] using List.Sublist.cons₂ h ih

theorem akeys_nodup_upsert {κ α : Type} [DecidableEq κ] (k : κ) (v : α) (l : List (κ × α))
    (hnd : (akeys l).Nodup) : (akeys (upsert k v l)).Nodup := by
  by_cases hmem : k ∈ akeys l
  · rwa [akeys_upsert_mem k v l hmem]
  · rw [akeys_upsert_not_mem k v l hmem]
    simpa [List.nodup_append] using ⟨hnd, hmem⟩

theorem getD_set_self (l : List Int) (n : Nat) (v : Int) (h : n < l.length) :
    (l.set n v).getD n 0 = v := by
  induction l generalizing n with
  | nil => simp at h
  | cons a t ih =>
    cases n with
    | zero => simp
    | succ m => simpa using ih m (by simpa using h)

theorem getD_set_ne (l : List Int) (n m : Nat) (v : Int) (h : n ≠ m) :
    (l.set n v).getD m 0 = l.getD m 0 := by
  induction l generalizing n m with
  | nil => simp
  | cons a t ih =>
    cases n with
    | zero =>
      cases m with
      | zero => exact absurd rfl h
      | succ k => simp
    | succ n1 =>
      cases m with
      | zero => simp
      | succ k => simpa using ih n1 k (fun hc => h (by rw [hc]))

theorem sum_set (l : List Int) (n : Nat) (v : Int) (h : n < l.length) :
    (l.set n v).sum = l.sum - l.getD n 0 + v := by
  induction l generalizing n with
  | nil => simp at h
  | cons a t ih =>
    cases n with
    | zero => simp [List.sum_cons]; ring
    | succ m =>
      have := ih m (by simpa using h)
      simp [List.sum_cons, this]; ring

theorem length_set_int (l : List Int) (n : Nat) (v : Int) :
    (l.set n v).length = l.length := List.length_set l n v

/-- C4 counterexample input: parent count 5, a single subcounter at 0, and a
transfer of 3 from the parent.  The call succeeds but the source's (the
parent's) count stays 5; the claim demands it drop to 2. -/
theorem subcounter_parent_transfer_keeps_parent_count :
    (SubCounter.update_from ⟨5, [0]⟩ 0 SrcRef.parent 3).map MultiBar.parentCount
      = Except.ok 5 ∧ (5 : Int) ≠ 5 - 3 := by
  constructor
  · rfl
  · decide

/-- C4 (amended): a successful `update_from` increases the destination by
`incr`; a peer source is decremented by `incr` and the parent's remainder is
unchanged; a parent source keeps its own count and the remainder drops by
`incr`; in both cases a nonnegative remainder stays nonnegative.  All
validation in the source precedes any mutation, so a raising call leaves the
counts untouched. -/
theorem subcounter_update_from_transfer (b : MultiBar) (dest : Nat) (incr : Int)
    (hdest : dest < b.subCounts.length) (hrem : 0 ≤ b.parentCount - b.subcount) :
    (∀ b2, SubCounter.update_from b dest SrcRef.parent incr = .ok b2 →
       b2.parentCount = b.parentCount ∧
       b2.subCounts.getD dest 0 = b.subCounts.getD dest 0 + incr ∧
       (∀ k, k ≠ dest → b2.subCounts.getD k 0 = b.subCounts.getD k 0) ∧
       b2.parentCount - b2.subcount = b.parentCount - b.subcount - incr ∧
       0 ≤ b2.parentCount - b2.subcount) ∧
    (∀ j b2, j ≠ dest → SubCounter.update_from b dest (SrcRef.peer j) incr = .ok b2 →
       b2.parentCount = b.parentCount ∧
       b2.subCounts.getD dest 0 = b.subCounts.getD dest 0 + incr ∧
       b2.subCounts.getD j 0 = b.subCounts.getD j 0 - incr ∧
       b2.parentCount - b2.subcount = b.parentCount - b.subcount ∧
       0 ≤ b2.parentCount - b2.subcount) := by
  constructor
  · intro b2 hok
    simp only [SubCounter.update_from] at hok
    split at hok
    · cases hok
    split at hok
    · cases hok
    next h2 =>
    injection hok with hb2
    subst hb2
    have h2i : 0 ≤ b.parentCount - MultiBar.subcount b - incr := by omega
    refine ⟨rfl, getD_set_self _ _ _ hdest, fun k hk => getD_set_ne _ _ _ _ (fun hc => hk hc.symm), ?_, ?_⟩
    · simp only [MultiBar.subcount, sum_set _ _ _ hdest]
      ring
    · simp only [MultiBar.subcount, sum_set _ _ _ hdest]
      have hre : b.parentCount - (b.subCounts.sum - b.subCounts.getD dest 0 +
          (b.subCounts.getD dest 0 + incr)) = b.parentCount - b.subCounts.sum - incr := by ring
      rw [hre]
      simpa [MultiBar.subcount] using h2i
  · intro j b2 hj hok
    simp only [SubCounter.update_from] at hok
    by_cases hjl : j < b.subCounts.length
    · simp only [hjl, if_true] at hok
      split at hok
      · cases hok
      injection hok with hb2
      subst hb2
      have hafter : (b.subCounts.set j (b.subCounts.getD j 0 - incr)).getD dest 0
          = b.subCounts.getD dest 0 := getD_set_ne _ _ _ _ hj
      have hdest2 : dest < (b.subCounts.set j (b.subCounts.getD j 0 - incr)).length := by
        simpa [length_set_int] using hdest
      refine ⟨rfl, ?_, ?_, ?_, ?_⟩
      · rw [hafter]
        exact getD_set_self _ _ _ hdest2
      · rw [getD_set_ne _ _ _ _ (fun hc => hj hc.symm)]
        exact getD_set_self _ _ _ hjl
      · simp only [MultiBar.subcount, sum_set _ _ _ hdest2, sum_set _ _ _ hjl, hafter]
        ring
      · simp only [MultiBar.subcount, sum_set _ _ _ hdest2, sum_set _ _ _ hjl, hafter]
        have : b.parentCount - (b.subCounts.sum - b.subCounts.getD j 0 +
            (b.subCounts.getD j 0 - incr) - b.subCounts.getD dest 0 +
            (b.subCounts.getD dest 0 + incr)) = b.parentCount - b.subCounts.sum := by ring
        rw [this]
        simpa [MultiBar.subcount] using hrem
    · simp [hjl] at hok

/-- Witness for `subcounter_update_from_transfer` at parent count 5,
subcounters `[2, 1]`, transferring 1 from peer 1 to subcounter 0. -/
theorem subcounter_update_from_transfer_witness :
    SubCounter.update_from ⟨5, [2, 1]⟩ 0 (SrcRef.peer 1) 1 = .ok ⟨5, [3, 0]⟩ ∧
    (MultiBar.mk 5 [3, 0]).parentCount - (MultiBar.mk 5 [3, 0]).subcount =
      (MultiBar.mk 5 [2, 1]).parentCount - (MultiBar.mk 5 [2, 1]).subcount := by
  have h := (subcounter_update_from_transfer ⟨5, [2, 1]⟩ 0 1 (by decide) (by decide)).2
      1 ⟨5, [3, 0]⟩ (by decide) (by rfl)
  exact ⟨rfl, h.2.2.2.1⟩

/-- C2: on a fresh enabled manager of height 25, `Manager._add_counter` with
`position=0` raises nothing and pins the counter at row offset 0, mutating the
row table; `BaseManager._add_counter` (and the repository's own
`test_manager.py`) instead demand `ValueError: Counter position 0 is less
than 1`.  The first and second conjuncts evaluate the `Manager` variant at
the failing input; the third evaluates the `BaseManager` variant. -/
theorem position_zero_pin_accepted_by_manager :
    isRaised (Manager.add_counter {} 1 {} (some 0) false false dueNever) = false ∧
    (resState (Manager.add_counter {} 1 {} (some 0) false false dueNever)).counters
      = [(1, 0)] ∧
    bmErrMsg (BaseManager.add_counter {} 1 {} (some 0) false none)
      = some "ValueError: Counter position is less than 1." := by
  refine ⟨by decide, by decide, by decide⟩

theorem EqTables_refl (w : World) : EqTables w w := ⟨rfl, rfl, rfl⟩

theorem EqTables_trans {w1 w2 w3 : World} (h1 : EqTables w1 w2) (h2 : EqTables w2 w3) :
    EqTables w1 w3 :=
  ⟨h2.1.trans h1.1, h2.2.1.trans h1.2.1, h2.2.2.trans h1.2.2⟩

theorem EqFlags_refl (w : World) : EqFlags w w := ⟨rfl, rfl, rfl, rfl, rfl, rfl, rfl⟩

theorem EqFlags_trans {w1 w2 w3 : World} (h1 : EqFlags w1 w2) (h2 : EqFlags w2 w3) :
    EqFlags w1 w3 :=
  ⟨h2.1.trans h1.1, h2.2.1.trans h1.2.1, h2.2.2.1.trans h1.2.2.1,
   h2.2.2.2.1.trans h1.2.2.2.1, h2.2.2.2.2.1.trans h1.2.2.2.2.1,
   h2.2.2.2.2.2.1.trans h1.2.2.2.2.2.1, h2.2.2.2.2.2.2.trans h1.2.2.2.2.2.2⟩

theorem le_foldl_max_init (l : List Int) (a : Int) : a ≤ l.foldl max a := by
  induction l generalizing a with
  | nil => exact le_refl a
  | cons b t ih => exact le_trans (le_max_left a b) (ih (max a b))

theorem le_foldl_max_mem (l : List Int) (a v : Int) (hv : v ∈ l) : v ≤ l.foldl max a := by
  induction l generalizing a with
  | nil => simp at hv
  | cons b t ih =>
    simp only [List.mem_cons] at hv
    simp only [List.foldl_cons]
    rcases hv with hv | hv
    · subst hv
      exact le_trans (le_max_right a v) (le_foldl_max_init t (max a v))
    · exact ih (max a b) hv

theorem foldl_max_le (l : List Int) (a c : Int) (ha : a ≤ c) (h : ∀ v ∈ l, v ≤ c) :
    l.foldl max a ≤ c := by
  induction l generalizing a with
  | nil => exact ha
  | cons b t ih =>
    simp only [List.foldl_cons]
    exact ih (max a b) (max_le ha (h b (by simp))) (fun v hv => h v (by simp [hv]))

theorem maxVals_ge (l : List (Nat × Int)) (v : Int) (hv : v ∈ l.map Prod.snd) :
    v ≤ maxVals l := by
  match l with
  | [] => simp at hv
  | (k, a) :: t =>
    simp only [maxVals]
    simp only [List.map_cons, List.mem_cons] at hv
    rcases hv with hv | hv
    · subst hv
      exact le_foldl_max_init _ _
    · exact le_foldl_max_mem _ _ _ hv

theorem maxVals_le (l : List (Nat × Int)) (c : Int) (hne : l ≠ [])
    (h : ∀ v ∈ l.map Prod.snd, v ≤ c) : maxVals l ≤ c := by
  match l with
  | [] => exact absurd rfl hne
  | (k, a) :: t =>
    simp only [maxVals]
    exact foldl_max_le _ _ _ (h a (by simp)) (fun v hv => h v (by simp [hv]))

/-- On a nonempty row table `_set_scroll_area` never raises. -/
theorem ssa_ok_exists (w : World) (force : Bool) (hne : w.counters ≠ []) :
    ∃ w1, set_scroll_area w force = .ok w1 := by
  have hemp : w.counters.isEmpty = false := by
    cases h : w.counters with
    | nil => exact absurd h hne
    | cons a t => rfl
  simp only [set_scroll_area, hemp, Bool.false_eq_true, if_false]
  split_ifs <;> exact ⟨_, rfl⟩

/-- A normal `_set_scroll_area` return leaves the tables, flags, stream and
warnings untouched, sets `scroll_offset` to the maximum of its old value and
`max(positions) + 1`, and appends only cursor-control events to the buffer. -/
theorem ssa_ok_core (w w1 : World) (force : Bool)
    (h : set_scroll_area w force = .ok w1) :
    EqTables w w1 ∧ EqFlags w w1 ∧ w1.out = w.out ∧ w1.warnings = w.warnings ∧
    w1.scroll_offset = max w.scroll_offset (maxVals w.counters + 1) ∧
    ∃ E, w1.buffer = w.buffer ++ E ∧ E.all isCtl = true := by
  simp only [set_scroll_area] at h
  split_ifs at h
  all_goals first
    | exact Except.noConfusion h
    | (injection h with h
       subst h
       refine ⟨⟨rfl, rfl, rfl⟩, ⟨rfl, rfl, rfl, rfl, rfl, rfl, rfl⟩, rfl, rfl, ?_, ?_⟩
       case _ =>
         simp_all only [decide_eq_true_eq, gt_iff_lt, not_lt, List.isEmpty_eq_true]
         omega
       case _ => first
         | exact ⟨_, rfl, by simp [isCtl]⟩
         | exact ⟨[], by simp, rfl⟩)

theorem alookup_ne_nil {κ α : Type} [DecidableEq κ] {k : κ} {l : List (κ × α)} {v : α}
    (h : alookup k l = some v) : l ≠ [] := by
  intro hl
  subst hl
  cases h

/-- A `Manager.write` body on a counter present in the row table, made while
`refresh_lock` is free and no bars autorefresh: it never raises, stages the
four-event block at the counter's row followed by cursor-control events, and
flushes exactly when asked to. -/
theorem writeBody_run (w : World) (output : Event) (flush : Bool) (cid : Nat)
    (due : Nat → Bool) (pos : Int)
    (hrl : w.refresh_lock = false) (har : w.autorefresh = [])
    (hpos : alookup cid w.counters = some pos) :
    ∃ w1 E2, writeBody w output flush (some cid) due = .ok w1 ∧
      EqTables w w1 ∧ EqFlags w w1 ∧ w1.warnings = w.warnings ∧
      w1.scroll_offset = max w.scroll_offset (maxVals w.counters + 1) ∧
      E2.all isCtl = true ∧
      ((flush = false ∧ w1.buffer = w.buffer ++
          [Event.move (w.termHeight - pos) 0, Event.cr, Event.clearEol, output] ++ E2 ∧
        w1.out = w.out) ∨
       (flush = true ∧ w1.buffer = [] ∧ w1.out = w.out ++ w.buffer ++
          [Event.move (w.termHeight - pos) 0, Event.cr, Event.clearEol, output] ++ E2)) := by
  have hne : w.counters ≠ [] := alookup_ne_nil hpos
  have hsne : (stage w output pos).counters ≠ [] := hne
  obtain ⟨w2, hw2⟩ := ssa_ok_exists (stage w output pos) false hsne
  obtain ⟨hT, hF, hout, hwarn, hso, E, hbuf, hctl⟩ :=
    ssa_ok_core (stage w output pos) w2 false hw2
  have hrl2 : (stage w output pos).refresh_lock = false := hrl
  have har2 : (stage w output pos).autorefresh.isEmpty = true := by
    show w.autorefresh.isEmpty = true
    simp [har]
  refine ⟨if flush then flush_streams w2 else w2, E, ?_, ?_, ?_, ?_, ?_, hctl, ?_⟩
  · simp only [writeBody, hpos, hrl2, Bool.false_eq_true, if_false, har2, if_true, hw2]
  · have h1 : EqTables (stage w output pos) w2 := hT
    have h2 : EqTables w (stage w output pos) := ⟨rfl, rfl, rfl⟩
    have h3 : EqTables w w2 := EqTables_trans h2 h1
    cases flush <;> simp only [if_true, if_false, Bool.false_eq_true] <;> exact h3
  · have h2 : EqFlags w (stage w output pos) := ⟨rfl, rfl, rfl, rfl, rfl, rfl, rfl⟩
    have h3 : EqFlags w w2 := EqFlags_trans h2 hF
    cases flush <;> simp only [if_true, if_false, Bool.false_eq_true] <;> exact h3
  · cases flush <;> simpa using hwarn
  · cases flush <;> simpa using hso
  · cases flush with
    | false =>
      refine Or.inl ⟨rfl, ?_, ?_⟩
      · simp only [Bool.false_eq_true, if_false]
        rw [hbuf]
        show (w.buffer ++ [Event.move (w.termHeight - pos) 0, Event.cr, Event.clearEol,
          output]) ++ E = _
        simp [List.append_assoc]
      · simpa using hout
    | true =>
      refine Or.inr ⟨rfl, ?_, ?_⟩
      · simp [flush_streams]
      · simp only [if_true, flush_streams]
        rw [hout, hbuf]
        show w.out ++ ((w.buffer ++ _) ++ E) = _
        simp [List.append_assoc]

/-- The `Manager.write` wrapper reduces to its body when the manager is
enabled and no resize is pending. -/
theorem write_quiet (w : World) (output : Event) (flush : Bool) (counter : Option Nat)
    (due : Nat → Bool) (hen : w.enabled = true) (hrp : w.resizePending = false) :
    Manager.write w output flush counter due = writeBody w output flush counter due := by
  simp [Manager.write, hen, hrp]

/-- `PrintableCounter.clear` with `flush=False` in a quiet state (no pending
resize, no autorefresh bars, refresh lock free): never raises, leaves tables,
flags, stream and warnings alone, and either does nothing (manager or counter
disabled) or stages the clear block at the counter's current row and applies
the scroll-offset update. -/
theorem clear_run (w : World) (cid : Nat) (due : Nat → Bool) (pos : Int) (st : CtrState)
    (hst : alookup cid w.ctrs = some st)
    (hrl : w.refresh_lock = false) (har : w.autorefresh = [])
    (hrp : w.resizePending = false)
    (hpos : alookup cid w.counters = some pos) :
    ∃ w1 E2, PrintableCounter.clear w cid false due = .ok w1 ∧
      EqTables w w1 ∧ EqFlags w w1 ∧ w1.warnings = w.warnings ∧ w1.out = w.out ∧
      w.scroll_offset ≤ w1.scroll_offset ∧ E2.all isCtl = true ∧
      ((w1 = w ∧ E2 = [] ∧ (w.enabled = false ∨ st.enabled = false)) ∨
       (w.enabled = true ∧ st.enabled = true ∧
        w1.buffer = w.buffer ++ [Event.move (w.termHeight - pos) 0, Event.cr,
          Event.clearEol, Event.raw ""] ++ E2 ∧
        w1.scroll_offset = max w.scroll_offset (maxVals w.counters + 1))) := by
  by_cases hce : st.enabled = true
  · by_cases hen : w.enabled = true
    · obtain ⟨w1, E2, hrun, hT, hF, hwarn, hso, hctl, hcase⟩ :=
        writeBody_run w (Event.raw "") false cid due pos hrl har hpos
      refine ⟨w1, E2, ?_, hT, hF, hwarn, ?_, ?_, hctl, ?_⟩
      · simp only [PrintableCounter.clear, hst, hce, if_true,
          write_quiet w _ _ _ due hen hrp, hrun]
      · rcases hcase with ⟨_, _, ho⟩ | ⟨hfl, _⟩
        · exact ho
        · cases hfl
      · rw [hso]
        exact le_max_left _ _
      · rcases hcase with ⟨_, hb, _⟩ | ⟨hfl, _⟩
        · exact Or.inr ⟨hen, hce, hb, hso⟩
        · cases hfl
    · refine ⟨w, [], ?_, EqTables_refl w, EqFlags_refl w, rfl, rfl, le_refl _, rfl,
        Or.inl ⟨rfl, rfl, Or.inl (by simpa using hen)⟩⟩
      simp only [PrintableCounter.clear, hst, hce, if_true, Manager.write]
      simp [hen]
  · refine ⟨w, [], ?_, EqTables_refl w, EqFlags_refl w, rfl, rfl, le_refl _, rfl,
      Or.inl ⟨rfl, rfl, Or.inr (by simpa using hce)⟩⟩
    simp [PrintableCounter.clear, hst, hce]

/-- `PrintableCounter.refresh` in a quiet state: never raises; either does
nothing (manager or counter disabled) or stages the redraw block at the
counter's current row, applies the scroll-offset update, and flushes exactly
when asked to. -/
theorem refresh_run (w : World) (cid : Nat) (due : Nat → Bool) (flush : Bool)
    (pos : Int) (st : CtrState)
    (hst : alookup cid w.ctrs = some st)
    (hrl : w.refresh_lock = false) (har : w.autorefresh = [])
    (hrp : w.resizePending = false)
    (hpos : alookup cid w.counters = some pos) :
    ∃ w1 E2, PrintableCounter.refresh w cid flush due = .ok w1 ∧
      EqTables w w1 ∧ EqFlags w w1 ∧ w1.warnings = w.warnings ∧
      w.scroll_offset ≤ w1.scroll_offset ∧ E2.all isCtl = true ∧
      (flush = false → w1.out = w.out) ∧
      ((w1 = w ∧ E2 = [] ∧ (w.enabled = false ∨ st.enabled = false)) ∨
       (w.enabled = true ∧ st.enabled = true ∧
        w1.scroll_offset = max w.scroll_offset (maxVals w.counters + 1) ∧
        ((flush = false ∧ w1.buffer = w.buffer ++ [Event.move (w.termHeight - pos) 0,
            Event.cr, Event.clearEol, Event.text cid] ++ E2 ∧ w1.out = w.out) ∨
         (flush = true ∧ w1.buffer = [] ∧ w1.out = w.out ++ w.buffer ++
            [Event.move (w.termHeight - pos) 0, Event.cr, Event.clearEol,
             Event.text cid] ++ E2)))) := by
  by_cases hce : st.enabled = true
  · by_cases hen : w.enabled = true
    · obtain ⟨w1, E2, hrun, hT, hF, hwarn, hso, hctl, hcase⟩ :=
        writeBody_run w (Event.text cid) flush cid due pos hrl har hpos
      refine ⟨w1, E2, ?_, hT, hF, hwarn, ?_, hctl, ?_, ?_⟩
      · simp only [PrintableCounter.refresh, hst, hce, if_true,
          write_quiet w _ _ _ due hen hrp, hrun]
      · rw [hso]
        exact le_max_left _ _
      · intro hfl
        rcases hcase with ⟨_, _, ho⟩ | ⟨hfl2, _⟩
        · exact ho
        · rw [hfl] at hfl2
          cases hfl2
      · exact Or.inr ⟨hen, hce, hso, hcase⟩
    · refine ⟨w, [], ?_, EqTables_refl w, EqFlags_refl w, rfl, le_refl _, rfl,
        fun _ => rfl, Or.inl ⟨rfl, rfl, Or.inl (by simpa using hen)⟩⟩
      simp only [PrintableCounter.refresh, hst, hce, if_true, Manager.write]
      simp [hen]
  · refine ⟨w, [], ?_, EqTables_refl w, EqFlags_refl w, rfl, le_refl _, rfl,
      fun _ => rfl, Or.inl ⟨rfl, rfl, Or.inr (by simpa using hce)⟩⟩
    simp [PrintableCounter.refresh, hst, hce]

theorem alookup_mem_values {κ α : Type} [DecidableEq κ] {k : κ} {l : List (κ × α)} {v : α}
    (h : alookup k l = some v) : v ∈ l.map Prod.snd := by
  induction l with
  | nil => cases h
  | cons a t ih =>
    by_cases hk : a.1 = k
    · simp only [alookup, hk, if_true, Option.some.injEq] at h
      simp [← h]
    · simp only [alookup, hk, if_false] at h
      simp [ih h]

theorem values_upsert_subset {κ α : Type} [DecidableEq κ] (k : κ) (x : α)
    (l : List (κ × α)) (v : α) (hv : v ∈ (upsert k x l).map Prod.snd) :
    v ∈ l.map Prod.snd ∨ v = x := by
  induction l with
  | nil => simpa [upsert] using hv
  | cons a t ih =>
    by_cases hk : a.1 = k
    · simp only [upsert, hk, if_true, List.map_cons, List.mem_cons] at hv
      rcases hv with hv | hv
      · exact Or.inr hv
      · exact Or.inl (by simp [hv])
    · simp only [upsert, hk, if_false, List.map_cons, List.mem_cons] at hv
      rcases hv with hv | hv
      · exact Or.inl (by simp [hv])
      · rcases ih hv with h | h
        · exact Or.inl (by simp [h])
        · exact Or.inr h

/-- Master description of one run of the reassignment loop in a quiet state:
it never raises; it preserves flags, counter objects, autorefresh list,
warnings and stream; it does not touch the positions of counters outside the
walked list; the walked non-pinned counters end at exactly the offsets of the
spec's walk (`walkAssign`); the scroll offset only grows, staying below any
bound that dominates the initial offset and both tables; the refresh queue
only grows; and every walked enabled counter whose offset changed had its
clear block staged at its old row and was queued for refresh. -/
theorem assignLoop_run (clearNewToo : Bool) (newCid : Nat) (pinned : List (Int × Nat))
    (due : Nat → Bool) (L : List Nat) (p0 : Int) (toR0 : List Nat) (w : World)
    (hrl : w.refresh_lock = false) (har : w.autorefresh = [])
    (hrp : w.resizePending = false) (hnd : L.Nodup)
    (hsub : ∀ c ∈ L, c ∈ akeys w.counters)
    (hctr : ∀ c ∈ L, (alookup c w.ctrs).isSome = true) :
    ∃ w1 toR1,
      assignLoop clearNewToo newCid pinned due L p0 toR0 w = .ok (w1, toR1) ∧
      EqFlags w w1 ∧ w1.ctrs = w.ctrs ∧ w1.autorefresh = w.autorefresh ∧
      w1.warnings = w.warnings ∧ w1.out = w.out ∧
      akeys w1.counters = akeys w.counters ∧
      (∀ c, c ∉ L → alookup c w1.counters = alookup c w.counters) ∧
      (∃ E, w1.buffer = w.buffer ++ E) ∧
      (∀ c q, (c, q) ∈ walkAssign (pinned.map Prod.fst)
          (L.filter (fun x => ¬ x ∈ pinned.map Prod.snd)) p0 →
        alookup c w1.counters = some q) ∧
      w.scroll_offset ≤ w1.scroll_offset ∧
      (∀ B, (∀ v ∈ w.counters.map Prod.snd, v + 1 ≤ B) →
        (∀ v ∈ w1.counters.map Prod.snd, v + 1 ≤ B) →
        w.scroll_offset ≤ B → w1.scroll_offset ≤ B) ∧
      (∃ adds, toR1 = toR0 ++ adds) ∧
      (∀ c, c ∈ pinned.map Prod.snd → alookup c w1.counters = alookup c w.counters) ∧
      (∀ c, c ∈ toR1 → c ∈ toR0 ∨ c ∈ L) ∧
      (∀ c X st, c ∈ L → ¬ c ∈ pinned.map Prod.snd →
        alookup c w.counters = some X → alookup c w.ctrs = some st →
        (c ≠ newCid ∨ clearNewToo = true) → w.enabled = true → st.enabled = true →
        alookup c w1.counters ≠ some X →
        (c ∈ toR1 ∧ ∃ E1 E2, w1.buffer = w.buffer ++ E1 ++
          [Event.move (w.termHeight - X) 0, Event.cr, Event.clearEol, Event.raw ""]
          ++ E2)) := by
  induction L generalizing p0 toR0 w with
  | nil =>
    refine ⟨w, toR0, rfl, EqFlags_refl w, rfl, rfl, rfl, rfl, rfl,
      fun c _ => rfl, ⟨[], by simp⟩, ?_, le_refl _, fun B _ _ hso => hso,
      ⟨[], by simp⟩, fun c _ => rfl, fun c hc => Or.inl hc, ?_⟩
    · intro c q hq
      simp [walkAssign] at hq
    · intro c X st hc
      simp at hc
  | cons a rest ih =>
    rw [List.nodup_cons] at hnd
    obtain ⟨hanr, hndr⟩ := hnd
    by_cases hpin : a ∈ pinned.map Prod.snd
    · -- pinned counter: skipped
      obtain ⟨w1, toR1, hrun, hF, hcs, har1, hw1, ho1, hk1, hunt, hbufE, hwalk, hsole,
        hbound, hadds, hpinun, htoRm, hG⟩ :=
        ih p0 toR0 w hrl har hrp hndr (fun c hc => hsub c (by simp [hc]))
          (fun c hc => hctr c (by simp [hc]))
      refine ⟨w1, toR1, ?_, hF, hcs, har1, hw1, ho1, hk1, ?_, hbufE, ?_, hsole, hbound,
        hadds, hpinun, fun c hc => (htoRm c hc).imp id (fun h => by simp [h]), ?_⟩
      · simpa [assignLoop, hpin] using hrun
      · intro c hc
        exact hunt c (fun hcr => hc (by simp [hcr]))
      · intro c q hq
        apply hwalk
        simpa [hpin] using hq
      · intro c X st hc hcp hcX hcs2 hcn hen hse hne
        rcases (by simpa using hc : c = a ∨ c ∈ rest) with hca | hcr
        · exact absurd (hca ▸ hpin) hcp
        · exact hG c X st hcr hcp hcX hcs2 hcn hen hse hne
    · -- not pinned: assign next free offset
      have hmem : a ∈ akeys w.counters := hsub a (by simp)
      obtain ⟨old, hold⟩ : ∃ old, alookup a w.counters = some old := by
        have := (alookup_isSome_iff_mem_akeys a w.counters).2 hmem
        cases h : alookup a w.counters with
        | none => rw [h] at this; cases this
        | some v => exact ⟨v, rfl⟩
      by_cases hqo : nextFree (pinned.map Prod.fst) p0 = old
      · -- offset unchanged: no clear, no table write
        obtain ⟨w1, toR1, hrun, hF, hcs, har1, hw1, ho1, hk1, hunt, hbufE, hwalk, hsole,
          hbound, hadds, hpinun, htoRm, hG⟩ :=
          ih (nextFree (pinned.map Prod.fst) p0 + 1) toR0 w hrl har hrp hndr
            (fun c hc => hsub c (by simp [hc]))
            (fun c hc => hctr c (by simp [hc]))
        refine ⟨w1, toR1, ?_, hF, hcs, har1, hw1, ho1, hk1, ?_, hbufE, ?_, hsole, hbound,
          hadds, hpinun, fun c hc => (htoRm c hc).imp id (fun h => by simp [h]), ?_⟩
        · have hstep : assignLoop clearNewToo newCid pinned due (a :: rest) p0 toR0 w
              = assignLoop clearNewToo newCid pinned due rest
                  (nextFree (pinned.map Prod.fst) p0 + 1) toR0 w := by
            simp only [assignLoop, if_neg hpin, hold]
            rw [if_pos hqo]
          rw [hstep]
          exact hrun
        · intro c hc
          exact hunt c (fun hcr => hc (by simp [hcr]))
        · intro c q2 hq2
          rw [show (a :: rest).filter (fun x => ¬ x ∈ pinned.map Prod.snd)
              = a :: rest.filter (fun x => ¬ x ∈ pinned.map Prod.snd) by
            simp [List.filter_cons, hpin]] at hq2
          simp only [walkAssign, List.mem_cons, Prod.mk.injEq] at hq2
          rcases hq2 with ⟨hc, hv⟩ | hq2
          · rw [hc, hv, hunt a hanr, hold, hqo]
          · exact hwalk c q2 hq2
        · intro c X st hc hcp hcX hcs2 hcn hen hse hne
          rcases (by simpa using hc : c = a ∨ c ∈ rest) with hca | hcr
          · subst hca
            have huc : alookup c w1.counters = alookup c w.counters := hunt c hanr
            rw [huc, hcX] at hne
            exact absurd rfl hne
          · exact hG c X st hcr hcp hcX hcs2 hcn hen hse hne
      · -- offset changed
        obtain ⟨st, hst⟩ : ∃ st, alookup a w.ctrs = some st := by
          have hs := hctr a (by simp)
          cases h : alookup a w.ctrs with
          | none => rw [h] at hs; cases hs
          | some v => exact ⟨v, rfl⟩
        by_cases hclr : ¬ a = newCid ∨ clearNewToo = true
        · -- clear at the old row, queue for refresh, write the new offset
          obtain ⟨w', E2, hcrun, hT', hF', hwarn', hout', hsole', hctl', hcase⟩ :=
            clear_run w a due old st hst hrl har hrp hold
          have hwc : w'.counters = w.counters := hT'.1
          have hamem : a ∈ akeys w'.counters := by rw [hwc]; exact hmem
          have hkeysU : akeys (upsert a (nextFree (pinned.map Prod.fst) p0) w'.counters)
              = akeys w.counters := by
            rw [akeys_upsert_mem _ _ _ hamem, hwc]
          obtain ⟨w1, toR1, hrun, hFr, hcsr, harr, hwarnr, houtr, hkr, huntr, hbufEr,
            hwalkr, hsoler, hboundr, haddsr, hpinunr, htoRmr, hGr⟩ :=
            ih (nextFree (pinned.map Prod.fst) p0 + 1) (toR0 ++ [a])
              { w' with counters := upsert a (nextFree (pinned.map Prod.fst) p0) w'.counters }
              (by show w'.refresh_lock = false; rw [hF'.2.2.2.1]; exact hrl)
              (by show w'.autorefresh = []; rw [hT'.2.2]; exact har)
              (by show w'.resizePending = false; rw [hF'.2.2.2.2.2.1]; exact hrp)
              hndr
              (fun c hc => by
                show c ∈ akeys (upsert a (nextFree (pinned.map Prod.fst) p0) w'.counters)
                rw [hkeysU]; exact hsub c (by simp [hc]))
              (fun c hc => by
                show (alookup c w'.ctrs).isSome = true
                rw [hT'.2.1]; exact hctr c (by simp [hc]))
          have hwua : alookup a w1.counters
              = some (nextFree (pinned.map Prod.fst) p0) := by
            rw [huntr a hanr]
            exact alookup_upsert_self _ _ _
          refine ⟨w1, toR1, ?_, ?_, ?_, ?_, ?_, ?_, ?_, ?_, ?_, ?_, ?_, ?_, ?_, ?_, ?_, ?_⟩
          · have hstep : assignLoop clearNewToo newCid pinned due (a :: rest) p0 toR0 w
                = assignLoop clearNewToo newCid pinned due rest
                    (nextFree (pinned.map Prod.fst) p0 + 1) (toR0 ++ [a])
                    { w' with counters :=
                        upsert a (nextFree (pinned.map Prod.fst) p0) w'.counters } := by
              simp only [assignLoop, if_neg hpin, hold]
              rw [if_neg hqo, if_pos hclr, hcrun]
            rw [hstep]
            exact hrun
          · exact EqFlags_trans hF' (EqFlags_trans ⟨rfl, rfl, rfl, rfl, rfl, rfl, rfl⟩ hFr)
          · rw [hcsr]
            show w'.ctrs = w.ctrs
            exact hT'.2.1
          · rw [harr]
            show w'.autorefresh = w.autorefresh
            exact hT'.2.2
          · rw [hwarnr]
            exact hwarn'
          · rw [houtr]
            exact hout'
          · rw [hkr]
            exact hkeysU
          · intro c hc
            have hcr : c ∉ rest := fun h => hc (by simp [h])
            have hca : ¬ a = c := fun h => hc (by simp [h])
            rw [huntr c hcr]
            show alookup c (upsert a (nextFree (pinned.map Prod.fst) p0) w'.counters) = _
            rw [alookup_upsert_ne _ _ _ _ hca, hwc]
          · obtain ⟨E, hE⟩ := hbufEr
            rcases hcase with ⟨hww, _, _⟩ | ⟨_, _, hbb, _⟩
            · exact ⟨E, by rw [hE]; show w'.buffer ++ E = _; rw [hww]⟩
            · refine ⟨[Event.move (w.termHeight - old) 0, Event.cr, Event.clearEol,
                Event.raw ""] ++ E2 ++ E, ?_⟩
              rw [hE]
              show w'.buffer ++ E = _
              rw [hbb]
              simp [List.append_assoc]
          · intro c q2 hq2
            rw [show (a :: rest).filter (fun x => ¬ x ∈ pinned.map Prod.snd)
                = a :: rest.filter (fun x => ¬ x ∈ pinned.map Prod.snd) by
              simp [List.filter_cons, hpin]] at hq2
            simp only [walkAssign, List.mem_cons, Prod.mk.injEq] at hq2
            rcases hq2 with ⟨hc, hv⟩ | hq2
            · rw [hc, hv]
              exact hwua
            · exact hwalkr c q2 hq2
          · exact le_trans hsole' hsoler
          · intro B hB0 hB1 hso
            have hq1B : nextFree (pinned.map Prod.fst) p0 + 1 ≤ B :=
              hB1 _ (alookup_mem_values hwua)
            have hwpB : w'.scroll_offset ≤ B := by
              rcases hcase with ⟨hww, _, _⟩ | ⟨_, _, _, hmax⟩
              · rw [hww]; exact hso
              · rw [hmax]
                have hmv : maxVals w.counters + 1 ≤ B := by
                  have : maxVals w.counters ≤ B - 1 :=
                    maxVals_le _ _ (alookup_ne_nil hold)
                      (fun v hv => by have := hB0 v hv; omega)
                  omega
                exact max_le hso (by omega)
            refine hboundr B ?_ hB1 hwpB
            intro v hv
            rcases values_upsert_subset _ _ _ _ hv with h | h
            · rw [hwc] at h
              exact hB0 v h
            · omega
          · obtain ⟨adds, hadds2⟩ := haddsr
            exact ⟨[a] ++ adds, by rw [hadds2]; simp⟩
          · intro c hcp
            have hca : ¬ a = c := fun h => hpin (by rw [h]; exact hcp)
            rw [hpinunr c hcp]
            show alookup c (upsert a (nextFree (pinned.map Prod.fst) p0) w'.counters) = _
            rw [alookup_upsert_ne _ _ _ _ hca, hwc]
          · intro c hc
            rcases htoRmr c hc with h | h
            · rcases List.mem_append.1 h with h | h
              · exact Or.inl h
              · exact Or.inr (by simp at h; simp [h])
            · exact Or.inr (by simp [h])
          · intro c X st2 hc hcp hcX hcst hcn hen hse hne
            rcases (by simpa using hc : c = a ∨ c ∈ rest) with hca | hcr
            · subst hca
              have hXold : X = old := Option.some.inj (by rw [← hcX]; exact hold)
              have hstst : st2 = st := Option.some.inj (by rw [← hcst]; exact hst)
              rcases hcase with ⟨_, _, hdis⟩ | ⟨_, _, hbb, _⟩
              · rcases hdis with hdis | hdis
                · rw [hen] at hdis; cases hdis
                · rw [hstst] at hse
                  rw [hse] at hdis
                  cases hdis
              · constructor
                · obtain ⟨adds, hadds2⟩ := haddsr
                  rw [hadds2]
                  simp
                · obtain ⟨E, hE⟩ := hbufEr
                  refine ⟨[], E2 ++ E, ?_⟩
                  rw [hE]
                  show w'.buffer ++ E = _
                  rw [hbb, hXold]
                  simp [List.append_assoc]
            · have hcna : ¬ a = c := fun h => hanr (h ▸ hcr)
              obtain ⟨hmemR, E1, E2b, hbufG⟩ :=
                hGr c X st2 hcr hcp
                  (by show alookup c (upsert a _ w'.counters) = some X
                      rw [alookup_upsert_ne _ _ _ _ hcna, hwc]
                      exact hcX)
                  (by show alookup c w'.ctrs = some st2
                      rw [hT'.2.1]
                      exact hcst)
                  hcn
                  (by show w'.enabled = true
                      rw [hF'.1]
                      exact hen)
                  hse hne
              refine ⟨hmemR, ?_⟩
              have hth : w'.termHeight = w.termHeight := hF'.2.2.2.2.2.2
              have hbufG2 : w1.buffer = w'.buffer ++ E1 ++ [Event.move (w.termHeight - X) 0,
                  Event.cr, Event.clearEol, Event.raw ""] ++ E2b := by
                rw [← hth]
                exact hbufG
              rcases hcase with ⟨hww, _, _⟩ | ⟨_, _, hbb, _⟩
              · refine ⟨E1, E2b, ?_⟩
                rw [hbufG2, hww]
              · refine ⟨[Event.move (w.termHeight - old) 0, Event.cr, Event.clearEol,
                  Event.raw ""] ++ E2 ++ E1, E2b, ?_⟩
                rw [hbufG2, hbb]
                simp [List.append_assoc]
        · -- the new, freshly added counter: no clear, just write the offset
          push_neg at hclr
          obtain ⟨haNew, hcnt⟩ := hclr
          have hkeysU : akeys (upsert a (nextFree (pinned.map Prod.fst) p0) w.counters)
              = akeys w.counters := akeys_upsert_mem _ _ _ hmem
          obtain ⟨w1, toR1, hrun, hFr, hcsr, harr, hwarnr, houtr, hkr, huntr, hbufEr,
            hwalkr, hsoler, hboundr, haddsr, hpinunr, htoRmr, hGr⟩ :=
            ih (nextFree (pinned.map Prod.fst) p0 + 1) toR0
              { w with counters := upsert a (nextFree (pinned.map Prod.fst) p0) w.counters }
              hrl har hrp hndr
              (fun c hc => by
                show c ∈ akeys (upsert a (nextFree (pinned.map Prod.fst) p0) w.counters)
                rw [hkeysU]; exact hsub c (by simp [hc]))
              (fun c hc => hctr c (by simp [hc]))
          have hwua : alookup a w1.counters
              = some (nextFree (pinned.map Prod.fst) p0) := by
            rw [huntr a hanr]
            exact alookup_upsert_self _ _ _
          refine ⟨w1, toR1, ?_, hFr, hcsr, harr, hwarnr, houtr, ?_, ?_, hbufEr, ?_,
            hsoler, ?_, haddsr, ?_,
            fun c hc => (htoRmr c hc).imp id (fun h => by simp [h]), ?_⟩
          · have hstep : assignLoop clearNewToo newCid pinned due (a :: rest) p0 toR0 w
                = assignLoop clearNewToo newCid pinned due rest
                    (nextFree (pinned.map Prod.fst) p0 + 1) toR0
                    { w with counters :=
                        upsert a (nextFree (pinned.map Prod.fst) p0) w.counters } := by
              simp only [assignLoop, if_neg hpin, hold]
              rw [if_neg hqo, if_neg (by push_neg; exact ⟨haNew, hcnt⟩)]
            rw [hstep]
            exact hrun
          · rw [hkr]
            exact hkeysU
          · intro c hc
            have hcr : c ∉ rest := fun h => hc (by simp [h])
            have hca : ¬ a = c := fun h => hc (by simp [h])
            rw [huntr c hcr]
            show alookup c (upsert a (nextFree (pinned.map Prod.fst) p0) w.counters) = _
            rw [alookup_upsert_ne _ _ _ _ hca]
          · intro c q2 hq2
            rw [show (a :: rest).filter (fun x => ¬ x ∈ pinned.map Prod.snd)
                = a :: rest.filter (fun x => ¬ x ∈ pinned.map Prod.snd) by
              simp [List.filter_cons, hpin]] at hq2
            simp only [walkAssign, List.mem_cons, Prod.mk.injEq] at hq2
            rcases hq2 with ⟨hc, hv⟩ | hq2
            · rw [hc, hv]
              exact hwua
            · exact hwalkr c q2 hq2
          · intro B hB0 hB1 hso
            have hq1B : nextFree (pinned.map Prod.fst) p0 + 1 ≤ B :=
              hB1 _ (alookup_mem_values hwua)
            refine hboundr B ?_ hB1 hso
            intro v hv
            rcases values_upsert_subset _ _ _ _ hv with h | h
            · exact hB0 v h
            · omega
          · intro c hcp
            have hca : ¬ a = c := fun h => hpin (by rw [h]; exact hcp)
            rw [hpinunr c hcp]
            show alookup c (upsert a (nextFree (pinned.map Prod.fst) p0) w.counters) = _
            rw [alookup_upsert_ne _ _ _ _ hca]
          · intro c X st2 hc hcp hcX hcst hcn hen hse hne
            rcases (by simpa using hc : c = a ∨ c ∈ rest) with hca | hcr
            · subst hca
              rcases hcn with hcn | hcn
              · exact absurd haNew hcn
              · exact absurd hcn (by simp [hcnt])
            · have hcna : ¬ a = c := fun h => hanr (h ▸ hcr)
              obtain ⟨hmemR, E1, E2b, hbufG⟩ :=
                hGr c X st2 hcr hcp
                  (by show alookup c (upsert a _ w.counters) = some X
                      rw [alookup_upsert_ne _ _ _ _ hcna]
                      exact hcX)
                  hcst hcn hen hse hne
              exact ⟨hmemR, E1, E2b, hbufG⟩

/-- One run of the queued-refresh phase in a quiet state: never raises,
leaves the row table (and everything but scroll offset, cached height,
process-exit flag and buffer) unchanged, never flushes, keeps the scroll
offset whenever it already dominates the table, and stages the redraw block
of every enabled queued counter at that counter's current row. -/
theorem refreshListGo_run (due : Nat → Bool) (R : List Nat) (w : World)
    (hrl : w.refresh_lock = false) (har : w.autorefresh = [])
    (hrp : w.resizePending = false)
    (hsub : ∀ c ∈ R, c ∈ akeys w.counters)
    (hctr : ∀ c ∈ R, (alookup c w.ctrs).isSome = true) :
    ∃ w1, refreshListGo due R w = .ok w1 ∧
      EqFlags w w1 ∧ w1.ctrs = w.ctrs ∧ w1.autorefresh = w.autorefresh ∧
      w1.warnings = w.warnings ∧ w1.out = w.out ∧ w1.counters = w.counters ∧
      (∃ E, w1.buffer = w.buffer ++ E) ∧
      w.scroll_offset ≤ w1.scroll_offset ∧
      (maxVals w.counters + 1 ≤ w.scroll_offset → w1.scroll_offset = w.scroll_offset) ∧
      (∀ c st pos, c ∈ R → alookup c w.ctrs = some st → st.enabled = true →
        w.enabled = true → alookup c w.counters = some pos →
        ∃ E1 E2, w1.buffer = w.buffer ++ E1 ++
          [Event.move (w.termHeight - pos) 0, Event.cr, Event.clearEol, Event.text c]
          ++ E2) := by
  induction R generalizing w with
  | nil =>
    refine ⟨w, rfl, EqFlags_refl w, rfl, rfl, rfl, rfl, rfl, ⟨[], by simp⟩, le_refl _,
      fun _ => rfl, ?_⟩
    intro c st pos hc
    simp at hc
  | cons a rest ih =>
    obtain ⟨st, hst⟩ : ∃ st, alookup a w.ctrs = some st := by
      have hs := hctr a (by simp)
      cases h : alookup a w.ctrs with
      | none => rw [h] at hs; cases hs
      | some v => exact ⟨v, rfl⟩
    obtain ⟨pos, hpos⟩ : ∃ pos, alookup a w.counters = some pos := by
      have hs := (alookup_isSome_iff_mem_akeys a w.counters).2 (hsub a (by simp))
      cases h : alookup a w.counters with
      | none => rw [h] at hs; cases hs
      | some v => exact ⟨v, rfl⟩
    obtain ⟨w2, E2, hrun2, hT2, hF2, hwarn2, hsole2, hctl2, hout2, hcase2⟩ :=
      refresh_run w a due false pos st hst hrl har hrp hpos
    obtain ⟨w1, hrun1, hF1, hcs1, har1, hwarn1, hout1, hcnt1, hbufE1, hsole1, hkeep1,
      htgt1⟩ :=
      ih w2
        (by rw [hF2.2.2.2.1]; exact hrl)
        (by rw [hT2.2.2]; exact har)
        (by rw [hF2.2.2.2.2.2.1]; exact hrp)
        (fun c hc => by
          rw [show akeys w2.counters = akeys w.counters by rw [hT2.1]]
          exact hsub c (by simp [hc]))
        (fun c hc => by rw [hT2.2.1]; exact hctr c (by simp [hc]))
    have hstep : refreshListGo due (a :: rest) w = refreshListGo due rest w2 := by
      simp only [refreshListGo, PrintableCounter.refresh] at hrun2 ⊢
      rw [show (match alookup a w.ctrs with
          | none => Except.error ("AttributeError", w)
          | some st =>
            if st.enabled = true then Manager.write w (Event.text a) false (some a) due
            else Except.ok w) = Except.ok w2 from hrun2]
    refine ⟨w1, by rw [hstep]; exact hrun1, EqFlags_trans hF2 hF1, ?_, ?_, ?_, ?_, ?_, ?_, ?_,
      ?_, ?_⟩
    · rw [hcs1, hT2.2.1]
    · rw [har1, hT2.2.2]
    · rw [hwarn1, hwarn2]
    · rw [hout1]
      exact hout2 rfl
    · rw [hcnt1, hT2.1]
    · obtain ⟨E, hE⟩ := hbufE1
      rcases hcase2 with ⟨hww, _, _⟩ | ⟨_, _, _, hfl⟩
      · exact ⟨E, by rw [hE, hww]⟩
      · rcases hfl with ⟨_, hbb, _⟩ | ⟨hfl, _⟩
        · refine ⟨[Event.move (w.termHeight - pos) 0, Event.cr, Event.clearEol,
            Event.text a] ++ E2 ++ E, ?_⟩
          rw [hE, hbb]
          simp [List.append_assoc]
        · cases hfl
    · exact le_trans hsole2 hsole1
    · intro hdom
      have hso2 : w2.scroll_offset = w.scroll_offset := by
        rcases hcase2 with ⟨hww, _, _⟩ | ⟨_, _, hmax, _⟩
        · rw [hww]
        · rw [hmax]
          omega
      have := hkeep1 (by rw [hT2.1, hso2]; exact hdom)
      rw [this, hso2]
    · intro c st2 pos2 hc hcst hcse hen hcpos
      rcases (by simpa using hc : c = a ∨ c ∈ rest) with hca | hcr
      · subst hca
        have hst2 : st2 = st := Option.some.inj (by rw [← hcst]; exact hst)
        have hpos2 : pos2 = pos := Option.some.inj (by rw [← hcpos]; exact hpos)
        subst hst2
        subst hpos2
        rcases hcase2 with ⟨_, _, hdis⟩ | ⟨_, _, _, hfl⟩
        · rcases hdis with hdis | hdis
          · rw [hen] at hdis; cases hdis
          · rw [hcse] at hdis; cases hdis
        · rcases hfl with ⟨_, hbb, _⟩ | ⟨hfl, _⟩
          · obtain ⟨E, hE⟩ := hbufE1
            refine ⟨[], E2 ++ E, ?_⟩
            rw [hE, hbb]
            simp [List.append_assoc]
          · cases hfl
      · obtain ⟨E1, E2b, hbufG⟩ :=
          htgt1 c st2 pos2 hcr
            (by rw [hT2.2.1]; exact hcst) hcse
            (by rw [hF2.1]; exact hen)
            (by rw [hT2.1]; exact hcpos)
        have hth : w2.termHeight = w.termHeight := hF2.2.2.2.2.2.2
        have hbufG2 : w1.buffer = w2.buffer ++ E1 ++
            [Event.move (w.termHeight - pos2) 0, Event.cr, Event.clearEol,
             Event.text c] ++ E2b := by
          rw [← hth]
          exact hbufG
        rcases hcase2 with ⟨hww, _, _⟩ | ⟨_, _, _, hfl⟩
        · exact ⟨E1, E2b, by rw [hbufG2, hww]⟩
        · rcases hfl with ⟨_, hbb, _⟩ | ⟨hfl, _⟩
          · refine ⟨[Event.move (w.termHeight - pos) 0, Event.cr, Event.clearEol,
              Event.text a] ++ E2 ++ E1, E2b, ?_⟩
            rw [hbufG2, hbb]
            simp [List.append_assoc]
          · cases hfl

/-- The tail of `Manager._add_counter` run from the state just after the
position branch: never raises in a quiet state; preserves flags, counter
objects, autorefresh list, warnings and row-table keys; leaves every pinned
counter's position alone; realises the spec's walk on the rest; only grows
the scroll offset and ends with it dominating the final table; stages
everything into the buffer and flushes it exactly once; and for every walked
enabled counter whose offset changed from `X` to `Y`, the flushed frame
contains its clear block at row `X` strictly before its redraw block at row
`Y`. -/
theorem addFinish_run (w : World) (cid : Nat) (isSB : Bool)
    (pinned : List (Int × Nat)) (toR0 : List Nat) (due : Nat → Bool)
    (hrl : w.refresh_lock = false) (har : w.autorefresh = [])
    (hrp : w.resizePending = false)
    (hnd : (akeys w.counters).Nodup)
    (hcov : ∀ c ∈ akeys w.counters, (alookup c w.ctrs).isSome = true)
    (hsubR0 : ∀ c ∈ toR0, c ∈ akeys w.counters)
    (hne : w.counters ≠ []) :
    ∃ w1, addFinish w cid isSB pinned toR0 due = .ok w1 ∧
      EqFlags w w1 ∧ w1.warnings = w.warnings ∧ w1.ctrs = w.ctrs ∧
      w1.autorefresh = w.autorefresh ∧
      akeys w1.counters = akeys w.counters ∧
      (∀ c, c ∈ pinned.map Prod.snd → alookup c w1.counters = alookup c w.counters) ∧
      (∀ c q, (c, q) ∈ walkAssign (pinned.map Prod.fst)
          (((akeys w.counters).reverse).filter (fun x => ¬ x ∈ pinned.map Prod.snd)) 1 →
        alookup c w1.counters = some q) ∧
      w.scroll_offset ≤ w1.scroll_offset ∧
      maxVals w1.counters + 1 ≤ w1.scroll_offset ∧
      (∀ B, (∀ v ∈ w.counters.map Prod.snd, v + 1 ≤ B) →
        (∀ v ∈ w1.counters.map Prod.snd, v + 1 ≤ B) →
        w.scroll_offset ≤ B → w1.scroll_offset ≤ B) ∧
      w1.buffer = [] ∧ (∃ F, w1.out = w.out ++ w.buffer ++ F) ∧
      (∀ c X Y st, c ∈ akeys w.counters → ¬ c ∈ pinned.map Prod.snd →
        alookup c w.counters = some X → alookup c w.ctrs = some st →
        (c ≠ cid ∨ isSB = true) → w.enabled = true → st.enabled = true →
        alookup c w1.counters = some Y → Y ≠ X →
        ∃ F1 F2 F3, w1.out = w.out ++ w.buffer ++ F1 ++
          [Event.move (w.termHeight - X) 0, Event.cr, Event.clearEol, Event.raw ""]
          ++ F2 ++
          [Event.move (w.termHeight - Y) 0, Event.cr, Event.clearEol, Event.text c]
          ++ F3) := by
  obtain ⟨wL, toR1, hrunL, hFL, hcsL, harL, hwarnL, houtL, hkL, huntL, hbufEL, hwalkL,
    hsoleL, hboundL, haddsL, hpinunL, htoRmL, hGL⟩ :=
    assignLoop_run isSB cid pinned due ((akeys w.counters).reverse) 1 toR0 w
      hrl har hrp (by simpa using hnd)
      (fun c hc => by simpa using (List.mem_reverse.1 hc))
      (fun c hc => hcov c (List.mem_reverse.1 hc))
  have hneL : wL.counters ≠ [] := by
    intro h
    have h2 : akeys w.counters = [] := by
      have hcopy := hkL
      rw [h] at hcopy
      simpa [akeys] using hcopy.symm
    cases hcn : w.counters with
    | nil => exact hne hcn
    | cons x t =>
      rw [hcn] at h2
      simp [akeys] at h2
  obtain ⟨w2, hw2⟩ := ssa_ok_exists wL false hneL
  obtain ⟨hT2, hF2, hout2, hwarn2, hso2, Essa, hbuf2, hctl2⟩ := ssa_ok_core wL w2 false hw2
  obtain ⟨w3, hrun3, hF3, hcs3, har3, hwarn3, hout3, hcnt3, hbufE3, hsole3, hkeep3,
    htgt3⟩ :=
    refreshListGo_run due toR1.reverse w2
      (by rw [hF2.2.2.2.1, hFL.2.2.2.1]; exact hrl)
      (by rw [hT2.2.2, harL]; exact har)
      (by rw [hF2.2.2.2.2.2.1, hFL.2.2.2.2.2.1]; exact hrp)
      (fun c hc => by
        rw [show akeys w2.counters = akeys w.counters by rw [hT2.1, hkL]]
        rcases htoRmL c (List.mem_reverse.1 hc) with h | h
        · exact hsubR0 c h
        · exact List.mem_reverse.1 h)
      (fun c hc => by
        rw [show w2.ctrs = w.ctrs by rw [hT2.2.1, hcsL]]
        rcases htoRmL c (List.mem_reverse.1 hc) with h | h
        · exact hcov c (hsubR0 c h)
        · exact hcov c (List.mem_reverse.1 h))
  have hcnt32 : w3.counters = wL.counters := by rw [hcnt3, hT2.1]
  have hdomKeep : w3.scroll_offset = w2.scroll_offset := by
    apply hkeep3
    rw [show w2.counters = wL.counters from hT2.1, hso2]
    exact le_max_right _ _
  refine ⟨flush_streams w3, ?_, ?_, ?_, ?_, ?_, ?_, ?_, ?_, ?_, ?_, ?_, rfl, ?_, ?_⟩
  · simp only [addFinish, hrunL, hw2, hrun3]
  · exact EqFlags_trans hFL (EqFlags_trans hF2 hF3)
  · show w3.warnings = w.warnings
    rw [hwarn3, hwarn2, hwarnL]
  · show w3.ctrs = w.ctrs
    rw [hcs3, hT2.2.1, hcsL]
  · show w3.autorefresh = w.autorefresh
    rw [har3, hT2.2.2, harL]
  · show akeys w3.counters = akeys w.counters
    rw [hcnt32, hkL]
  · intro c hc
    show alookup c w3.counters = _
    rw [hcnt32]
    exact hpinunL c hc
  · intro c q hq
    show alookup c w3.counters = some q
    rw [hcnt32]
    exact hwalkL c q hq
  · show w.scroll_offset ≤ w3.scroll_offset
    rw [hdomKeep, hso2]
    exact le_trans hsoleL (le_max_left _ _)
  · show maxVals w3.counters + 1 ≤ w3.scroll_offset
    rw [hdomKeep, hso2, hcnt32]
    exact le_max_right _ _
  · intro B hB0 hB1 hsoB
    show w3.scroll_offset ≤ B
    rw [hdomKeep, hso2]
    have hBL : wL.scroll_offset ≤ B := by
      apply hboundL B hB0 _ hsoB
      intro v hv
      apply hB1
      show v ∈ (flush_streams w3).counters.map Prod.snd
      rw [show (flush_streams w3).counters = wL.counters from hcnt32]
      exact hv
    refine max_le hBL ?_
    have hmB : maxVals wL.counters ≤ B - 1 := by
      apply maxVals_le _ _ hneL
      intro v hv
      have : v + 1 ≤ B := by
        apply hB1
        show v ∈ (flush_streams w3).counters.map Prod.snd
        rw [show (flush_streams w3).counters = wL.counters from hcnt32]
        exact hv
      omega
    omega
  · obtain ⟨EL, hEL⟩ := hbufEL
    obtain ⟨E3, hE3⟩ := hbufE3
    refine ⟨EL ++ Essa ++ E3, ?_⟩
    show w3.out ++ w3.buffer = _
    rw [hout3, hout2, houtL, hE3, hbuf2, hEL]
    simp [List.append_assoc]
  · intro c X Y st hc hcp hcX hcst hcn hen hse hY hYX
    have hYL : alookup c wL.counters = some Y := by
      have : alookup c (flush_streams w3).counters = some Y := hY
      rw [show (flush_streams w3).counters = wL.counters from hcnt32] at this
      exact this
    obtain ⟨hcR, E1, E2, hbufG⟩ :=
      hGL c X st (List.mem_reverse.2 hc) hcp hcX hcst hcn hen hse
        (by rw [hYL]; intro h; exact hYX (Option.some.inj h))
    obtain ⟨R1, R2, hbufT⟩ :=
      htgt3 c st Y (List.mem_reverse.2 hcR)
        (by rw [hT2.2.1, hcsL]; exact hcst) hse
        (by rw [hF2.1, hFL.1]; exact hen)
        (by rw [hT2.1]; exact hYL)
    have hth2 : w2.termHeight = w.termHeight := by
      rw [hF2.2.2.2.2.2.2, hFL.2.2.2.2.2.2]
    have hbufT2 : w3.buffer = w2.buffer ++ R1 ++
        [Event.move (w.termHeight - Y) 0, Event.cr, Event.clearEol, Event.text c]
        ++ R2 := by
      rw [← hth2]
      exact hbufT
    refine ⟨E1, E2 ++ Essa ++ R1, R2, ?_⟩
    show w3.out ++ w3.buffer = _
    rw [hout3, hout2, houtL, hbufT2, hbuf2, hbufG]
    simp [List.append_assoc]

theorem upsert_fresh_append {κ α : Type} [DecidableEq κ] (k : κ) (v : α)
    (l : List (κ × α)) (h : k ∉ akeys l) : upsert k v l = l ++ [(k, v)] := by
  induction l with
  | nil => simp [upsert]
  | cons a t ih =>
    simp only [akeys, List.map_cons, List.mem_cons] at h
    push_neg at h
    simp [upsert, Ne.symm h.1, ih (by simpa [akeys] using h.2)]

theorem upsert_upsert_same {κ α : Type} [DecidableEq κ] (k : κ) (v1 v2 : α)
    (l : List (κ × α)) : upsert k v2 (upsert k v1 l) = upsert k v2 l := by
  induction l with
  | nil => simp [upsert]
  | cons a t ih =>
    by_cases hk : a.1 = k
    · simp [upsert, hk]
    · simp [upsert, hk, ih]

theorem buildPinned_congr (cs : List (Nat × Int)) (ks ks2 : List (Nat × CtrState))
    (h : ∀ e ∈ cs, alookup e.1 ks2 = alookup e.1 ks) :
    buildPinned cs ks2 = buildPinned cs ks := by
  show cs.foldl _ [] = cs.foldl _ []
  generalize [] = acc
  induction cs generalizing acc with
  | nil => rfl
  | cons e t ih =>
    simp only [List.foldl_cons]
    rw [h e (by simp)]
    exact ih (fun e2 he2 => h e2 (by simp [he2])) _

/-- One full `Manager._add_counter` call in a quiet state with a fresh
counter object: the wrapper around `addFinish_run` turning its facts into
facts about the original manager state. -/
theorem add_counter_run (w : World) (cid : Nat) (st0 : CtrState) (position : Option Int)
    (isSB : Bool) (due : Nat → Bool)
    (hrl : w.refresh_lock = false) (har : w.autorefresh = [])
    (hrp : w.resizePending = false)
    (hnd : (akeys w.counters).Nodup)
    (hfresh : cid ∉ akeys w.counters)
    (hcov : ∀ c ∈ akeys w.counters, (alookup c w.ctrs).isSome = true)
    (hvalid : ∀ p, position = some p →
      (¬ p ∈ (buildPinned w.counters w.ctrs).map Prod.fst) ∧ p ≤ w.height) :
    ∃ w1, Manager.add_counter w cid st0 position false isSB due = .ok w1 ∧
      EqFlags w w1 ∧ w1.warnings = w.warnings ∧
      w1.ctrs = upsert cid { st0 with pinned := position.isSome, closed := false } w.ctrs ∧
      w1.autorefresh = w.autorefresh ∧
      akeys w1.counters = akeys w.counters ++ [cid] ∧
      (∀ c, c ∈ (buildPinned w.counters w.ctrs).map Prod.snd → c ≠ cid →
        alookup c w1.counters = alookup c w.counters) ∧
      (∀ p, position = some p → alookup cid w1.counters = some p) ∧
      (∀ c q, (c, q) ∈ walkAssign ((pinnedAfterAdd w cid position).map Prod.fst)
          (((akeys w.counters ++ [cid]).reverse).filter
            (fun x => ¬ x ∈ (pinnedAfterAdd w cid position).map Prod.snd)) 1 →
        alookup c w1.counters = some q) ∧
      w.scroll_offset ≤ w1.scroll_offset ∧
      maxVals w1.counters + 1 ≤ w1.scroll_offset ∧
      (1 ≤ w.scroll_offset → (∀ v ∈ w.counters.map Prod.snd, v + 1 ≤ w.scroll_offset) →
        w1.scroll_offset = max w.scroll_offset (maxVals w1.counters + 1)) ∧
      w1.buffer = [] ∧ (∃ F, w1.out = w.out ++ w.buffer ++ F) ∧
      (∀ c X Y st, c ≠ cid → ¬ c ∈ (pinnedAfterAdd w cid position).map Prod.snd →
        alookup c w.counters = some X → alookup c w.ctrs = some st →
        w.enabled = true → st.enabled = true →
        alookup c w1.counters = some Y → Y ≠ X →
        ∃ F1 F2 F3, w1.out = w.out ++ w.buffer ++ F1 ++
          [Event.move (w.termHeight - X) 0, Event.cr, Event.clearEol, Event.raw ""]
          ++ F2 ++
          [Event.move (w.termHeight - Y) 0, Event.cr, Event.clearEol, Event.text c]
          ++ F3) := by
  have hfreshC : ∀ e ∈ w.counters, cid ≠ e.1 := by
    intro e he hc
    exact hfresh (by rw [hc]; exact List.mem_map_of_mem Prod.fst he)
  have hpd : buildPinned w.counters
      (upsert cid { st0 with pinned := false, closed := false } w.ctrs)
      = buildPinned w.counters w.ctrs :=
    buildPinned_congr _ _ _ (fun e he => alookup_upsert_ne _ _ _ _ (hfreshC e he))
  cases position with
  | none =>
    have hkC : akeys (upsert cid (0 : Int) w.counters) = akeys w.counters ++ [cid] :=
      akeys_upsert_not_mem _ _ _ hfresh
    obtain ⟨w1, hrun, hF, hwarn, hctr1, har1, hk1, hpinun1, hwalk1, hsole1, hdom1,
      hbound1, hbuf1, hout1, hG1⟩ :=
      addFinish_run
        { w with ctrs := upsert cid { st0 with pinned := false, closed := false } w.ctrs,
                 counters := upsert cid 0 w.counters }
        cid isSB (buildPinned w.counters w.ctrs) [] due
        hrl har hrp
        (by show (akeys (upsert cid (0 : Int) w.counters)).Nodup
            rw [hkC]
            simp [List.nodup_append, hnd, hfresh])
        (by intro c hc
            show (alookup c (upsert cid { st0 with pinned := false, closed := false }
              w.ctrs)).isSome = true
            rw [hkC] at hc
            rcases List.mem_append.1 hc with hc | hc
            · rw [alookup_upsert_ne _ _ _ _ (fun h => hfresh (by rw [← h] at hc; exact hc))]
              exact hcov c hc
            · simp at hc
              rw [hc, alookup_upsert_self]
              rfl)
        (by intro c hc; cases hc)
        (by show upsert cid (0 : Int) w.counters ≠ []
            rw [upsert_fresh_append _ _ _ hfresh]
            simp)
    have hrun2 : Manager.add_counter w cid st0 none false isSB due = .ok w1 := by
      show addFinish
        { w with ctrs := upsert cid { st0 with pinned := false, closed := false } w.ctrs,
                 counters := upsert cid 0 w.counters }
        cid isSB (buildPinned w.counters
          (upsert cid { st0 with pinned := false, closed := false } w.ctrs)) [] due
        = .ok w1
      rw [hpd]
      exact hrun
    refine ⟨w1, hrun2, EqFlags_trans ⟨rfl, rfl, rfl, rfl, rfl, rfl, rfl⟩ hF, hwarn,
      hctr1, har1, ?_, ?_, ?_, ?_, hsole1, hdom1, ?_, hbuf1, hout1, ?_⟩
    · rw [hk1]
      exact hkC
    · intro c hcv hcc
      rw [hpinun1 c hcv]
      show alookup c (upsert cid (0 : Int) w.counters) = _
      rw [alookup_upsert_ne _ _ _ _ (fun h => hcc h.symm)]
    · intro p hp
      cases hp
    · intro c q hq
      apply hwalk1
      show (c, q) ∈ walkAssign _ (((akeys (upsert cid (0 : Int) w.counters)).reverse).filter _) 1
      rw [hkC]
      exact hq
    · intro h1 hB
      have hvalsC : (upsert cid (0 : Int) w.counters).map Prod.snd
          = w.counters.map Prod.snd ++ [0] := by
        rw [upsert_fresh_append _ _ _ hfresh]
        simp
      have hle : w1.scroll_offset ≤ max w.scroll_offset (maxVals w1.counters + 1) := by
        apply hbound1
        · intro v hv
          rw [show ({ w with
              ctrs := upsert cid { st0 with pinned := false, closed := false } w.ctrs,
              counters := upsert cid 0 w.counters } : World).counters
            = upsert cid 0 w.counters from rfl, hvalsC] at hv
          rcases List.mem_append.1 hv with hv | hv
          · have := hB v hv
            omega
          · simp at hv
            omega
        · intro v hv
          have := maxVals_ge _ _ hv
          omega
        · exact le_max_left _ _
      have hge1 : w.scroll_offset ≤ w1.scroll_offset := hsole1
      have hge2 : maxVals w1.counters + 1 ≤ w1.scroll_offset := hdom1
      omega
    · intro c X Y st hcc hcp hcX hcst hen hse hY hYX
      have hcmem : c ∈ akeys w.counters :=
        (alookup_isSome_iff_mem_akeys c w.counters).1 (by rw [hcX]; rfl)
      exact hG1 c X Y st
        (by show c ∈ akeys (upsert cid (0 : Int) w.counters)
            rw [hkC]
            exact List.mem_append.2 (Or.inl hcmem))
        hcp
        (by show alookup c (upsert cid (0 : Int) w.counters) = some X
            rw [alookup_upsert_ne _ _ _ _ (fun h => hcc h.symm)]
            exact hcX)
        (by show alookup c (upsert cid { st0 with pinned := false, closed := false }
              w.ctrs) = some st
            rw [alookup_upsert_ne _ _ _ _ (fun h => hcc h.symm)]
            exact hcst)
        (Or.inl hcc) hen hse hY hYX
  | some p =>
    obtain ⟨hpv, hph⟩ := hvalid p rfl
    have hkC : akeys (upsert cid p w.counters) = akeys w.counters ++ [cid] :=
      akeys_upsert_not_mem _ _ _ hfresh
    have hctrsC : upsert cid { st0 with pinned := true, closed := false }
        (upsert cid { st0 with pinned := false, closed := false } w.ctrs)
        = upsert cid { st0 with pinned := true, closed := false } w.ctrs :=
      upsert_upsert_same _ _ _ _
    have hpdvals : (upsert p cid (buildPinned w.counters w.ctrs)).map Prod.snd
        = (buildPinned w.counters w.ctrs).map Prod.snd ++ [cid] := by
      rw [upsert_fresh_append _ _ _ (by simpa [akeys] using hpv)]
      simp
    obtain ⟨w1, hrun, hF, hwarn, hctr1, har1, hk1, hpinun1, hwalk1, hsole1, hdom1,
      hbound1, hbuf1, hout1, hG1⟩ :=
      addFinish_run
        { w with ctrs := upsert cid { st0 with pinned := true, closed := false }
                   (upsert cid { st0 with pinned := false, closed := false } w.ctrs),
                 counters := upsert cid p w.counters }
        cid isSB (upsert p cid (buildPinned w.counters w.ctrs))
        (if isSB then [cid] else []) due
        hrl har hrp
        (by show (akeys (upsert cid p w.counters)).Nodup
            rw [hkC]
            simp [List.nodup_append, hnd, hfresh])
        (by intro c hc
            show (alookup c (upsert cid { st0 with pinned := true, closed := false }
              (upsert cid { st0 with pinned := false, closed := false } w.ctrs))).isSome
              = true
            rw [hctrsC, hkC] at *
            rcases List.mem_append.1 hc with hc | hc
            · rw [alookup_upsert_ne _ _ _ _ (fun h => hfresh (by rw [← h] at hc; exact hc))]
              exact hcov c hc
            · simp at hc
              rw [hc, alookup_upsert_self]
              rfl)
        (by intro c hc
            show c ∈ akeys (upsert cid p w.counters)
            rw [hkC]
            rcases hsb : isSB with _ | _
            · rw [hsb] at hc
              cases hc
            · rw [hsb] at hc
              simp at hc
              simp [hc])
        (by show upsert cid p w.counters ≠ []
            rw [upsert_fresh_append _ _ _ hfresh]
            simp)
    have hrun2 : Manager.add_counter w cid st0 (some p) false isSB due = .ok w1 := by
      simp only [Manager.add_counter, Bool.false_eq_true, if_false]
      rw [hpd]
      rw [if_neg hpv, if_neg (show ¬ p > w.height by omega)]
      exact hrun
    refine ⟨w1, hrun2, EqFlags_trans ⟨rfl, rfl, rfl, rfl, rfl, rfl, rfl⟩ hF, hwarn,
      ?_, har1, ?_, ?_, ?_, ?_, hsole1, hdom1, ?_, hbuf1, hout1, ?_⟩
    · rw [hctr1]
      show upsert cid { st0 with pinned := true, closed := false }
        (upsert cid { st0 with pinned := false, closed := false } w.ctrs) = _
      rw [hctrsC]
      rfl
    · rw [hk1]
      exact hkC
    · intro c hcv hcc
      have hcv2 : c ∈ (upsert p cid (buildPinned w.counters w.ctrs)).map Prod.snd := by
        rw [hpdvals]
        exact List.mem_append.2 (Or.inl hcv)
      rw [hpinun1 c hcv2]
      show alookup c (upsert cid p w.counters) = _
      rw [alookup_upsert_ne _ _ _ _ (fun h => hcc h.symm)]
    · intro p2 hp2
      have hp2p : p2 = p := by
        injection hp2 with h
        exact h.symm
      rw [hp2p]
      have hcidv : cid ∈ (upsert p cid (buildPinned w.counters w.ctrs)).map Prod.snd :=
        alookup_mem_values (alookup_upsert_self p cid _)
      rw [hpinun1 cid hcidv]
      show alookup cid (upsert cid p w.counters) = some p
      exact alookup_upsert_self _ _ _
    · intro c q hq
      apply hwalk1
      show (c, q) ∈ walkAssign _ (((akeys (upsert cid p w.counters)).reverse).filter _) 1
      rw [hkC]
      exact hq
    · intro h1 hB
      have hvalsC : (upsert cid p w.counters).map Prod.snd
          = w.counters.map Prod.snd ++ [p] := by
        rw [upsert_fresh_append _ _ _ hfresh]
        simp
      have hpYw1 : alookup cid w1.counters = some p := by
        have hcidv : cid ∈ (upsert p cid (buildPinned w.counters w.ctrs)).map Prod.snd :=
          alookup_mem_values (alookup_upsert_self p cid _)
        rw [hpinun1 cid hcidv]
        show alookup cid (upsert cid p w.counters) = some p
        exact alookup_upsert_self _ _ _
      have hpmem : p ∈ w1.counters.map Prod.snd := alookup_mem_values hpYw1
      have hle : w1.scroll_offset ≤ max w.scroll_offset (maxVals w1.counters + 1) := by
        apply hbound1
        · intro v hv
          rw [show ({ w with
              ctrs := upsert cid { st0 with pinned := true, closed := false }
                (upsert cid { st0 with pinned := false, closed := false } w.ctrs),
              counters := upsert cid p w.counters } : World).counters
            = upsert cid p w.counters from rfl, hvalsC] at hv
          rcases List.mem_append.1 hv with hv | hv
          · have := hB v hv
            omega
          · simp at hv
            have := maxVals_ge _ _ hpmem
            omega
        · intro v hv
          have := maxVals_ge _ _ hv
          omega
        · exact le_max_left _ _
      have hge1 : w.scroll_offset ≤ w1.scroll_offset := hsole1
      have hge2 : maxVals w1.counters + 1 ≤ w1.scroll_offset := hdom1
      omega
    · intro c X Y st hcc hcp hcX hcst hen hse hY hYX
      have hcmem : c ∈ akeys w.counters :=
        (alookup_isSome_iff_mem_akeys c w.counters).1 (by rw [hcX]; rfl)
      exact hG1 c X Y st
        (by show c ∈ akeys (upsert cid p w.counters)
            rw [hkC]
            exact List.mem_append.2 (Or.inl hcmem))
        hcp
        (by show alookup c (upsert cid p w.counters) = some X
            rw [alookup_upsert_ne _ _ _ _ (fun h => hcc h.symm)]
            exact hcX)
        (by show alookup c (upsert cid { st0 with pinned := true, closed := false }
              (upsert cid { st0 with pinned := false, closed := false } w.ctrs)) = some st
            rw [hctrsC, alookup_upsert_ne _ _ _ _ (fun h => hcc h.symm)]
            exact hcst)
        (Or.inl hcc) hen hse hY hYX

theorem CoreEq_refl (w : World) : CoreEq w w := ⟨rfl, rfl, rfl, rfl, rfl, rfl, rfl, rfl⟩

theorem CoreEq_trans {w1 w2 w3 : World} (h1 : CoreEq w1 w2) (h2 : CoreEq w2 w3) :
    CoreEq w1 w3 :=
  ⟨h2.1.trans h1.1, h2.2.1.trans h1.2.1, h2.2.2.1.trans h1.2.2.1,
   h2.2.2.2.1.trans h1.2.2.2.1, h2.2.2.2.2.1.trans h1.2.2.2.2.1,
   h2.2.2.2.2.2.1.trans h1.2.2.2.2.2.1, h2.2.2.2.2.2.2.1.trans h1.2.2.2.2.2.2.1,
   h2.2.2.2.2.2.2.2.trans h1.2.2.2.2.2.2.2⟩

theorem writeLocked_core (w : World) (output : Event) (counter : Option Nat) :
    CoreEq w (resState (writeLocked w output counter)) := by
  unfold writeLocked
  split
  · exact CoreEq_refl w
  · split
    · exact ⟨rfl, rfl, rfl, rfl, rfl, rfl, rfl, rfl⟩
    · split
      · exact CoreEq_refl w
      · exact ⟨rfl, rfl, rfl, rfl, rfl, rfl, rfl, rfl⟩

theorem autorefreshGo_core (exclude : Option Nat) (due : Nat → Bool) (l : List Nat)
    (w : World) : CoreEq w (resState (autorefreshGo exclude due l w)) := by
  induction l generalizing w with
  | nil => exact CoreEq_refl w
  | cons cid rest ih =>
    unfold autorefreshGo
    split
    · exact ih w
    · split
      · exact CoreEq_refl w
      · split
        · split
          next e heq =>
            have h1 := writeLocked_core w (Event.text cid) (some cid)
            rw [heq] at h1
            exact h1
          next w2 heq =>
            have h1 := writeLocked_core w (Event.text cid) (some cid)
            rw [heq] at h1
            exact CoreEq_trans h1 (ih w2)
        · exact ih w

theorem autorefreshRun_core (w : World) (exclude : Option Nat) (due : Nat → Bool) :
    CoreEq w (resState (autorefreshRun w exclude due)) := by
  simp only [autorefreshRun]
  have h0 : CoreEq w { w with refresh_lock := true } :=
    ⟨rfl, rfl, rfl, rfl, rfl, rfl, rfl, rfl⟩
  cases hgo : autorefreshGo exclude due w.autorefresh { w with refresh_lock := true } with
  | error e =>
    have := autorefreshGo_core exclude due w.autorefresh { w with refresh_lock := true }
    rw [hgo] at this
    exact CoreEq_trans h0 this
  | ok w1 =>
    have := autorefreshGo_core exclude due w.autorefresh { w with refresh_lock := true }
    rw [hgo] at this
    exact CoreEq_trans h0 (CoreEq_trans this ⟨rfl, rfl, rfl, rfl, rfl, rfl, rfl, rfl⟩)

theorem ssa_core (w : World) (force : Bool) :
    CoreEq w (resState (set_scroll_area w force)) := by
  cases hssa : set_scroll_area w force with
  | error e =>
    simp only [set_scroll_area] at hssa
    split_ifs at hssa
    injection hssa with h
    rw [show e = ("ValueError: max() arg is an empty sequence", w) from h.symm]
    exact CoreEq_refl w
  | ok w1 =>
    obtain ⟨hT, hF, _, hwarn, _, _⟩ := ssa_ok_core w w1 force hssa
    exact ⟨hT.1, hT.2.1, hT.2.2, hF.1, hF.2.1, hF.2.2.1, hwarn, hF.2.2.2.2.2.2⟩

theorem flush_core (w : World) : CoreEq w (flush_streams w) :=
  ⟨rfl, rfl, rfl, rfl, rfl, rfl, rfl, rfl⟩

theorem writeBody_core (w : World) (output : Event) (flush : Bool)
    (counter : Option Nat) (due : Nat → Bool) :
    CoreEq w (resState (writeBody w output flush counter due)) := by
  have hst : ∀ position, CoreEq w (stage w output position) :=
    fun _ => ⟨rfl, rfl, rfl, rfl, rfl, rfl, rfl, rfl⟩
  simp only [writeBody]
  split
  · exact CoreEq_refl w
  next position heq =>
    split
    · exact hst position
    · split
      next e heq2 =>
        have hcore : CoreEq (stage w output position) (resState (Except.error e : MRes)) := by
          by_cases hie : (stage w output position).autorefresh.isEmpty = true
          · rw [if_pos hie] at heq2
            cases heq2
          · rw [if_neg hie] at heq2
            have h1 := autorefreshRun_core (stage w output position) counter due
            rw [heq2] at h1
            exact h1
        exact CoreEq_trans (hst position) hcore
      next w2 heq2 =>
        have h2 : CoreEq (stage w output position) w2 := by
          by_cases hie : (stage w output position).autorefresh.isEmpty = true
          · rw [if_pos hie] at heq2
            injection heq2 with h
            rw [← h]
            exact CoreEq_refl _
          · rw [if_neg hie] at heq2
            have h1 := autorefreshRun_core (stage w output position) counter due
            rw [heq2] at h1
            exact h1
        split
        next e heq3 =>
          have h3 := ssa_core w2 false
          rw [heq3] at h3
          exact CoreEq_trans (hst position) (CoreEq_trans h2 h3)
        next w3 heq3 =>
          have h3 := ssa_core w2 false
          rw [heq3] at h3
          refine CoreEq_trans (hst position) (CoreEq_trans h2 (CoreEq_trans h3 ?_))
          split
          · exact flush_core w3
          · exact CoreEq_refl w3

theorem refreshAllGo_core (due : Nat → Bool) (l : List Nat) (w : World) :
    CoreEq w (resState (refreshAllGo due l w)) := by
  induction l generalizing w with
  | nil => exact CoreEq_refl w
  | cons cid rest ih =>
    unfold refreshAllGo
    split
    · exact CoreEq_refl w
    · split
      · split
        next e heq =>
          have h1 := writeBody_core w (Event.text cid) false (some cid) due
          rw [heq] at h1
          exact h1
        next w2 heq =>
          have h1 := writeBody_core w (Event.text cid) false (some cid) due
          rw [heq] at h1
          exact CoreEq_trans h1 (ih w2)
      · exact ih w

theorem ssa_core_ok {w2 w3 : World} {force : Bool}
    (h : set_scroll_area w2 force = .ok w3) : CoreEq w2 w3 := by
  have h1 := ssa_core w2 force
  rw [h] at h1
  exact h1

theorem ssa_core_error {w2 : World} {force : Bool} {e : String × World}
    (h : set_scroll_area w2 force = .error e) : CoreEq w2 e.2 := by
  have h1 := ssa_core w2 force
  rw [h] at h1
  exact h1

theorem refreshAllGo_core_ok {due : Nat → Bool} {l : List Nat} {w2 w3 : World}
    (h : refreshAllGo due l w2 = .ok w3) : CoreEq w2 w3 := by
  have h1 := refreshAllGo_core due l w2
  rw [h] at h1
  exact h1

theorem refreshAllGo_core_error {due : Nat → Bool} {l : List Nat} {w2 : World}
    {e : String × World} (h : refreshAllGo due l w2 = .error e) : CoreEq w2 e.2 := by
  have h1 := refreshAllGo_core due l w2
  rw [h] at h1
  exact h1

theorem resize_handler_core (w : World) (due : Nat → Bool) :
    CoreEq w (resState (resize_handler w due)) := by
  simp only [resize_handler]
  split
  · exact CoreEq_refl w
  · split
    next e heq =>
      split at heq
      · split at heq
        · injection heq with h
          rw [← h]
          exact ⟨rfl, rfl, rfl, rfl, rfl, rfl, rfl, rfl⟩
        · cases heq
      · split at heq
        · cases heq
        · cases heq
    next w1 heq =>
      have h1 : CoreEq w w1 := by
        split at heq
        · split at heq
          · cases heq
          · injection heq with h
            rw [← h]
            exact ⟨rfl, rfl, rfl, rfl, rfl, rfl, rfl, rfl⟩
        · split at heq
          · injection heq with h
            rw [← h]
            exact ⟨rfl, rfl, rfl, rfl, rfl, rfl, rfl, rfl⟩
          · injection heq with h
            rw [← h]
            exact ⟨rfl, rfl, rfl, rfl, rfl, rfl, rfl, rfl⟩
      split
      next e2 heq2 =>
        have h2 := ssa_core_error heq2
        exact CoreEq_trans h1 (CoreEq_trans ⟨rfl, rfl, rfl, rfl, rfl, rfl, rfl, rfl⟩ h2)
      next w3 heq2 =>
        have h2 := ssa_core_ok heq2
        split
        next e3 heq3 =>
          have h3 := refreshAllGo_core_error heq3
          exact CoreEq_trans h1 (CoreEq_trans ⟨rfl, rfl, rfl, rfl, rfl, rfl, rfl, rfl⟩
            (CoreEq_trans h2 h3))
        next w4 heq3 =>
          have h3 := refreshAllGo_core_ok heq3
          exact CoreEq_trans h1 (CoreEq_trans ⟨rfl, rfl, rfl, rfl, rfl, rfl, rfl, rfl⟩
            (CoreEq_trans h2 (CoreEq_trans h3 ⟨rfl, rfl, rfl, rfl, rfl, rfl, rfl, rfl⟩)))

theorem write_core (w : World) (output : Event) (flush : Bool) (counter : Option Nat)
    (due : Nat → Bool) :
    CoreEq w (resState (Manager.write w output flush counter due)) := by
  simp only [Manager.write]
  split
  · exact CoreEq_refl w
  · split
    · split
      next m w1 heq =>
        have h1 := resize_handler_core w due
        rw [heq] at h1
        exact CoreEq_trans h1 ⟨rfl, rfl, rfl, rfl, rfl, rfl, rfl, rfl⟩
      next w1 heq =>
        have h1 := resize_handler_core w due
        rw [heq] at h1
        exact CoreEq_trans h1 ⟨rfl, rfl, rfl, rfl, rfl, rfl, rfl, rfl⟩
    · exact writeBody_core w output flush counter due

theorem clear_core (w : World) (cid : Nat) (flush : Bool) (due : Nat → Bool) :
    CoreEq w (resState (PrintableCounter.clear w cid flush due)) := by
  unfold PrintableCounter.clear
  split
  · exact CoreEq_refl w
  · split
    · exact write_core w (Event.raw "") flush (some cid) due
    · exact CoreEq_refl w

theorem refresh_core (w : World) (cid : Nat) (flush : Bool) (due : Nat → Bool) :
    CoreEq w (resState (PrintableCounter.refresh w cid flush due)) := by
  unfold PrintableCounter.refresh
  split
  · exact CoreEq_refl w
  · split
    · exact write_core w (Event.text cid) flush (some cid) due
    · exact CoreEq_refl w

theorem WF_of_CoreEq {w w1 : World} (hc : CoreEq w w1) (hwf : WF w) : WF w1 := by
  obtain ⟨h1, h2, h3⟩ := hwf
  refine ⟨?_, ?_, ?_⟩
  · rw [hc.1]
    exact h1
  · intro c hcm
    rw [hc.1] at hcm
    rw [hc.2.1]
    exact h2 c hcm
  · intro c1 c2 st1 st2 p1 p2 hne ha1 hp1 ha2 hp2 hl1 hl2
    rw [hc.2.1] at ha1 ha2
    rw [hc.1] at hl1 hl2
    exact h3 c1 c2 st1 st2 p1 p2 hne ha1 hp1 ha2 hp2 hl1 hl2

theorem alookup_aerase_ne {κ α : Type} [DecidableEq κ] (k c : κ) (l : List (κ × α))
    (h : c ≠ k) : alookup c (aerase k l) = alookup c l := by
  induction l with
  | nil => rfl
  | cons a t ih =>
    by_cases hk : a.1 = k
    · simp [aerase, alookup, hk, Ne.symm h]
    · by_cases hc : a.1 = c
      · simp [aerase, alookup, hk, hc, h]
      · simp [aerase, alookup, hk, hc, ih]

theorem alookup_aerase_self {κ α : Type} [DecidableEq κ] (k : κ) (l : List (κ × α))
    (hnd : (akeys l).Nodup) : alookup k (aerase k l) = none := by
  induction l with
  | nil => rfl
  | cons a t ih =>
    simp only [akeys, List.map_cons, List.nodup_cons] at hnd
    by_cases hk : a.1 = k
    · simp only [aerase, hk, if_true]
      apply alookup_eq_none_of_not_mem
      rw [← hk]
      exact hnd.1
    · simp only [aerase, hk, if_false, alookup, hk, if_false]
      exact ih hnd.2

theorem akeys_aerase_sublist {κ α : Type} [DecidableEq κ] (k : κ) (l : List (κ × α)) :
    (akeys (aerase k l)).Sublist (akeys l) :=
  List.Sublist.map Prod.fst (aerase_sublist k l)

theorem WF_remove (w : World) (cid : Nat) (hwf : WF w) : WF (Manager.remove w cid) := by
  obtain ⟨h1, h2, h3⟩ := hwf
  unfold Manager.remove
  split
  · exact ⟨h1, h2, h3⟩
  · split
    · refine ⟨?_, ?_, ?_⟩
      · exact (akeys_aerase_sublist cid w.counters).nodup h1
      · intro c hcm
        exact h2 c ((akeys_aerase_sublist cid w.counters).mem hcm)
      · intro c1 c2 st1 st2 p1 p2 hne ha1 hp1 ha2 hp2 hl1 hl2
        have hl1' : alookup c1 (aerase cid w.counters) = some p1 := hl1
        have hl2' : alookup c2 (aerase cid w.counters) = some p2 := hl2
        have ha1' : alookup c1 w.ctrs = some st1 := ha1
        have ha2' : alookup c2 w.ctrs = some st2 := ha2
        by_cases hc1 : c1 = cid
        · rw [hc1, alookup_aerase_self cid w.counters h1] at hl1'
          cases hl1'
        · by_cases hc2 : c2 = cid
          · rw [hc2, alookup_aerase_self cid w.counters h1] at hl2'
            cases hl2'
          · rw [alookup_aerase_ne cid c1 w.counters hc1] at hl1'
            rw [alookup_aerase_ne cid c2 w.counters hc2] at hl2'
            exact h3 c1 c2 st1 st2 p1 p2 hne ha1' hp1 ha2' hp2 hl1' hl2'
    · exact ⟨h1, h2, h3⟩

theorem mem_of_alookup {κ α : Type} [DecidableEq κ] {k : κ} {l : List (κ × α)} {v : α}
    (h : alookup k l = some v) : (k, v) ∈ l := by
  induction l with
  | nil => cases h
  | cons a t ih =>
    obtain ⟨a1, a2⟩ := a
    by_cases hk : a1 = k
    · subst hk
      simp only [alookup, if_true, Option.some.injEq] at h
      simp [h]
    · simp only [alookup, hk, if_false] at h
      exact List.mem_cons.2 (Or.inr (ih h))

theorem alookup_of_mem_nodup {κ α : Type} [DecidableEq κ] {k : κ} {v : α} {l : List (κ × α)}
    (hm : (k, v) ∈ l) (hnd : (akeys l).Nodup) : alookup k l = some v := by
  induction l with
  | nil => cases hm
  | cons a t ih =>
    obtain ⟨a1, a2⟩ := a
    simp only [akeys, List.map_cons, List.nodup_cons] at hnd
    rcases List.mem_cons.1 hm with h | h
    · injection h with h1 h2
      subst h1
      subst h2
      simp [alookup]
    · by_cases hk : a1 = k
      · exact absurd (by rw [hk]; exact List.mem_map.2 ⟨(k, v), h, rfl⟩) hnd.1
      · simp only [alookup, hk, if_false]
        exact ih h hnd.2

/-- Keys never overwritten by the pinned-dict fold keep their value.  The
fold function is the one of `buildPinned`. -/
theorem bp_foldl_stable (ctrs : List (Nat × CtrState)) (q : Int)
    (l : List (Nat × Int)) :
    ∀ (acc : List (Int × Nat)),
    (∀ e ∈ l, ∀ st, alookup e.1 ctrs = some st → st.pinned = true → e.2 ≠ q) →
    alookup q (l.foldl (fun acc e =>
      match alookup e.1 ctrs with
      | some st => if st.pinned then upsert e.2 e.1 acc else acc
      | none => acc) acc) = alookup q acc := by
  induction l with
  | nil => intro acc _; rfl
  | cons e t ih =>
    intro acc h
    simp only [List.foldl_cons]
    rw [ih _ (fun e2 he2 => h e2 (List.mem_cons.2 (Or.inr he2)))]
    cases hst : alookup e.1 ctrs with
    | none => simp [hst]
    | some st =>
      by_cases hp : st.pinned = true
      · simp only [hst, hp, if_true]
        exact alookup_upsert_ne e.2 q e.1 acc (h e (List.mem_cons.2 (Or.inl rfl)) st hst hp)
      · simp [hst, hp]

/-- A pinned counter whose position is never reused by a later pinned entry
of the scanned list ends as that position's image under the pinned dict. -/
theorem bp_foldl_hits (ctrs : List (Nat × CtrState)) (c : Nat) (q : Int) (st : CtrState)
    (hst : alookup c ctrs = some st) (hpin : st.pinned = true)
    (l : List (Nat × Int)) :
    ∀ (acc : List (Int × Nat)),
    (akeys l).Nodup → (c, q) ∈ l →
    (∀ e ∈ l, e.1 ≠ c → ∀ st2, alookup e.1 ctrs = some st2 → st2.pinned = true → e.2 ≠ q) →
    alookup q (l.foldl (fun acc e =>
      match alookup e.1 ctrs with
      | some st => if st.pinned then upsert e.2 e.1 acc else acc
      | none => acc) acc) = some c := by
  induction l with
  | nil => intro acc _ hm _; cases hm
  | cons e t ih =>
    intro acc hnd hm hdis
    simp only [akeys, List.map_cons, List.nodup_cons] at hnd
    simp only [List.foldl_cons]
    rcases List.mem_cons.1 hm with he | he
    · have hkeys : ∀ e2 ∈ t, ∀ st2, alookup e2.1 ctrs = some st2 → st2.pinned = true →
          e2.2 ≠ q := by
        intro e2 he2 st2 hst2 hp2
        have hne : e2.1 ≠ c := by
          intro hc
          apply hnd.1
          rw [← he]
          exact hc ▸ List.mem_map.2 ⟨e2, he2, rfl⟩
        exact hdis e2 (List.mem_cons.2 (Or.inr he2)) hne st2 hst2 hp2
      rw [bp_foldl_stable ctrs q t _ hkeys]
      rw [← he]
      simp only [hst, hpin, if_true]
      exact alookup_upsert_self q c acc
    · exact ih _ hnd.2 he (fun e2 he2 => hdis e2 (List.mem_cons.2 (Or.inr he2)))

/-- Under distinct row-table keys and pairwise-distinct pinned offsets, the
pinned dict built by `_add_counter` maps each pinned counter's offset back to
that counter. -/
theorem buildPinned_spec (counters : List (Nat × Int)) (ctrs : List (Nat × CtrState))
    (hnd : (akeys counters).Nodup)
    (hpd : ∀ c1 c2 st1 st2 p1 p2, c1 ≠ c2 →
      alookup c1 ctrs = some st1 → st1.pinned = true →
      alookup c2 ctrs = some st2 → st2.pinned = true →
      alookup c1 counters = some p1 → alookup c2 counters = some p2 → p1 ≠ p2)
    (c : Nat) (st : CtrState) (q : Int)
    (hst : alookup c ctrs = some st) (hpin : st.pinned = true)
    (hq : alookup c counters = some q) :
    alookup q (buildPinned counters ctrs) = some c := by
  have hm : (c, q) ∈ counters := mem_of_alookup hq
  simp only [buildPinned]
  apply bp_foldl_hits ctrs c q st hst hpin counters [] hnd hm
  intro e he hne st2 hst2 hpin2
  exact hpd e.1 c st2 st e.2 q hne hst2 hpin2 hst hpin (alookup_of_mem_nodup he hnd) hq

theorem bp_key_mem (counters : List (Nat × Int)) (ctrs : List (Nat × CtrState))
    (hnd : (akeys counters).Nodup)
    (hpd : ∀ c1 c2 st1 st2 p1 p2, c1 ≠ c2 →
      alookup c1 ctrs = some st1 → st1.pinned = true →
      alookup c2 ctrs = some st2 → st2.pinned = true →
      alookup c1 counters = some p1 → alookup c2 counters = some p2 → p1 ≠ p2)
    (c : Nat) (st : CtrState) (q : Int)
    (hst : alookup c ctrs = some st) (hpin : st.pinned = true)
    (hq : alookup c counters = some q) :
    q ∈ (buildPinned counters ctrs).map Prod.fst := by
  have h := buildPinned_spec counters ctrs hnd hpd c st q hst hpin hq
  exact (alookup_isSome_iff_mem_akeys q (buildPinned counters ctrs)).1 (by simp [h])

theorem bp_val_mem (counters : List (Nat × Int)) (ctrs : List (Nat × CtrState))
    (hnd : (akeys counters).Nodup)
    (hpd : ∀ c1 c2 st1 st2 p1 p2, c1 ≠ c2 →
      alookup c1 ctrs = some st1 → st1.pinned = true →
      alookup c2 ctrs = some st2 → st2.pinned = true →
      alookup c1 counters = some p1 → alookup c2 counters = some p2 → p1 ≠ p2)
    (c : Nat) (st : CtrState) (q : Int)
    (hst : alookup c ctrs = some st) (hpin : st.pinned = true)
    (hq : alookup c counters = some q) :
    c ∈ (buildPinned counters ctrs).map Prod.snd :=
  alookup_mem_values (buildPinned_spec counters ctrs hnd hpd c st q hst hpin hq)

/-- Master transfer lemma for the well-formedness invariant: a state whose
row-table keys are unchanged, whose keys are all covered by counter objects,
and whose pinned rows all trace back to equal-offset pinned rows of a
well-formed state, is itself well-formed. -/
theorem WF_mk (w w1 : World) (hwf : WF w)
    (hkeys : akeys w1.counters = akeys w.counters)
    (hcov : ∀ c ∈ akeys w1.counters, (alookup c w1.ctrs).isSome = true)
    (hback : ∀ c st1 p1, alookup c w1.ctrs = some st1 → st1.pinned = true →
        alookup c w1.counters = some p1 →
        ∃ st, alookup c w.ctrs = some st ∧ st.pinned = true ∧
              alookup c w.counters = some p1) :
    WF w1 := by
  obtain ⟨h1, _, h3⟩ := hwf
  refine ⟨hkeys ▸ h1, hcov, ?_⟩
  intro c1 c2 st1 st2 p1 p2 hne ha1 hp1 ha2 hp2 hl1 hl2
  obtain ⟨s1, hs1, hsp1, hq1⟩ := hback c1 st1 p1 ha1 hp1 hl1
  obtain ⟨s2, hs2, hsp2, hq2⟩ := hback c2 st2 p2 ha2 hp2 hl2
  exact h3 c1 c2 s1 s2 p1 p2 hne hs1 hsp1 hs2 hsp2 hq1 hq2

/-- In every state and for both outcomes, the reassignment loop leaves the
counter objects alone, keeps the row-table keys, and never moves a counter
held in the pinned dict's values. -/
theorem assignLoop_tables (clearNewToo : Bool) (newCid : Nat) (pinned : List (Int × Nat))
    (due : Nat → Bool) (L : List Nat) :
    ∀ (pos : Int) (toR : List Nat) (w : World),
    (resStateL (assignLoop clearNewToo newCid pinned due L pos toR w)).ctrs = w.ctrs ∧
    akeys (resStateL (assignLoop clearNewToo newCid pinned due L pos toR w)).counters
      = akeys w.counters ∧
    (∀ c ∈ pinned.map Prod.snd,
      alookup c (resStateL (assignLoop clearNewToo newCid pinned due L pos toR w)).counters
        = alookup c w.counters) := by
  induction L with
  | nil => intro pos toR w; exact ⟨rfl, rfl, fun c _ => rfl⟩
  | cons cid rest ih =>
    intro pos toR w
    simp only [assignLoop]
    split
    · exact ih pos toR w
    · next hskip =>
      split
      · exact ⟨rfl, rfl, fun c _ => rfl⟩
      · next old_pos hlk =>
        split
        · exact ih (nextFree (pinned.map Prod.fst) pos + 1) toR w
        · split
          · split
            · next e hclr =>
              have hc := clear_core w cid false due
              rw [hclr] at hc
              have hc' : CoreEq w e.2 := hc
              exact ⟨hc'.2.1, congrArg akeys hc'.1, fun c _ => congrArg (alookup c) hc'.1⟩
            · next w1 hclr =>
              have hc := clear_core w cid false due
              rw [hclr] at hc
              have hc' : CoreEq w w1 := hc
              have hmem : cid ∈ akeys w1.counters := by
                rw [hc'.1]
                exact (alookup_isSome_iff_mem_akeys cid w.counters).1 (by simp [hlk])
              obtain ⟨ih1, ih2, ih3⟩ := ih (nextFree (pinned.map Prod.fst) pos + 1) (toR ++ [cid]) { w1 with counters := upsert cid (nextFree (pinned.map Prod.fst) pos) w1.counters }
              refine ⟨ih1.trans hc'.2.1, ?_, ?_⟩
              · rw [ih2]
                have h2 : akeys (upsert cid (nextFree (pinned.map Prod.fst) pos) w1.counters)
                    = akeys w1.counters := akeys_upsert_mem _ _ _ hmem
                exact h2.trans (by rw [hc'.1])
              · intro c hcm
                rw [ih3 c hcm]
                have hne : cid ≠ c := fun h => hskip (h ▸ hcm)
                have h2 : alookup c (upsert cid (nextFree (pinned.map Prod.fst) pos) w1.counters)
                    = alookup c w1.counters := alookup_upsert_ne _ _ _ _ hne
                exact h2.trans (by rw [hc'.1])
          · obtain ⟨ih1, ih2, ih3⟩ := ih (nextFree (pinned.map Prod.fst) pos + 1) toR { w with counters := upsert cid (nextFree (pinned.map Prod.fst) pos) w.counters }
            have hmem : cid ∈ akeys w.counters :=
              (alookup_isSome_iff_mem_akeys cid w.counters).1 (by simp [hlk])
            refine ⟨ih1, ?_, ?_⟩
            · rw [ih2]
              exact akeys_upsert_mem _ _ _ hmem
            · intro c hcm
              rw [ih3 c hcm]
              have hne : cid ≠ c := fun h => hskip (h ▸ hcm)
              exact alookup_upsert_ne _ _ _ _ hne

/-- The queued-refresh loop only touches the output state. -/
theorem refreshListGo_core (due : Nat → Bool) (L : List Nat) :
    ∀ w, CoreEq w (resState (refreshListGo due L w)) := by
  induction L with
  | nil => intro w; exact CoreEq_refl w
  | cons cid rest ih =>
    intro w
    simp only [refreshListGo]
    split
    · next e h =>
      have hc := refresh_core w cid false due
      rw [h] at hc
      exact hc
    · next w1 h =>
      have hc := refresh_core w cid false due
      rw [h] at hc
      exact CoreEq_trans hc (ih w1)

/-- The tail of `_add_counter` (reassignment loop, scroll area, queued
refreshes, flush) preserves well-formedness whenever every pinned counter
holding a row is a value of the pinned dict handed to the loop. -/
theorem addFinish_wf (w : World) (newCid : Nat) (isSB : Bool) (pinned : List (Int × Nat))
    (toR0 : List Nat) (due : Nat → Bool) (hwf : WF w)
    (hpv : ∀ c st p, alookup c w.ctrs = some st → st.pinned = true →
      alookup c w.counters = some p → c ∈ pinned.map Prod.snd) :
    WF (resState (addFinish w newCid isSB pinned toR0 due)) := by
  obtain ⟨hT1, hT2, hT3⟩ := assignLoop_tables isSB newCid pinned due
    ((akeys w.counters).reverse) 1 toR0 w
  have hWF1 : ∀ w1, resStateL (assignLoop isSB newCid pinned due
      ((akeys w.counters).reverse) 1 toR0 w) = w1 → WF w1 := by
    intro w1 hres
    rw [hres] at hT1 hT2 hT3
    refine WF_mk w w1 hwf hT2 ?_ ?_
    · intro c hcm
      rw [hT1]
      exact hwf.2.1 c (hT2 ▸ hcm)
    · intro c st1 p1 ha1 hp1 hl1
      rw [hT1] at ha1
      have hcm : c ∈ akeys w.counters := by
        rw [← hT2]
        exact (alookup_isSome_iff_mem_akeys c w1.counters).1 (by simp [hl1])
      obtain ⟨p, hp⟩ := Option.isSome_iff_exists.1 ((alookup_isSome_iff_mem_akeys c w.counters).2 hcm)
      have hcv : c ∈ pinned.map Prod.snd := hpv c st1 p ha1 hp1 hp
      refine ⟨st1, ha1, hp1, ?_⟩
      rw [← hT3 c hcv]
      exact hl1
  simp only [addFinish]
  split
  · next e hloop =>
    exact hWF1 e.2 (by rw [hloop]; rfl)
  · next w1 toR hloop =>
    have hwf1 : WF w1 := hWF1 w1 (by rw [hloop]; rfl)
    split
    · next e2 hssa =>
      exact WF_of_CoreEq (ssa_core_error hssa) hwf1
    · next w2 hssa =>
      have hwf2 : WF w2 := WF_of_CoreEq (ssa_core_ok hssa) hwf1
      split
      · next e3 hrg =>
        have hc := refreshListGo_core due toR.reverse w2
        rw [hrg] at hc
        exact WF_of_CoreEq hc hwf2
      · next w3 hrg =>
        have hc := refreshListGo_core due toR.reverse w2
        rw [hrg] at hc
        exact WF_of_CoreEq (CoreEq_trans hc (flush_core w3)) hwf2

/-- Replacing the counter objects without touching the row table, in a way
that keeps every table key covered, preserves well-formedness as long as the
lookups at table keys are unchanged. -/
theorem WF_retables (w w1 : World) (hc : w1.counters = w.counters)
    (hk : ∀ c ∈ akeys w.counters, alookup c w1.ctrs = alookup c w.ctrs)
    (hwf : WF w) : WF w1 := by
  refine WF_mk w w1 hwf (by rw [hc]) ?_ ?_
  · intro c hcm
    rw [hc] at hcm
    rw [hk c hcm]
    exact hwf.2.1 c hcm
  · intro c st1 p1 ha1 hp1 hl1
    rw [hc] at hl1
    have hcm : c ∈ akeys w.counters :=
      (alookup_isSome_iff_mem_akeys c w.counters).1 (by simp [hl1])
    rw [hk c hcm] at ha1
    exact ⟨st1, ha1, hp1, hl1⟩

/-- Installing a fresh pinned counter at an uncolliding offset and running the
`_add_counter` tail preserves well-formedness. -/
theorem add_pin_wf (wB : World) (cid : Nat) (stT : CtrState) (p : Int) (isSB : Bool)
    (toR0 : List Nat) (due : Nat → Bool)
    (hfresh : cid ∉ akeys wB.counters) (hwfB : WF wB)
    (hnc : p ∉ (buildPinned wB.counters wB.ctrs).map Prod.fst) :
    WF (resState (addFinish { wB with ctrs := upsert cid stT wB.ctrs, counters := upsert cid p wB.counters } cid isSB (upsert p cid (buildPinned wB.counters wB.ctrs)) toR0 due)) := by
  obtain ⟨hnd, hcov, hpd⟩ := hwfB
  have hvals : (upsert p cid (buildPinned wB.counters wB.ctrs)).map Prod.snd
      = (buildPinned wB.counters wB.ctrs).map Prod.snd ++ [cid] := by
    rw [upsert_fresh_append p cid _ hnc]
    simp
  have hwfC : WF { wB with ctrs := upsert cid stT wB.ctrs, counters := upsert cid p wB.counters } := by
    refine ⟨?_, ?_, ?_⟩
    · show (akeys (upsert cid p wB.counters)).Nodup
      rw [akeys_upsert_not_mem cid p wB.counters hfresh]
      simp [List.nodup_append, hnd, hfresh]
    · intro c hcm
      show (alookup c (upsert cid stT wB.ctrs)).isSome = true
      by_cases hcc : c = cid
      · rw [hcc, alookup_upsert_self]
        rfl
      · rw [alookup_upsert_ne cid c stT wB.ctrs (fun h => hcc h.symm)]
        have hcm2 : c ∈ akeys (upsert cid p wB.counters) := hcm
        rw [akeys_upsert_not_mem cid p wB.counters hfresh] at hcm2
        rcases List.mem_append.1 hcm2 with h | h
        · exact hcov c h
        · exact absurd (by simpa using h) hcc
    · intro c1 c2 st1 st2 p1 p2 hne ha1 hp1 ha2 hp2 hl1 hl2
      have ha1' : alookup c1 (upsert cid stT wB.ctrs) = some st1 := ha1
      have ha2' : alookup c2 (upsert cid stT wB.ctrs) = some st2 := ha2
      have hl1' : alookup c1 (upsert cid p wB.counters) = some p1 := hl1
      have hl2' : alookup c2 (upsert cid p wB.counters) = some p2 := hl2
      by_cases hc1 : c1 = cid
      · rw [hc1] at hl1'
        rw [alookup_upsert_self] at hl1'
        have hc2 : c2 ≠ cid := fun h => hne (hc1.trans h.symm)
        rw [alookup_upsert_ne cid c2 stT wB.ctrs (fun h => hc2 h.symm)] at ha2'
        rw [alookup_upsert_ne cid c2 p wB.counters (fun h => hc2 h.symm)] at hl2'
        have hk2 : p2 ∈ (buildPinned wB.counters wB.ctrs).map Prod.fst :=
          bp_key_mem wB.counters wB.ctrs hnd hpd c2 st2 p2 ha2' hp2 hl2'
        intro heq
        apply hnc
        rw [Option.some.inj hl1', heq]
        exact hk2
      · by_cases hc2 : c2 = cid
        · rw [hc2] at hl2'
          rw [alookup_upsert_self] at hl2'
          rw [alookup_upsert_ne cid c1 stT wB.ctrs (fun h => hc1 h.symm)] at ha1'
          rw [alookup_upsert_ne cid c1 p wB.counters (fun h => hc1 h.symm)] at hl1'
          have hk1 : p1 ∈ (buildPinned wB.counters wB.ctrs).map Prod.fst :=
            bp_key_mem wB.counters wB.ctrs hnd hpd c1 st1 p1 ha1' hp1 hl1'
          intro heq
          apply hnc
          rw [Option.some.inj hl2', ← heq]
          exact hk1
        · rw [alookup_upsert_ne cid c1 stT wB.ctrs (fun h => hc1 h.symm)] at ha1'
          rw [alookup_upsert_ne cid c2 stT wB.ctrs (fun h => hc2 h.symm)] at ha2'
          rw [alookup_upsert_ne cid c1 p wB.counters (fun h => hc1 h.symm)] at hl1'
          rw [alookup_upsert_ne cid c2 p wB.counters (fun h => hc2 h.symm)] at hl2'
          exact hpd c1 c2 st1 st2 p1 p2 hne ha1' hp1 ha2' hp2 hl1' hl2'
  apply addFinish_wf _ cid isSB _ toR0 due hwfC
  intro c st q ha hp hq
  have ha' : alookup c (upsert cid stT wB.ctrs) = some st := ha
  have hq' : alookup c (upsert cid p wB.counters) = some q := hq
  rw [hvals]
  by_cases hcc : c = cid
  · subst hcc
    simp
  · rw [alookup_upsert_ne cid c stT wB.ctrs (fun h => hcc h.symm)] at ha'
    rw [alookup_upsert_ne cid c p wB.counters (fun h => hcc h.symm)] at hq'
    exact List.mem_append.2 (Or.inl
      (bp_val_mem wB.counters wB.ctrs hnd hpd c st q ha' hp hq'))

/-- Installing a fresh unpinned counter at offset 0 and running the
`_add_counter` tail preserves well-formedness. -/
theorem add_auto_wf (wB : World) (cid : Nat) (stF : CtrState) (isSB : Bool)
    (due : Nat → Bool)
    (hpinF : stF.pinned = false)
    (hcid : alookup cid wB.ctrs = some stF)
    (hfresh : cid ∉ akeys wB.counters) (hwfB : WF wB) :
    WF (resState (addFinish { wB with counters := upsert cid 0 wB.counters } cid isSB (buildPinned wB.counters wB.ctrs) [] due)) := by
  obtain ⟨hnd, hcov, hpd⟩ := hwfB
  have hwfC : WF { wB with counters := upsert cid 0 wB.counters } := by
    refine ⟨?_, ?_, ?_⟩
    · show (akeys (upsert cid (0 : Int) wB.counters)).Nodup
      rw [akeys_upsert_not_mem cid 0 wB.counters hfresh]
      simp [List.nodup_append, hnd, hfresh]
    · intro c hcm
      have hcm2 : c ∈ akeys (upsert cid (0 : Int) wB.counters) := hcm
      rw [akeys_upsert_not_mem cid 0 wB.counters hfresh] at hcm2
      show (alookup c wB.ctrs).isSome = true
      rcases List.mem_append.1 hcm2 with h | h
      · exact hcov c h
      · rw [(by simpa using h : c = cid), hcid]
        rfl
    · intro c1 c2 st1 st2 p1 p2 hne ha1 hp1 ha2 hp2 hl1 hl2
      have ha1' : alookup c1 wB.ctrs = some st1 := ha1
      have ha2' : alookup c2 wB.ctrs = some st2 := ha2
      have hl1' : alookup c1 (upsert cid (0 : Int) wB.counters) = some p1 := hl1
      have hl2' : alookup c2 (upsert cid (0 : Int) wB.counters) = some p2 := hl2
      have hc1 : c1 ≠ cid := by
        intro h
        rw [h, hcid] at ha1'
        rw [← Option.some.inj ha1'] at hp1
        rw [hpinF] at hp1
        cases hp1
      have hc2 : c2 ≠ cid := by
        intro h
        rw [h, hcid] at ha2'
        rw [← Option.some.inj ha2'] at hp2
        rw [hpinF] at hp2
        cases hp2
      rw [alookup_upsert_ne cid c1 0 wB.counters (fun h => hc1 h.symm)] at hl1'
      rw [alookup_upsert_ne cid c2 0 wB.counters (fun h => hc2 h.symm)] at hl2'
      exact hpd c1 c2 st1 st2 p1 p2 hne ha1' hp1 ha2' hp2 hl1' hl2'
  apply addFinish_wf _ cid isSB _ [] due hwfC
  intro c st q ha hp hq
  have ha' : alookup c wB.ctrs = some st := ha
  have hq' : alookup c (upsert cid (0 : Int) wB.counters) = some q := hq
  have hcc : c ≠ cid := by
    intro h
    rw [h, hcid] at ha'
    rw [← Option.some.inj ha'] at hp
    rw [hpinF] at hp
    cases hp
  rw [alookup_upsert_ne cid c 0 wB.counters (fun h => hcc h.symm)] at hq'
  exact bp_val_mem wB.counters wB.ctrs hnd hpd c st q ha' hp hq'

/-- The explicit-position branch of `Manager._add_counter` preserves
well-formedness: either validation raises with the state as built so far, or
the counter is installed pinned at an uncolliding offset and the tail runs. -/
theorem add_some_wf (wB : World) (cid : Nat) (st0 : CtrState) (p : Int) (isSB : Bool)
    (due : Nat → Bool) (toR0 : List Nat)
    (hfresh : cid ∉ akeys wB.counters) (hwfB : WF wB) :
    WF (resState (if p ∈ (buildPinned wB.counters wB.ctrs).map Prod.fst then
        Except.error ("ValueError: Counter position is already occupied.", wB)
      else if p > wB.height then
        Except.error ("ValueError: Counter position is greater than terminal height.", wB)
      else addFinish { wB with ctrs := upsert cid { st0 with pinned := true, closed := false } wB.ctrs, counters := upsert cid p wB.counters } cid isSB (upsert p cid (buildPinned wB.counters wB.ctrs)) toR0 due)) := by
  by_cases hcol : p ∈ (buildPinned wB.counters wB.ctrs).map Prod.fst
  · rw [if_pos hcol]
    exact hwfB
  · rw [if_neg hcol]
    by_cases hh : p > wB.height
    · rw [if_pos hh]
      exact hwfB
    · rw [if_neg hh]
      exact add_pin_wf wB cid _ p isSB toR0 due hfresh hwfB hcol

/-- `Manager._add_counter` preserves well-formedness: called on a well-formed
state with a freshly constructed counter object, the resulting state — also
the state carried by a raise — is well-formed. -/
theorem add_counter_wf (w : World) (cid : Nat) (st0 : CtrState) (position : Option Int)
    (ar isSB : Bool) (due : Nat → Bool)
    (hfresh : cid ∉ akeys w.counters) (hwf : WF w) :
    WF (resState (Manager.add_counter w cid st0 position ar isSB due)) := by
  have hwfB : ∀ wB : World, wB.counters = w.counters →
      wB.ctrs = upsert cid { st0 with pinned := false, closed := false } w.ctrs →
      WF wB := by
    intro wB hBc hBk
    refine WF_retables w wB hBc ?_ hwf
    intro c hcm
    rw [hBk]
    exact alookup_upsert_ne cid c _ w.ctrs (fun h => hfresh (by rw [h]; exact hcm))
  simp only [Manager.add_counter]
  cases ar with
  | false =>
    split
    · next p =>
      refine add_some_wf _ cid st0 p isSB due _ ?_ ?_
      · exact hfresh
      · exact hwfB _ rfl rfl
    · refine add_auto_wf _ cid { st0 with pinned := false, closed := false } isSB due rfl ?_ ?_ ?_
      · exact alookup_upsert_self cid _ w.ctrs
      · exact hfresh
      · exact hwfB _ rfl rfl
  | true =>
    split
    · next p =>
      refine add_some_wf _ cid st0 p isSB due _ ?_ ?_
      · exact hfresh
      · exact hwfB _ rfl rfl
    · refine add_auto_wf _ cid { st0 with pinned := false, closed := false } isSB due rfl ?_ ?_ ?_
      · exact alookup_upsert_self cid _ w.ctrs
      · exact hfresh
      · exact hwfB _ rfl rfl

/-- Replacing one counter object by one with the same `_pinned` flag
preserves well-formedness. -/
theorem WF_upsert_ctrs_samepin (w : World) (cid : Nat) (st st2 : CtrState)
    (hst : alookup cid w.ctrs = some st) (hp : st2.pinned = st.pinned)
    (hwf : WF w) : WF { w with ctrs := upsert cid st2 w.ctrs } := by
  refine WF_mk w _ hwf rfl ?_ ?_
  · intro c hcm
    show (alookup c (upsert cid st2 w.ctrs)).isSome = true
    by_cases hcc : c = cid
    · rw [hcc, alookup_upsert_self]
      rfl
    · rw [alookup_upsert_ne cid c st2 w.ctrs (fun h => hcc h.symm)]
      exact hwf.2.1 c hcm
  · intro c st1 p1 ha1 hp1 hl1
    have ha1' : alookup c (upsert cid st2 w.ctrs) = some st1 := ha1
    by_cases hcc : c = cid
    · rw [hcc, alookup_upsert_self] at ha1'
      refine ⟨st, by rw [hcc]; exact hst, ?_, hl1⟩
      rw [← hp, Option.some.inj ha1']
      exact hp1
    · rw [alookup_upsert_ne cid c st2 w.ctrs (fun h => hcc h.symm)] at ha1'
      exact ⟨st1, ha1', hp1, hl1⟩

/-- `Counter.update` preserves well-formedness in every state and for both
outcomes. -/
theorem WF_update (w : World) (cid : Nat) (incr : Int) (force : Bool) (due : Nat → Bool)
    (hwf : WF w) : WF (resState (Counter.update w cid incr force due)) := by
  simp only [Counter.update]
  split
  · exact hwf
  · next st hst =>
    have hwf1 : WF { w with ctrs := upsert cid { st with count := st.count + incr } w.ctrs } :=
      WF_upsert_ctrs_samepin w cid st _ hst rfl hwf
    split
    · exact WF_of_CoreEq (refresh_core _ cid true due) hwf1
    · exact hwf1

theorem alookup_disableAll (ctrs : List (Nat × CtrState)) (cids : List Nat) (c : Nat) :
    alookup c (disableAll ctrs cids) =
      (alookup c ctrs).map (fun st => if c ∈ cids then { st with enabled := false } else st) := by
  induction ctrs with
  | nil => rfl
  | cons e t ih =>
    obtain ⟨k, v⟩ := e
    simp only [disableAll] at ih ⊢
    simp only [List.map_cons]
    by_cases hm : k ∈ cids
    · rw [if_pos hm]
      by_cases he : k = c
      · subst he
        simp [alookup, hm]
      · simp [alookup, he, ih]
    · rw [if_neg hm]
      by_cases he : k = c
      · subst he
        simp [alookup, hm]
      · simp [alookup, he, ih]

/-- `Manager.stop` keeps the row table and either keeps the counter objects
or disables them all. -/
theorem stop_tables (w : World) :
    (Manager.stop w).counters = w.counters ∧
    ((Manager.stop w).ctrs = w.ctrs ∨
     (Manager.stop w).ctrs = disableAll w.ctrs (akeys w.counters)) := by
  simp only [Manager.stop]
  split
  · exact ⟨rfl, Or.inl rfl⟩
  · refine ⟨?_, Or.inr ?_⟩
    · repeat' split
      all_goals rfl
    · repeat' split
      all_goals rfl

theorem WF_stop (w : World) (hwf : WF w) : WF (Manager.stop w) := by
  obtain ⟨hc, hk⟩ := stop_tables w
  rcases hk with hk | hk
  · refine WF_mk w _ hwf (by rw [hc]) ?_ ?_
    · intro c hcm
      rw [hk]
      exact hwf.2.1 c (by rw [← hc]; exact hcm)
    · intro c st1 p1 ha1 hp1 hl1
      rw [hk] at ha1
      rw [hc] at hl1
      exact ⟨st1, ha1, hp1, hl1⟩
  · refine WF_mk w _ hwf (by rw [hc]) ?_ ?_
    · intro c hcm
      rw [hk, alookup_disableAll]
      have h2 := hwf.2.1 c (by rw [← hc]; exact hcm)
      cases h : alookup c w.ctrs with
      | none => rw [h] at h2; cases h2
      | some st => simp [h]
    · intro c st1 p1 ha1 hp1 hl1
      rw [hk, alookup_disableAll] at ha1
      rw [hc] at hl1
      cases h : alookup c w.ctrs with
      | none => rw [h] at ha1; cases ha1
      | some st =>
        rw [h] at ha1
        refine ⟨st, rfl, ?_, hl1⟩
        have hs : (if c ∈ akeys w.counters then { st with enabled := false } else st) = st1 :=
          Option.some.inj ha1
        rw [← hs] at hp1
        by_cases hm : c ∈ akeys w.counters
        · rw [if_pos hm] at hp1
          exact hp1
        · rw [if_neg hm] at hp1
          exact hp1

/-- The clear-or-refresh-then-remove tail of `PrintableCounter.close`
preserves well-formedness. -/
theorem close_dispatch_wf (w1 : World) (cid : Nat) {c1 : Prop} [Decidable c1]
    {c2 : Prop} [Decidable c2] (due : Nat → Bool) (hwf1 : WF w1) :
    WF (resState (match (if c1 then PrintableCounter.clear w1 cid true due
        else if c2 then PrintableCounter.refresh w1 cid true due
        else Except.ok w1) with
      | .error e => Except.error e
      | .ok w2 => Except.ok (Manager.remove w2 cid))) := by
  by_cases hc1 : c1
  · rw [if_pos hc1]
    split
    · next e hres =>
      have hc := clear_core w1 cid true due
      rw [hres] at hc
      exact WF_of_CoreEq hc hwf1
    · next w2 hres =>
      have hc := clear_core w1 cid true due
      rw [hres] at hc
      exact WF_remove w2 cid (WF_of_CoreEq hc hwf1)
  · rw [if_neg hc1]
    by_cases hc2 : c2
    · rw [if_pos hc2]
      split
      · next e hres =>
        have hc := refresh_core w1 cid true due
        rw [hres] at hc
        exact WF_of_CoreEq hc hwf1
      · next w2 hres =>
        have hc := refresh_core w1 cid true due
        rw [hres] at hc
        exact WF_remove w2 cid (WF_of_CoreEq hc hwf1)
    · rw [if_neg hc2]
      exact WF_remove w1 cid hwf1

/-- `PrintableCounter.close` preserves well-formedness in every state and for
both outcomes. -/
theorem WF_close (w : World) (cid : Nat) (clear : Bool) (due : Nat → Bool)
    (hwf : WF w) : WF (resState (PrintableCounter.close w cid clear due)) := by
  simp only [PrintableCounter.close]
  split
  · exact hwf
  · next st hst =>
    have hwf1 : WF (if st.closed = true then { w with warnings := w.warnings + 1 }
        else { w with ctrs := upsert cid { st with closed := true } w.ctrs }) := by
      split
      · exact WF_retables w _ rfl (fun c _ => rfl) hwf
      · exact WF_upsert_ctrs_samepin w cid st _ hst rfl hwf
    exact close_dispatch_wf _ cid due hwf1

theorem WF_init (w : World) (hinit : w.counters = []) : WF w := by
  refine ⟨?_, ?_, ?_⟩
  · rw [hinit]
    simp [akeys]
  · intro c hcm
    rw [hinit] at hcm
    simp [akeys] at hcm
  · intro c1 c2 st1 st2 p1 p2 hne ha1 hp1 ha2 hp2 hl1 hl2
    rw [hinit] at hl1
    cases hl1

theorem WF_step (w w1 : World) (hs : Step w w1) (hwf : WF w) : WF w1 := by
  cases hs with
  | add cid st0 position ar isSB due hfresh =>
    exact add_counter_wf w cid st0 position ar isSB due hfresh hwf
  | write output flush counter due =>
    exact WF_of_CoreEq (write_core w output flush counter due) hwf
  | clear cid flush due =>
    exact WF_of_CoreEq (clear_core w cid flush due) hwf
  | refresh cid flush due =>
    exact WF_of_CoreEq (refresh_core w cid flush due) hwf
  | update cid incr force due =>
    exact WF_update w cid incr force due hwf
  | close cid clearFlag due =>
    exact WF_close w cid clearFlag due hwf
  | remove cid =>
    exact WF_remove w cid hwf
  | stop =>
    exact WF_stop w hwf
  | resize due =>
    exact WF_of_CoreEq (resize_handler_core w due) hwf

theorem WF_reachable (w : World) (hr : Reachable w) : WF w := by
  induction hr with
  | init w hinit => exact WF_init w hinit
  | step w w1 h hs ih => exact WF_step w w1 hs ih

/-- C1: in every reachable manager state, no two pinned counters share a row
offset; and a counter-creation call requesting an explicit position `p` that
a pinned counter already holds raises
`ValueError: Counter position is already occupied.` with the row table
exactly as it was before the call — in the `Manager` variant unconditionally,
and in the `BaseManager` variant for every `p` that also passes its
lower-bound check. -/
theorem pinned_offsets_distinct_and_collision_raises
    (w : World) (hr : Reachable w)
    (cid c : Nat) (st0 st : CtrState) (p : Int) (ar isSB : Bool) (due : Nat → Bool)
    (hfresh : cid ∉ akeys w.counters)
    (hc : alookup c w.ctrs = some st) (hpin : st.pinned = true)
    (hcp : alookup c w.counters = some p) :
    PinnedDistinct w ∧
    (∃ wB, Manager.add_counter w cid st0 (some p) ar isSB due =
        Except.error ("ValueError: Counter position is already occupied.", wB) ∧
        wB.counters = w.counters) ∧
    (1 ≤ p → ∃ bB, BaseManager.add_counter (bmOf w) cid st0 (some p) ar none =
        Except.error ("ValueError: Counter position is already occupied.", bB) ∧
        bB.counters = w.counters) := by
  have hwf := WF_reachable w hr
  have hcol : ∀ ks2 : List (Nat × CtrState),
      (∀ e ∈ w.counters, alookup e.1 ks2 = alookup e.1 w.ctrs) →
      p ∈ (buildPinned w.counters ks2).map Prod.fst := by
    intro ks2 hcongr
    rw [buildPinned_congr w.counters w.ctrs ks2 hcongr]
    exact bp_key_mem w.counters w.ctrs hwf.1 hwf.2.2 c st p hc hpin hcp
  have hcongrM : ∀ e ∈ w.counters,
      alookup e.1 (upsert cid { st0 with pinned := false, closed := false } w.ctrs)
        = alookup e.1 w.ctrs := by
    intro e he
    refine alookup_upsert_ne cid e.1 _ w.ctrs (fun h => hfresh ?_)
    rw [h]
    exact List.mem_map.2 ⟨e, he, rfl⟩
  refine ⟨hwf.2.2, ?_, ?_⟩
  · cases ar with
    | false =>
      refine ⟨{ w with ctrs := upsert cid { st0 with pinned := false, closed := false } w.ctrs }, ?_, rfl⟩
      simp only [Manager.add_counter]
      exact if_pos (hcol _ hcongrM)
    | true =>
      refine ⟨{ w with ctrs := upsert cid { st0 with pinned := false, closed := false } w.ctrs, autorefresh := w.autorefresh ++ [cid] }, ?_, rfl⟩
      simp only [Manager.add_counter]
      exact if_pos (hcol _ hcongrM)
  · intro h1p
    have hnlt : ¬ p < 1 := by omega
    cases ar with
    | false =>
      refine ⟨{ bmOf w with ctrs := upsert cid { st0 with pinned := false, closed := false } (bmOf w).ctrs }, ?_, rfl⟩
      simp only [BaseManager.add_counter]
      exact (if_neg hnlt).trans (if_pos (hcol _ hcongrM))
    | true =>
      refine ⟨{ bmOf w with ctrs := upsert cid { st0 with pinned := false, closed := false } (bmOf w).ctrs, autorefresh := (bmOf w).autorefresh ++ [cid] }, ?_, rfl⟩
      simp only [BaseManager.add_counter]
      exact (if_neg hnlt).trans (if_pos (hcol _ hcongrM))

/-- C1 witness: in the concrete reachable state `exC1w` (counter 10 pinned at
offset 5), the invariant holds and adding counter 20 at position 5 raises the
occupied error in both implementations with the row table unchanged. -/
theorem pinned_offsets_distinct_and_collision_raises_witness :
    PinnedDistinct exC1w ∧
    (∃ wB, Manager.add_counter exC1w 20 {} (some 5) false false dueNever =
        Except.error ("ValueError: Counter position is already occupied.", wB) ∧
        wB.counters = exC1w.counters) ∧
    (1 ≤ (5 : Int) → ∃ bB, BaseManager.add_counter (bmOf exC1w) 20 {} (some 5) false none =
        Except.error ("ValueError: Counter position is already occupied.", bB) ∧
        bB.counters = exC1w.counters) :=
  pinned_offsets_distinct_and_collision_raises exC1w
    (Reachable.step exC1base exC1w (Reachable.init exC1base rfl)
      (Step.add exC1base 10 exC1st0 (some 5) false false dueNever (by decide)))
    20 10 {} exC1stored 5 false false dueNever (by decide) (by decide) (by decide) (by decide)

/-- C3 counterexample: after adding counters 1 and 2 and removing counter 1,
the row table holds only offset 1 but `scroll_offset` stays 3, not
`max(offsets) + 1 = 2`: `Manager.remove` never updates the scroll area and
`_set_scroll_area` only ever grows the offset. -/
theorem scroll_offset_stale_after_remove :
    (Manager.remove exC3w2 1).counters = [(2, 1)] ∧
    (Manager.remove exC3w2 1).scroll_offset = 3 ∧
    maxVals (Manager.remove exC3w2 1).counters + 1 = 2 := by
  refine ⟨?_, ?_, ?_⟩ <;> decide

/-- C3 (amended): adding a counter in a quiet state re-establishes
`scroll_offset = max(old scroll_offset, max(offsets) + 1)` — the offset never
shrinks — while removing a counter leaves `scroll_offset` exactly as it was,
so after a removal it can strictly exceed `max(offsets) + 1`. -/
theorem scroll_offset_after_add_and_remove
    (w : World) (cid cid2 : Nat) (st0 : CtrState) (position : Option Int)
    (isSB : Bool) (due : Nat → Bool)
    (hrl : w.refresh_lock = false) (har : w.autorefresh = [])
    (hrp : w.resizePending = false)
    (hnd : (akeys w.counters).Nodup)
    (hfresh : cid ∉ akeys w.counters)
    (hcov : ∀ c ∈ akeys w.counters, (alookup c w.ctrs).isSome = true)
    (hvalid : ∀ p, position = some p →
      (¬ p ∈ (buildPinned w.counters w.ctrs).map Prod.fst) ∧ p ≤ w.height)
    (h1 : 1 ≤ w.scroll_offset)
    (hdom : ∀ v ∈ w.counters.map Prod.snd, v + 1 ≤ w.scroll_offset) :
    (∃ w1, Manager.add_counter w cid st0 position false isSB due = .ok w1 ∧
      w1.scroll_offset = max w.scroll_offset (maxVals w1.counters + 1)) ∧
    (Manager.remove w cid2).scroll_offset = w.scroll_offset := by
  constructor
  · obtain ⟨w1, hrun, _, _, _, _, _, _, _, _, _, _, hmax, _, _, _⟩ :=
      add_counter_run w cid st0 position isSB due hrl har hrp hnd hfresh hcov hvalid
    exact ⟨w1, hrun, hmax h1 hdom⟩
  · unfold Manager.remove
    split
    · rfl
    · split
      · rfl
      · rfl

/-- C3 witness: the amended statement at the concrete two-counter state
`exC3w2` — adding counter 3 recomputes the offset as the clamped maximum, and
removing counter 1 leaves it at 3. -/
theorem scroll_offset_after_add_and_remove_witness :
    (∃ w1, Manager.add_counter exC3w2 3 {} none false false dueNever = .ok w1 ∧
      w1.scroll_offset = max exC3w2.scroll_offset (maxVals w1.counters + 1)) ∧
    (Manager.remove exC3w2 1).scroll_offset = exC3w2.scroll_offset :=
  scroll_offset_after_add_and_remove exC3w2 3 1 {} none false dueNever
    (by decide) (by decide) (by decide) (by decide) (by decide) (by decide)
    (by intro p hp; cases hp) (by decide) (by decide)

theorem nextFreeGo_ge (n : Nat) : ∀ (ks : List Int) (p : Int), p ≤ nextFreeGo n ks p := by
  induction n with
  | zero => intro ks p; exact le_refl p
  | succ n ih =>
    intro ks p
    simp only [nextFreeGo]
    split
    · exact le_trans (by omega) (ih (ks.erase p) (p + 1))
    · exact le_refl p

theorem nextFreeGo_not_mem (n : Nat) : ∀ (ks : List Int) (p : Int),
    ks.length ≤ n → nextFreeGo n ks p ∉ ks := by
  induction n with
  | zero =>
    intro ks p hlen
    rw [List.length_eq_zero.1 (Nat.le_zero.1 hlen)]
    simp
  | succ n ih =>
    intro ks p hlen
    simp only [nextFreeGo]
    split
    · next hp =>
      have hlen2 : (ks.erase p).length ≤ n := by
        rw [List.length_erase_of_mem hp]
        omega
      have h1 := ih (ks.erase p) (p + 1) hlen2
      have h2 := nextFreeGo_ge n (ks.erase p) (p + 1)
      intro hmem
      apply h1
      rw [List.mem_erase_of_ne (by omega)]
      exact hmem
    · next hp => exact hp

theorem nextFree_not_mem (ks : List Int) (p : Int) : nextFree ks p ∉ ks :=
  nextFreeGo_not_mem ks.length ks p (le_refl _)

theorem nextFree_ge (ks : List Int) (p : Int) : p ≤ nextFree ks p :=
  nextFreeGo_ge ks.length ks p

/-- Every counter in the walked list receives an offset. -/
theorem walkAssign_domain (ks : List Int) (L : List Nat) (c : Nat) :
    ∀ p, c ∈ L → ∃ q, (c, q) ∈ walkAssign ks L p := by
  induction L with
  | nil => intro p h; cases h
  | cons a t ih =>
    intro p h
    rcases List.mem_cons.1 h with h | h
    · exact ⟨nextFree ks p, by rw [h]; exact List.mem_cons.2 (Or.inl rfl)⟩
    · obtain ⟨q, hq⟩ := ih (nextFree ks p + 1) h
      exact ⟨q, List.mem_cons.2 (Or.inr hq)⟩

/-- Every offset the walk hands out avoids the pinned offsets and lies at or
above the walk's starting offset. -/
theorem walkAssign_mem_props (ks : List Int) (L : List Nat) :
    ∀ p c q, (c, q) ∈ walkAssign ks L p → q ∉ ks ∧ p ≤ q := by
  induction L with
  | nil => intro p c q h; cases h
  | cons a t ih =>
    intro p c q h
    simp only [walkAssign, List.mem_cons, Prod.mk.injEq] at h
    rcases h with ⟨hc, hq⟩ | h
    · subst hq
      exact ⟨nextFree_not_mem ks p, nextFree_ge ks p⟩
    · obtain ⟨h1, h2⟩ := ih (nextFree ks p + 1) c q h
      have := nextFree_ge ks p
      exact ⟨h1, by omega⟩

/-- C5: adding a counter reassigns every non-pinned counter by the documented
walk — the row-table keys newest-first, pinned counters skipped, each
remaining counter getting the next offset from 1 upward not claimed by a
pinned counter (`walkAssign` over `nextFree`) — while pinned counters keep
their offsets; in particular, after pinning counter 10 at offset 5 and
auto-placing counters 11 and 12, the tables of both implementations read
`[(10, 5), (11, 2), (12, 1)]`. -/
theorem auto_assignment_walk
    (w : World) (cid : Nat) (st0 : CtrState) (position : Option Int)
    (isSB : Bool) (due : Nat → Bool)
    (hrl : w.refresh_lock = false) (har : w.autorefresh = [])
    (hrp : w.resizePending = false)
    (hnd : (akeys w.counters).Nodup)
    (hfresh : cid ∉ akeys w.counters)
    (hcov : ∀ c ∈ akeys w.counters, (alookup c w.ctrs).isSome = true)
    (hvalid : ∀ p, position = some p →
      (¬ p ∈ (buildPinned w.counters w.ctrs).map Prod.fst) ∧ p ≤ w.height) :
    (∃ w1, Manager.add_counter w cid st0 position false isSB due = .ok w1 ∧
      (∀ c, c ∈ ((akeys w.counters ++ [cid]).reverse).filter
          (fun x => ¬ x ∈ (pinnedAfterAdd w cid position).map Prod.snd) →
        ∃ q, (c, q) ∈ walkAssign ((pinnedAfterAdd w cid position).map Prod.fst)
            (((akeys w.counters ++ [cid]).reverse).filter
              (fun x => ¬ x ∈ (pinnedAfterAdd w cid position).map Prod.snd)) 1 ∧
          alookup c w1.counters = some q ∧
          q ∉ (pinnedAfterAdd w cid position).map Prod.fst ∧ 1 ≤ q) ∧
      (∀ c, c ∈ (buildPinned w.counters w.ctrs).map Prod.snd → c ≠ cid →
        alookup c w1.counters = alookup c w.counters)) ∧
    exC5e3.counters = [(10, 5), (11, 2), (12, 1)] ∧
    exC5b3.counters = [(10, 5), (11, 2), (12, 1)] := by
  refine ⟨?_, by decide, by decide⟩
  obtain ⟨w1, hrun, _, _, _, _, _, hpinun, _, hwalk, _, _, _, _, _, _⟩ :=
    add_counter_run w cid st0 position isSB due hrl har hrp hnd hfresh hcov hvalid
  refine ⟨w1, hrun, ?_, hpinun⟩
  intro c hcL
  obtain ⟨q, hq⟩ := walkAssign_domain ((pinnedAfterAdd w cid position).map Prod.fst) _ c 1 hcL
  obtain ⟨hnot, hge⟩ := walkAssign_mem_props ((pinnedAfterAdd w cid position).map Prod.fst) _ 1 c q hq
  exact ⟨q, hq, hwalk c q hq, hnot, hge⟩

/-- C5 witness: the walk statement at the concrete state `exC5e2` (counter 10
pinned at 5, counter 11 at 1) adding auto-placed counter 12. -/
theorem auto_assignment_walk_witness :
    (∃ w1, Manager.add_counter exC5e2 12 {} none false false dueNever = .ok w1 ∧
      (∀ c, c ∈ ((akeys exC5e2.counters ++ [12]).reverse).filter
          (fun x => ¬ x ∈ (pinnedAfterAdd exC5e2 12 none).map Prod.snd) →
        ∃ q, (c, q) ∈ walkAssign ((pinnedAfterAdd exC5e2 12 none).map Prod.fst)
            (((akeys exC5e2.counters ++ [12]).reverse).filter
              (fun x => ¬ x ∈ (pinnedAfterAdd exC5e2 12 none).map Prod.snd)) 1 ∧
          alookup c w1.counters = some q ∧
          q ∉ (pinnedAfterAdd exC5e2 12 none).map Prod.fst ∧ 1 ≤ q) ∧
      (∀ c, c ∈ (buildPinned exC5e2.counters exC5e2.ctrs).map Prod.snd → c ≠ 12 →
        alookup c w1.counters = alookup c exC5e2.counters)) ∧
    exC5e3.counters = [(10, 5), (11, 2), (12, 1)] ∧
    exC5b3.counters = [(10, 5), (11, 2), (12, 1)] :=
  auto_assignment_walk exC5e2 12 {} none false dueNever
    (by decide) (by decide) (by decide) (by decide) (by decide) (by decide)
    (by intro p hp; cases hp)

/-- C6: when adding a counter moves an enabled counter `c` from row `X` to a
new row `Y`, the add stages `c`'s clear block at row `X` before its redraw
block at row `Y`, and the call's single trailing flush carries both into the
output stream together: the flushed frame is never left stale at `X` nor
drawn at both `X` and `Y`. -/
theorem moved_counter_cleared_then_redrawn_before_flush
    (w : World) (cid c : Nat) (st0 st : CtrState) (position : Option Int)
    (isSB : Bool) (due : Nat → Bool) (X : Int)
    (hrl : w.refresh_lock = false) (har : w.autorefresh = [])
    (hrp : w.resizePending = false)
    (hnd : (akeys w.counters).Nodup)
    (hfresh : cid ∉ akeys w.counters)
    (hcov : ∀ c2 ∈ akeys w.counters, (alookup c2 w.ctrs).isSome = true)
    (hvalid : ∀ p, position = some p →
      (¬ p ∈ (buildPinned w.counters w.ctrs).map Prod.fst) ∧ p ≤ w.height)
    (hcc : c ≠ cid)
    (hcp : ¬ c ∈ (pinnedAfterAdd w cid position).map Prod.snd)
    (hcX : alookup c w.counters = some X)
    (hcst : alookup c w.ctrs = some st)
    (hen : w.enabled = true) (hse : st.enabled = true) :
    ∃ w1, Manager.add_counter w cid st0 position false isSB due = .ok w1 ∧
      w1.buffer = [] ∧
      (∀ Y, alookup c w1.counters = some Y → Y ≠ X →
        ∃ F1 F2 F3, w1.out = w.out ++ w.buffer ++ F1 ++
          [Event.move (w.termHeight - X) 0, Event.cr, Event.clearEol, Event.raw ""] ++ F2 ++
          [Event.move (w.termHeight - Y) 0, Event.cr, Event.clearEol, Event.text c] ++ F3) := by
  obtain ⟨w1, hrun, _, _, _, _, _, _, _, _, _, _, _, hbuf1, _, hG⟩ :=
    add_counter_run w cid st0 position isSB due hrl har hrp hnd hfresh hcov hvalid
  exact ⟨w1, hrun, hbuf1, fun Y hY hYX => hG c X Y st hcc hcp hcX hcst hen hse hY hYX⟩

/-- C6 witness: in the concrete state `exC5e2` (counter 10 pinned at 5,
counter 11 at row 1), adding counter 12 moves counter 11 to row 2; the
output shows 11's clear at row 1 staged before its redraw at row 2, and the
buffer is empty after the flush. -/
theorem moved_counter_cleared_then_redrawn_before_flush_witness :
    ∃ w1, Manager.add_counter exC5e2 12 {} none false false dueNever = .ok w1 ∧
      w1.buffer = [] ∧
      (∀ Y, alookup 11 w1.counters = some Y → Y ≠ 1 →
        ∃ F1 F2 F3, w1.out = exC5e2.out ++ exC5e2.buffer ++ F1 ++
          [Event.move (exC5e2.termHeight - 1) 0, Event.cr, Event.clearEol, Event.raw ""] ++ F2 ++
          [Event.move (exC5e2.termHeight - Y) 0, Event.cr, Event.clearEol, Event.text 11] ++ F3) :=
  moved_counter_cleared_then_redrawn_before_flush exC5e2 12 11 {} { enabled := true } none
    false dueNever 1
    (by decide) (by decide) (by decide) (by decide) (by decide) (by decide)
    (by intro p hp; cases hp)
    (by decide) (by decide) (by decide) (by decide) (by decide) (by decide)

theorem mem_rangeDown (a n : Int) : n ∈ rangeDown a ↔ 1 ≤ n ∧ n ≤ a := by
  unfold rangeDown
  rw [List.mem_map]
  constructor
  · intro h
    obtain ⟨i, hi, heq⟩ := h
    rw [List.mem_range] at hi
    omega
  · intro h
    refine ⟨(a - n).toNat, ?_, by omega⟩
    rw [List.mem_range]
    omega

/-- C7 counterexample: `stop()` on an enabled manager with `set_scroll`
unset emits neither the cursor restore nor the scroll-region reset, against
the claim that `stop()` always restores both. -/
theorem stop_without_set_scroll_skips_cursor_restore :
    exC7w.enabled = true ∧
    Event.normalCursor ∉ (Manager.stop exC7w).out ∧
    Event.csr 0 (exC7w.height - 1) ∉ (Manager.stop exC7w).out := by
  refine ⟨?_, ?_, ?_⟩ <;> decide

/-- C7 (amended): `stop()` on an enabled manager disables the manager and
every counter the row table holds, emits — in one flush — a clear for every
reserved row (1 through `scroll_offset - 1`) that no counter occupies, then,
only when `set_scroll` is set, the cursor restore and the full-height scroll
region, then the cursor re-home, and one final line feed exactly when some
counter occupies row 1. -/
theorem stop_teardown (w : World) (hen : w.enabled = true) :
    (Manager.stop w).enabled = false ∧
    (Manager.stop w).counters = w.counters ∧
    (∀ c st, alookup c w.ctrs = some st → c ∈ akeys w.counters →
      alookup c (Manager.stop w).ctrs = some { st with enabled := false }) ∧
    (Manager.stop w).out = w.out ++ w.buffer
      ++ (((rangeDown (w.scroll_offset - 1)).filter
            (fun n => ¬ n ∈ w.counters.map Prod.snd)).map
          (fun n => [Event.move (w.termHeight - n) 0, Event.clearEol])).flatten
      ++ (if w.set_scroll = true then [Event.normalCursor, Event.csr 0 (w.height - 1)] else [])
      ++ [Event.move w.termHeight 0]
      ++ (if (1 : Int) ∈ w.counters.map Prod.snd then [Event.feed 1] else []) ∧
    (Manager.stop w).buffer = [] ∧
    (∀ n, 1 ≤ n → n ≤ w.scroll_offset - 1 → ¬ n ∈ w.counters.map Prod.snd →
      Event.move (w.termHeight - n) 0 ∈ (Manager.stop w).out) := by
  have hne : ¬ (¬ w.enabled = true) := by simp [hen]
  have hctrs : (Manager.stop w).ctrs = disableAll w.ctrs (akeys w.counters) := by
    simp only [Manager.stop]
    rw [if_neg hne]
    repeat' split
    all_goals rfl
  have hout : (Manager.stop w).out = w.out ++ w.buffer
      ++ (((rangeDown (w.scroll_offset - 1)).filter
            (fun n => ¬ n ∈ w.counters.map Prod.snd)).map
          (fun n => [Event.move (w.termHeight - n) 0, Event.clearEol])).flatten
      ++ (if w.set_scroll = true then [Event.normalCursor, Event.csr 0 (w.height - 1)] else [])
      ++ [Event.move w.termHeight 0]
      ++ (if (1 : Int) ∈ w.counters.map Prod.snd then [Event.feed 1] else []) := by
    simp only [Manager.stop]
    rw [if_neg hne]
    by_cases hss : w.set_scroll = true
    · by_cases hfd : (1 : Int) ∈ w.counters.map Prod.snd
      · simp [hss, hfd, flush_streams, List.append_assoc]
      · simp [hss, hfd, flush_streams, List.append_assoc]
    · by_cases hfd : (1 : Int) ∈ w.counters.map Prod.snd
      · simp [hss, hfd, flush_streams, List.append_assoc]
      · simp [hss, hfd, flush_streams, List.append_assoc]
  refine ⟨?_, ?_, ?_, hout, ?_, ?_⟩
  · simp only [Manager.stop]
    rw [if_neg hne]
    repeat' split
    all_goals rfl
  · simp only [Manager.stop]
    rw [if_neg hne]
    repeat' split
    all_goals rfl
  · intro c st hst hcm
    rw [hctrs, alookup_disableAll, hst]
    simp [hcm]
  · simp only [Manager.stop]
    rw [if_neg hne]
    repeat' split
    all_goals rfl
  · intro n h1 h2 h3
    rw [hout]
    have hmem : n ∈ (rangeDown (w.scroll_offset - 1)).filter
        (fun n => ¬ n ∈ w.counters.map Prod.snd) :=
      List.mem_filter.2 ⟨(mem_rangeDown _ n).2 ⟨h1, h2⟩, by simpa using h3⟩
    have hflat : Event.move (w.termHeight - n) 0 ∈
        (((rangeDown (w.scroll_offset - 1)).filter
            (fun n => ¬ n ∈ w.counters.map Prod.snd)).map
          (fun n => [Event.move (w.termHeight - n) 0, Event.clearEol])).flatten :=
      List.mem_flatten.2 ⟨[Event.move (w.termHeight - n) 0, Event.clearEol],
        List.mem_map.2 ⟨n, hmem, rfl⟩, by simp⟩
    simp only [List.mem_append]
    exact Or.inl (Or.inl (Or.inl (Or.inr hflat)))

/-- C7 witness: the amended teardown at the concrete enabled manager
`exC7w`. -/
theorem stop_teardown_witness :
    (Manager.stop exC7w).enabled = false ∧
    (Manager.stop exC7w).counters = exC7w.counters ∧
    (∀ c st, alookup c exC7w.ctrs = some st → c ∈ akeys exC7w.counters →
      alookup c (Manager.stop exC7w).ctrs = some { st with enabled := false }) ∧
    (Manager.stop exC7w).out = exC7w.out ++ exC7w.buffer
      ++ (((rangeDown (exC7w.scroll_offset - 1)).filter
            (fun n => ¬ n ∈ exC7w.counters.map Prod.snd)).map
          (fun n => [Event.move (exC7w.termHeight - n) 0, Event.clearEol])).flatten
      ++ (if exC7w.set_scroll = true then [Event.normalCursor, Event.csr 0 (exC7w.height - 1)] else [])
      ++ [Event.move exC7w.termHeight 0]
      ++ (if (1 : Int) ∈ exC7w.counters.map Prod.snd then [Event.feed 1] else []) ∧
    (Manager.stop exC7w).buffer = [] ∧
    (∀ n, 1 ≤ n → n ≤ exC7w.scroll_offset - 1 → ¬ n ∈ exC7w.counters.map Prod.snd →
      Event.move (exC7w.termHeight - n) 0 ∈ (Manager.stop exC7w).out) :=
  stop_teardown exC7w (by decide)

theorem write_disabled (w : World) (output : Event) (flush : Bool) (counter : Option Nat)
    (due : Nat → Bool) (hen : w.enabled = false) :
    Manager.write w output flush counter due = .ok w := by
  simp [Manager.write, hen]

theorem isSome_upsert (cid : Nat) (st2 : CtrState) (ks : List (Nat × CtrState)) (c : Nat)
    (h : (alookup c ks).isSome = true) : (alookup c (upsert cid st2 ks)).isSome = true := by
  by_cases hc : c = cid
  · rw [hc, alookup_upsert_self]
    rfl
  · rw [alookup_upsert_ne cid c st2 ks (fun h2 => hc h2.symm)]
    exact h

theorem remove_io (w : World) (cid : Nat) :
    (Manager.remove w cid).out = w.out ∧ (Manager.remove w cid).buffer = w.buffer ∧
    (Manager.remove w cid).enabled = w.enabled ∧ (Manager.remove w cid).ctrs = w.ctrs := by
  unfold Manager.remove
  split
  · exact ⟨rfl, rfl, rfl, rfl⟩
  · split
    · exact ⟨rfl, rfl, rfl, rfl⟩
    · exact ⟨rfl, rfl, rfl, rfl⟩

theorem clear_disabled (w : World) (cid : Nat) (flush : Bool) (due : Nat → Bool)
    (st : CtrState) (hst : alookup cid w.ctrs = some st) (hen : w.enabled = false) :
    PrintableCounter.clear w cid flush due = .ok w := by
  simp only [PrintableCounter.clear, hst]
  split
  · exact write_disabled w _ flush _ due hen
  · rfl

theorem refresh_disabled (w : World) (cid : Nat) (flush : Bool) (due : Nat → Bool)
    (st : CtrState) (hst : alookup cid w.ctrs = some st) (hen : w.enabled = false) :
    PrintableCounter.refresh w cid flush due = .ok w := by
  simp only [PrintableCounter.refresh, hst]
  split
  · exact write_disabled w _ flush _ due hen
  · rfl

/-- On a disabled manager, the clear-or-refresh-then-remove tail of `close`
reduces to the remove alone. -/
theorem close_disabled_dispatch (w1 : World) (cid : Nat) {c1 : Prop} [Decidable c1]
    {c2 : Prop} [Decidable c2] (due : Nat → Bool) (st1 : CtrState)
    (hst1 : alookup cid w1.ctrs = some st1) (hen1 : w1.enabled = false) :
    (match (if c1 then PrintableCounter.clear w1 cid true due
        else if c2 then PrintableCounter.refresh w1 cid true due
        else Except.ok w1) with
      | .error e => Except.error e
      | .ok w2 => Except.ok (Manager.remove w2 cid))
      = .ok (Manager.remove w1 cid) := by
  by_cases hc1 : c1
  · rw [if_pos hc1, clear_disabled w1 cid true due st1 hst1 hen1]
  · rw [if_neg hc1]
    by_cases hc2 : c2
    · rw [if_pos hc2, refresh_disabled w1 cid true due st1 hst1 hen1]
    · rw [if_neg hc2]

/-- On a disabled manager, one widget call succeeds, writes nothing, stages
nothing, keeps the manager disabled, and keeps every counter object
resolvable. -/
theorem op_silent (w : World) (due : Nat → Bool) (op : WOp)
    (hen : w.enabled = false)
    (hcid : (alookup (WOp.cid op) w.ctrs).isSome = true) :
    ∃ w1, runOp due w op = .ok w1 ∧ w1.out = w.out ∧ w1.buffer = w.buffer ∧
      w1.enabled = false ∧
      (∀ c, (alookup c w.ctrs).isSome = true → (alookup c w1.ctrs).isSome = true) := by
  obtain ⟨st, hst⟩ := Option.isSome_iff_exists.1 hcid
  cases op with
  | updateOp cid incr force =>
    have hst' : alookup cid w.ctrs = some st := hst
    have hrefresh : PrintableCounter.refresh
        { w with ctrs := upsert cid { st with count := st.count + incr } w.ctrs } cid true due
        = .ok { w with ctrs := upsert cid { st with count := st.count + incr } w.ctrs } :=
      refresh_disabled _ cid true due { st with count := st.count + incr }
        (alookup_upsert_self cid _ w.ctrs) hen
    refine ⟨{ w with ctrs := upsert cid { st with count := st.count + incr } w.ctrs },
      ?_, rfl, rfl, hen, fun c h => isSome_upsert cid _ w.ctrs c h⟩
    simp only [runOp, Counter.update, hst']
    split
    · exact hrefresh
    · rfl
  | refreshOp cid flush =>
    have hst' : alookup cid w.ctrs = some st := hst
    exact ⟨w, refresh_disabled w cid flush due st hst' hen, rfl, rfl, hen, fun c h => h⟩
  | clearOp cid flush =>
    have hst' : alookup cid w.ctrs = some st := hst
    exact ⟨w, clear_disabled w cid flush due st hst' hen, rfl, rfl, hen, fun c h => h⟩
  | closeOp cid clearFlag =>
    have hst' : alookup cid w.ctrs = some st := hst
    by_cases hcld : st.closed = true
    · refine ⟨Manager.remove { w with warnings := w.warnings + 1 } cid,
        ?_, ?_, ?_, ?_, ?_⟩
      · simp only [runOp, PrintableCounter.close, hst', hcld, if_true]
        exact close_disabled_dispatch _ cid due st hst' hen
      · exact (remove_io _ cid).1
      · exact (remove_io _ cid).2.1
      · rw [(remove_io _ cid).2.2.1]
        exact hen
      · intro c h
        rw [(remove_io _ cid).2.2.2]
        exact h
    · refine ⟨Manager.remove { w with ctrs := upsert cid { st with closed := true } w.ctrs } cid,
        ?_, ?_, ?_, ?_, ?_⟩
      · simp only [runOp, PrintableCounter.close, hst', hcld, if_false]
        exact close_disabled_dispatch _ cid due { st with closed := true }
          (alookup_upsert_self cid _ w.ctrs) hen
      · exact (remove_io _ cid).1
      · exact (remove_io _ cid).2.1
      · rw [(remove_io _ cid).2.2.1]
        exact hen
      · intro c h
        rw [(remove_io _ cid).2.2.2]
        exact isSome_upsert cid _ w.ctrs c h

/-- C8: once the manager is disabled, every sequence of widget `update`,
`refresh`, `clear` and `close` calls raises nothing and leaves the output
stream and the staging buffer untouched — and the manager stays disabled —
provided each call addresses a live counter object. -/
theorem disabled_manager_sequence_silent (w : World) (due : Nat → Bool) (ops : List WOp)
    (hen : w.enabled = false)
    (hcov : ∀ op ∈ ops, (alookup (WOp.cid op) w.ctrs).isSome = true) :
    ∃ w1, runSeq due ops w = .ok w1 ∧ w1.out = w.out ∧ w1.buffer = w.buffer ∧
      w1.enabled = false := by
  induction ops generalizing w with
  | nil => exact ⟨w, rfl, rfl, rfl, hen⟩
  | cons op rest ih =>
    obtain ⟨w1, hop, hout, hbuf, hen1, hcov1⟩ :=
      op_silent w due op hen (hcov op (List.mem_cons.2 (Or.inl rfl)))
    obtain ⟨w2, hrest, hout2, hbuf2, hen2⟩ := ih w1 hen1 (fun op2 h2 =>
      hcov1 _ (hcov op2 (List.mem_cons.2 (Or.inr h2))))
    refine ⟨w2, ?_, hout2.trans hout, hbuf2.trans hbuf, hen2⟩
    simp only [runSeq, hop]
    exact hrest

/-- C8 witness: the concrete five-call sequence on the disabled manager
`exC8w` succeeds with the stream and buffer untouched. -/
theorem disabled_manager_sequence_silent_witness :
    ∃ w1, runSeq dueNever exC8ops exC8w = .ok w1 ∧ w1.out = exC8w.out ∧
      w1.buffer = exC8w.buffer ∧ w1.enabled = false :=
  disabled_manager_sequence_silent exC8w dueNever exC8ops (by decide) (by decide)

theorem aerase_not_mem {κ α : Type} [DecidableEq κ] (k : κ) (l : List (κ × α))
    (h : k ∉ akeys l) : aerase k l = l := by
  induction l with
  | nil => rfl
  | cons a t ih =>
    simp only [akeys, List.map_cons, List.mem_cons] at h
    push_neg at h
    simp [aerase, Ne.symm h.1, ih (by simpa [akeys] using h.2)]

theorem remove_warnings (w : World) (cid : Nat) :
    (Manager.remove w cid).warnings = w.warnings := by
  unfold Manager.remove
  split
  · rfl
  · split
    · rfl
    · rfl

theorem remove_counters_not_mem (w : World) (cid : Nat) (h : cid ∉ akeys w.counters) :
    (Manager.remove w cid).counters = w.counters := by
  unfold Manager.remove
  split
  · rfl
  · split
    · exact aerase_not_mem cid w.counters h
    · rfl

/-- A quiet-state `clear` with a live row never raises; tables, warnings and
the enabled flag survive. -/
theorem clear_ok_quiet (w : World) (cid : Nat) (flush : Bool) (due : Nat → Bool)
    (pos : Int) (st : CtrState)
    (hst : alookup cid w.ctrs = some st)
    (hrl : w.refresh_lock = false) (har : w.autorefresh = [])
    (hrp : w.resizePending = false)
    (hpos : alookup cid w.counters = some pos) :
    ∃ w1, PrintableCounter.clear w cid flush due = .ok w1 ∧
      EqTables w w1 ∧ w1.warnings = w.warnings ∧ w1.enabled = w.enabled := by
  by_cases hce : st.enabled = true
  · by_cases hen : w.enabled = true
    · obtain ⟨w1, E2, hrun, hT, hF, hwarn, _, _, _⟩ :=
        writeBody_run w (Event.raw "") flush cid due pos hrl har hpos
      refine ⟨w1, ?_, hT, hwarn, hF.1⟩
      simp only [PrintableCounter.clear, hst, hce, if_true]
      rw [write_quiet w _ _ _ due hen hrp]
      exact hrun
    · have hen' : w.enabled = false := by
        cases h : w.enabled
        · rfl
        · exact absurd h hen
      exact ⟨w, clear_disabled w cid flush due st hst hen', EqTables_refl w, rfl, rfl⟩
  · refine ⟨w, ?_, EqTables_refl w, rfl, rfl⟩
    simp only [PrintableCounter.clear, hst]
    rw [if_neg hce]

/-- A quiet-state `refresh` with a live row never raises; tables, warnings and
the enabled flag survive. -/
theorem refresh_ok_quiet (w : World) (cid : Nat) (flush : Bool) (due : Nat → Bool)
    (pos : Int) (st : CtrState)
    (hst : alookup cid w.ctrs = some st)
    (hrl : w.refresh_lock = false) (har : w.autorefresh = [])
    (hrp : w.resizePending = false)
    (hpos : alookup cid w.counters = some pos) :
    ∃ w1, PrintableCounter.refresh w cid flush due = .ok w1 ∧
      EqTables w w1 ∧ w1.warnings = w.warnings ∧ w1.enabled = w.enabled := by
  obtain ⟨w1, E2, hrun, hT, hF, hwarn, _, _, _, _⟩ :=
    refresh_run w cid due flush pos st hst hrl har hrp hpos
  exact ⟨w1, hrun, hT, hwarn, hF.1⟩

/-- With a live row, the clear-or-refresh-then-remove tail of `close` in a
quiet state never raises and preserves tables, warnings and the enabled
flag up to the final remove. -/
theorem close_dispatch_run (w1 : World) (cid : Nat) (c1 : Prop) [Decidable c1]
    (c2 : Prop) [Decidable c2] (due : Nat → Bool) (st1 : CtrState) (pos : Int)
    (hst1 : alookup cid w1.ctrs = some st1)
    (hrl : w1.refresh_lock = false) (har : w1.autorefresh = [])
    (hrp : w1.resizePending = false)
    (hpos : alookup cid w1.counters = some pos) :
    ∃ w2, (match (if c1 then PrintableCounter.clear w1 cid true due
        else if c2 then PrintableCounter.refresh w1 cid true due
        else Except.ok w1) with
      | .error e => Except.error e
      | .ok w3 => Except.ok (Manager.remove w3 cid))
      = .ok (Manager.remove w2 cid) ∧ EqTables w1 w2 ∧ w2.warnings = w1.warnings ∧
      w2.enabled = w1.enabled := by
  by_cases hc1 : c1
  · rw [if_pos hc1]
    obtain ⟨w2, hrun, hT, hwarn, hE⟩ :=
      clear_ok_quiet w1 cid true due pos st1 hst1 hrl har hrp hpos
    rw [hrun]
    exact ⟨w2, rfl, hT, hwarn, hE⟩
  · rw [if_neg hc1]
    by_cases hc2 : c2
    · rw [if_pos hc2]
      obtain ⟨w2, hrun, hT, hwarn, hE⟩ :=
        refresh_ok_quiet w1 cid true due pos st1 hst1 hrl har hrp hpos
      rw [hrun]
      exact ⟨w2, rfl, hT, hwarn, hE⟩
    · rw [if_neg hc2]
      exact ⟨w1, rfl, EqTables_refl w1, rfl, rfl⟩

/-- C9 counterexample: a second `close()` on the already-closed counter 7
warns — and then still refreshes the bar and writes it to the stream,
against the claim that the refresh-and-close behaviour is skipped. -/
theorem second_close_still_refreshes :
    isRaised (PrintableCounter.close exC9w 7 false dueNever) = false ∧
    (resState (PrintableCounter.close exC9w 7 false dueNever)).warnings
      = exC9w.warnings + 1 ∧
    Event.text 7 ∈ (resState (PrintableCounter.close exC9w 7 false dueNever)).out := by
  refine ⟨?_, ?_, ?_⟩ <;> decide

/-- When the addressed counter has no entry in the row table, the body of
`Manager.write` raises the `KeyError` of `self.counters[counter]`
(`_manager.py` line 495) before staging anything. -/
theorem writeBody_keyerror (w : World) (output : Event) (flush : Bool) (cid : Nat)
    (due : Nat → Bool) (hnone : alookup cid w.counters = none) :
    writeBody w output flush (some cid) due = .error ("KeyError", w) := by
  simp only [writeBody, hnone]

/-- C9 (amended): in a quiet state, closing an already-closed counter warns —
the warning count grows by one — while the counter objects and the manager's
enabled flag stay exactly as before, and the clear-or-refresh-and-remove tail
still runs.  The call raises precisely in one corner: `close(clear=True)` on
a `leave=False` counter already gone from the row table, with the manager and
the counter object enabled, where the clear path's write raises `KeyError`
after the warning is recorded.  Whenever the counter has already left the row
table — raising or not — the stream, the staging buffer and the row table are
untouched. -/
theorem second_close_warns_not_raises (w : World) (cid : Nat) (clearFlag : Bool)
    (due : Nat → Bool) (st : CtrState)
    (hst : alookup cid w.ctrs = some st) (hcl : st.closed = true)
    (hrl : w.refresh_lock = false) (har : w.autorefresh = [])
    (hrp : w.resizePending = false) :
    (resState (PrintableCounter.close w cid clearFlag due)).warnings = w.warnings + 1 ∧
    (resState (PrintableCounter.close w cid clearFlag due)).ctrs = w.ctrs ∧
    (resState (PrintableCounter.close w cid clearFlag due)).enabled = w.enabled ∧
    (isRaised (PrintableCounter.close w cid clearFlag due) = true ↔
      (clearFlag = true ∧ ¬ st.leave = true) ∧ w.enabled = true ∧ st.enabled = true ∧
        alookup cid w.counters = none) ∧
    (isRaised (PrintableCounter.close w cid clearFlag due) = true →
      PrintableCounter.close w cid clearFlag due
        = .error ("KeyError", { w with warnings := w.warnings + 1 })) ∧
    ((alookup cid w.counters).isSome = false →
      (resState (PrintableCounter.close w cid clearFlag due)).out = w.out ∧
      (resState (PrintableCounter.close w cid clearFlag due)).buffer = w.buffer ∧
      (resState (PrintableCounter.close w cid clearFlag due)).counters = w.counters) := by
  by_cases hc1 : clearFlag = true ∧ ¬ st.leave = true
  · by_cases hsome : (alookup cid w.counters).isSome = true
    · obtain ⟨pos, hpos⟩ := Option.isSome_iff_exists.1 hsome
      obtain ⟨w2, hclr, hT, hwarn2, hE2⟩ :=
        clear_ok_quiet { w with warnings := w.warnings + 1 } cid true due pos st
          hst hrl har hrp hpos
      have hres : PrintableCounter.close w cid clearFlag due
          = .ok (Manager.remove w2 cid) := by
        simp only [PrintableCounter.close, hst, hcl, if_true]
        rw [if_pos hc1, hclr]
      rw [hres]
      refine ⟨?_, ?_, ?_, ?_, ?_, ?_⟩
      · show (Manager.remove w2 cid).warnings = w.warnings + 1
        rw [remove_warnings w2 cid, hwarn2]
      · show (Manager.remove w2 cid).ctrs = w.ctrs
        rw [(remove_io w2 cid).2.2.2, hT.2.1]
      · show (Manager.remove w2 cid).enabled = w.enabled
        rw [(remove_io w2 cid).2.2.1, hE2]
      · constructor
        · intro h
          simp [isRaised] at h
        · rintro ⟨_, _, _, hnone⟩
          rw [hnone] at hsome
          cases hsome
      · intro h
        simp [isRaised] at h
      · intro hns
        rw [hsome] at hns
        cases hns
    · have hnone : alookup cid w.counters = none := by
        cases hv : alookup cid w.counters with
        | none => rfl
        | some p =>
          rw [hv] at hsome
          exact absurd rfl hsome
      have hfr : cid ∉ akeys w.counters := fun hm => by
        have h2 := (alookup_isSome_iff_mem_akeys cid w.counters).2 hm
        rw [hnone] at h2
        cases h2
      by_cases hraise : w.enabled = true ∧ st.enabled = true
      · obtain ⟨hen, hce⟩ := hraise
        have hclr : PrintableCounter.clear { w with warnings := w.warnings + 1 } cid true due
            = .error ("KeyError", { w with warnings := w.warnings + 1 }) := by
          simp only [PrintableCounter.clear, hst, hce, if_true]
          rw [write_quiet { w with warnings := w.warnings + 1 } (Event.raw "") true
            (some cid) due hen hrp]
          exact writeBody_keyerror { w with warnings := w.warnings + 1 } (Event.raw "")
            true cid due hnone
        have hres : PrintableCounter.close w cid clearFlag due
            = .error ("KeyError", { w with warnings := w.warnings + 1 }) := by
          simp only [PrintableCounter.close, hst, hcl, if_true]
          rw [if_pos hc1, hclr]
        rw [hres]
        refine ⟨rfl, rfl, rfl, ?_, ?_, ?_⟩
        · constructor
          · intro _
            exact ⟨hc1, hen, hce, hnone⟩
          · intro _
            rfl
        · intro _
          rfl
        · intro _
          exact ⟨rfl, rfl, rfl⟩
      · have hclr : PrintableCounter.clear { w with warnings := w.warnings + 1 } cid true due
            = .ok { w with warnings := w.warnings + 1 } := by
          by_cases hen : w.enabled = true
          · have hce : ¬ st.enabled = true := fun hce => hraise ⟨hen, hce⟩
            simp only [PrintableCounter.clear, hst]
            rw [if_neg hce]
          · have hen' : w.enabled = false := by
              cases h : w.enabled with
              | false => rfl
              | true => exact absurd h hen
            exact clear_disabled { w with warnings := w.warnings + 1 } cid true due st
              hst hen'
        have hres : PrintableCounter.close w cid clearFlag due
            = .ok (Manager.remove { w with warnings := w.warnings + 1 } cid) := by
          simp only [PrintableCounter.close, hst, hcl, if_true]
          rw [if_pos hc1, hclr]
        rw [hres]
        refine ⟨?_, ?_, ?_, ?_, ?_, ?_⟩
        · show (Manager.remove { w with warnings := w.warnings + 1 } cid).warnings
            = w.warnings + 1
          rw [remove_warnings _ cid]
        · exact (remove_io { w with warnings := w.warnings + 1 } cid).2.2.2
        · exact (remove_io { w with warnings := w.warnings + 1 } cid).2.2.1
        · constructor
          · intro h
            simp [isRaised] at h
          · rintro ⟨_, hen2, hce2, _⟩
            exact absurd ⟨hen2, hce2⟩ hraise
        · intro h
          simp [isRaised] at h
        · intro _
          exact ⟨(remove_io _ cid).1, (remove_io _ cid).2.1,
            remove_counters_not_mem { w with warnings := w.warnings + 1 } cid hfr⟩
  · by_cases hsome : (alookup cid w.counters).isSome = true
    · obtain ⟨pos, hpos⟩ := Option.isSome_iff_exists.1 hsome
      obtain ⟨w2, hrfr, hT, hwarn2, hE2⟩ :=
        refresh_ok_quiet { w with warnings := w.warnings + 1 } cid true due pos st
          hst hrl har hrp hpos
      have hres : PrintableCounter.close w cid clearFlag due
          = .ok (Manager.remove w2 cid) := by
        simp only [PrintableCounter.close, hst, hcl, if_true]
        rw [if_neg hc1, if_pos hsome, hrfr]
      rw [hres]
      refine ⟨?_, ?_, ?_, ?_, ?_, ?_⟩
      · show (Manager.remove w2 cid).warnings = w.warnings + 1
        rw [remove_warnings w2 cid, hwarn2]
      · show (Manager.remove w2 cid).ctrs = w.ctrs
        rw [(remove_io w2 cid).2.2.2, hT.2.1]
      · show (Manager.remove w2 cid).enabled = w.enabled
        rw [(remove_io w2 cid).2.2.1, hE2]
      · constructor
        · intro h
          simp [isRaised] at h
        · rintro ⟨hc1a, _, _, _⟩
          exact absurd hc1a hc1
      · intro h
        simp [isRaised] at h
      · intro hns
        rw [hsome] at hns
        cases hns
    · have hnone : alookup cid w.counters = none := by
        cases hv : alookup cid w.counters with
        | none => rfl
        | some p =>
          rw [hv] at hsome
          exact absurd rfl hsome
      have hfr : cid ∉ akeys w.counters := fun hm => by
        have h2 := (alookup_isSome_iff_mem_akeys cid w.counters).2 hm
        rw [hnone] at h2
        cases h2
      have hres : PrintableCounter.close w cid clearFlag due
          = .ok (Manager.remove { w with warnings := w.warnings + 1 } cid) := by
        simp only [PrintableCounter.close, hst, hcl, if_true]
        rw [if_neg hc1, if_neg hsome]
      rw [hres]
      refine ⟨?_, ?_, ?_, ?_, ?_, ?_⟩
      · show (Manager.remove { w with warnings := w.warnings + 1 } cid).warnings
          = w.warnings + 1
        rw [remove_warnings _ cid]
      · exact (remove_io { w with warnings := w.warnings + 1 } cid).2.2.2
      · exact (remove_io { w with warnings := w.warnings + 1 } cid).2.2.1
      · constructor
        · intro h
          simp [isRaised] at h
        · rintro ⟨hc1a, _, _, _⟩
          exact absurd hc1a hc1
      · intro h
        simp [isRaised] at h
      · intro _
        exact ⟨(remove_io _ cid).1, (remove_io _ cid).2.1,
          remove_counters_not_mem { w with warnings := w.warnings + 1 } cid hfr⟩

/-- C9 witness: the amended statement at the concrete already-closed counter
7 of `exC9w`. -/
theorem second_close_warns_not_raises_witness :
    (resState (PrintableCounter.close exC9w 7 false dueNever)).warnings
      = exC9w.warnings + 1 ∧
    (resState (PrintableCounter.close exC9w 7 false dueNever)).ctrs = exC9w.ctrs ∧
    (resState (PrintableCounter.close exC9w 7 false dueNever)).enabled = exC9w.enabled ∧
    (isRaised (PrintableCounter.close exC9w 7 false dueNever) = true ↔
      ((false : Bool) = true ∧ ¬ ({ closed := true } : CtrState).leave = true) ∧
        exC9w.enabled = true ∧ ({ closed := true } : CtrState).enabled = true ∧
        alookup 7 exC9w.counters = none) ∧
    (isRaised (PrintableCounter.close exC9w 7 false dueNever) = true →
      PrintableCounter.close exC9w 7 false dueNever
        = .error ("KeyError", { exC9w with warnings := exC9w.warnings + 1 })) ∧
    ((alookup 7 exC9w.counters).isSome = false →
      (resState (PrintableCounter.close exC9w 7 false dueNever)).out = exC9w.out ∧
      (resState (PrintableCounter.close exC9w 7 false dueNever)).buffer = exC9w.buffer ∧
      (resState (PrintableCounter.close exC9w 7 false dueNever)).counters
        = exC9w.counters) :=
  second_close_warns_not_raises exC9w 7 false dueNever { closed := true }
    (by decide) (by decide) (by decide) (by decide) (by decide)

theorem all_notRaw_of_isCtl (E : List Event) (h : E.all isCtl = true) :
    E.all notRaw = true := by
  induction E with
  | nil => rfl
  | cons e t ih =>
    simp only [List.all_cons, Bool.and_eq_true] at h ⊢
    refine ⟨?_, ih h.2⟩
    cases e <;> simp_all [isCtl, notRaw]

/-- The redraw loop of the resize handler, run in a quiet state over live
counters: it never raises, preserves tables, flags, stream and warnings,
appends only non-raw events to the buffer, and stages every enabled
counter's bar. -/
theorem refreshAllGo_run (due : Nat → Bool) (L : List Nat) :
    ∀ w : World, w.refresh_lock = false → w.autorefresh = [] →
    (∀ c ∈ L, c ∈ akeys w.counters) →
    (∀ c ∈ L, (alookup c w.ctrs).isSome = true) →
    ∃ w1 E, refreshAllGo due L w = .ok w1 ∧
      EqTables w w1 ∧ EqFlags w w1 ∧ w1.out = w.out ∧ w1.warnings = w.warnings ∧
      w1.buffer = w.buffer ++ E ∧ E.all notRaw = true ∧
      (∀ c st, c ∈ L → alookup c w.ctrs = some st → st.enabled = true →
        Event.text c ∈ E) := by
  induction L with
  | nil =>
    intro w hrl har _ _
    exact ⟨w, [], rfl, EqTables_refl w, EqFlags_refl w, rfl, rfl, by simp, rfl,
      fun c st hc _ _ => absurd hc (List.not_mem_nil c)⟩
  | cons c rest ih =>
    intro w hrl har hkeys hcov
    obtain ⟨st, hstc⟩ := Option.isSome_iff_exists.1 (hcov c (List.mem_cons.2 (Or.inl rfl)))
    have hstc' : alookup c w.ctrs = some st := hstc
    by_cases hce : st.enabled = true
    · obtain ⟨pos, hpos⟩ := Option.isSome_iff_exists.1
        ((alookup_isSome_iff_mem_akeys c w.counters).2 (hkeys c (List.mem_cons.2 (Or.inl rfl))))
      obtain ⟨w1, E2, hwb, hT, hF, hwarn, hso, hctl, hcase⟩ :=
        writeBody_run w (Event.text c) false c due pos hrl har hpos
      rcases hcase with ⟨_, hbuf1, hout1⟩ | ⟨hfl, _⟩
      · obtain ⟨wN, EN, hrunN, hTN, hFN, houtN, hwarnN, hbufN, hallN, htextN⟩ :=
          ih w1 (hF.2.2.2.1.trans hrl) (hT.2.2.trans har)
            (fun c2 h2 => by rw [hT.1]; exact hkeys c2 (List.mem_cons.2 (Or.inr h2)))
            (fun c2 h2 => by rw [hT.2.1]; exact hcov c2 (List.mem_cons.2 (Or.inr h2)))
        refine ⟨wN, [Event.move (w.termHeight - pos) 0, Event.cr, Event.clearEol,
            Event.text c] ++ E2 ++ EN, ?_, EqTables_trans hT hTN, EqFlags_trans hF hFN,
          houtN.trans hout1, hwarnN.trans hwarn, ?_, ?_, ?_⟩
        · simp only [refreshAllGo, hstc', hce, if_true, hwb]
          exact hrunN
        · rw [hbufN, hbuf1]
          simp [List.append_assoc]
        · simp only [List.all_append, Bool.and_eq_true]
          exact ⟨⟨by simp [notRaw], all_notRaw_of_isCtl E2 hctl⟩, hallN⟩
        · intro c2 st2 hc2 hst2 hen2
          rcases List.mem_cons.1 hc2 with h | h
          · simp [h]
          · have hmem : Event.text c2 ∈ EN :=
              htextN c2 st2 h (by rw [hT.2.1]; exact hst2) hen2
            simp [hmem]
      · cases hfl
    · obtain ⟨wN, EN, hrunN, hTN, hFN, houtN, hwarnN, hbufN, hallN, htextN⟩ :=
        ih w hrl har
          (fun c2 h2 => hkeys c2 (List.mem_cons.2 (Or.inr h2)))
          (fun c2 h2 => hcov c2 (List.mem_cons.2 (Or.inr h2)))
      refine ⟨wN, EN, ?_, hTN, hFN, houtN, hwarnN, hbufN, hallN, ?_⟩
      · simp only [refreshAllGo, hstc']
        rw [if_neg hce]
        exact hrunN
      · intro c2 st2 hc2 hst2 hen2
        rcases List.mem_cons.1 hc2 with h | h
        · rw [h] at hst2
          rw [hst2] at hstc'
          rw [Option.some.inj hstc'] at hen2
          exact absurd hen2 hce
        · exact htextN c2 st2 h hst2 hen2

/-- The tail of the resize handler after the height-delta branches: pad and
clear, reset the scroll area with force, redraw every counter, flush.  It
never raises, keeps the tables and the pending flag, flushes everything it
staged, writes no raw payload, and redraws every enabled counter. -/
theorem resize_tail_run (v : World) (due : Nat → Bool)
    (hrl : v.refresh_lock = false) (har : v.autorefresh = [])
    (hne : v.counters ≠ [])
    (hcov : ∀ c ∈ akeys v.counters, (alookup c v.ctrs).isSome = true) :
    ∃ w1 E,
      (match set_scroll_area { v with buffer := v.buffer ++ [Event.move (max 0 (v.termHeight - v.scroll_offset)) 0, Event.clearEos] } true with
        | .error e => Except.error e
        | .ok w3 =>
          match refreshAllGo due (akeys w3.counters) w3 with
          | .error e => Except.error e
          | .ok w4 => Except.ok { flush_streams w4 with resize_lock := false })
        = .ok w1 ∧
      w1.counters = v.counters ∧ w1.ctrs = v.ctrs ∧
      w1.resizePending = v.resizePending ∧ w1.enabled = v.enabled ∧
      w1.out = v.out ++ v.buffer ++ E ∧ w1.buffer = [] ∧
      E.all notRaw = true ∧
      (∀ c st, c ∈ akeys v.counters → alookup c v.ctrs = some st →
        st.enabled = true → Event.text c ∈ E) := by
  obtain ⟨w3, hssa⟩ := ssa_ok_exists { v with buffer := v.buffer ++ [Event.move (max 0 (v.termHeight - v.scroll_offset)) 0, Event.clearEos] } true hne
  obtain ⟨hT3, hF3, hout3, hwarn3, hso3, E0, hbuf3, hctl3⟩ := ssa_ok_core _ w3 true hssa
  obtain ⟨w4, EN, hrunN, hTN, hFN, houtN, hwarnN, hbufN, hallN, htextN⟩ :=
    refreshAllGo_run due (akeys w3.counters) w3
      (by rw [hF3.2.2.2.1]; exact hrl)
      (by rw [hT3.2.2]; exact har)
      (fun c2 h2 => h2)
      (by
        intro c2 h2
        rw [hT3.2.1]
        show (alookup c2 v.ctrs).isSome = true
        apply hcov
        have h3 : c2 ∈ akeys w3.counters := h2
        rw [hT3.1] at h3
        exact h3)
  rw [hssa]
  simp only []
  rw [hrunN]
  refine ⟨{ flush_streams w4 with resize_lock := false },
    [Event.move (max 0 (v.termHeight - v.scroll_offset)) 0, Event.clearEos] ++ E0 ++ EN,
    rfl, ?_, ?_, ?_, ?_, ?_, rfl, ?_, ?_⟩
  · exact hTN.1.trans hT3.1
  · exact hTN.2.1.trans hT3.2.1
  · exact hFN.2.2.2.2.2.1.trans hF3.2.2.2.2.2.1
  · exact hFN.1.trans hF3.1
  · show w4.out ++ w4.buffer = v.out ++ v.buffer ++ _
    rw [houtN, hout3, hbufN, hbuf3]
    simp [List.append_assoc]
  · simp only [List.all_append, Bool.and_eq_true]
    exact ⟨⟨by simp [notRaw], all_notRaw_of_isCtl E0 hctl3⟩, hallN⟩
  · intro c st hc hst hen
    have hmem : Event.text c ∈ EN := by
      apply htextN c st
      · show c ∈ akeys w3.counters
        rw [hT3.1]
        exact hc
      · rw [hT3.2.1]
        exact hst
      · exact hen
    simp [hmem]

/-- The resize handler in a quiet state with live counters and an unchanged
terminal height: it never raises, keeps the tables and the pending flag,
flushes everything it staged, writes no raw payload, and redraws every
enabled counter. -/
theorem resize_handler_run (w : World) (due : Nat → Bool)
    (hrlk : w.resize_lock = false) (hrl : w.refresh_lock = false)
    (har : w.autorefresh = [])
    (hne : w.counters ≠ []) (hth : w.termHeight = w.height)
    (hcov : ∀ c ∈ akeys w.counters, (alookup c w.ctrs).isSome = true) :
    ∃ w1 E, resize_handler w due = .ok w1 ∧
      w1.counters = w.counters ∧ w1.ctrs = w.ctrs ∧
      w1.resizePending = w.resizePending ∧ w1.enabled = w.enabled ∧
      w1.out = w.out ++ w.buffer ++ E ∧ w1.buffer = [] ∧
      E.all notRaw = true ∧
      (∀ c st, c ∈ akeys w.counters → alookup c w.ctrs = some st →
        st.enabled = true → Event.text c ∈ E) := by
  simp only [resize_handler]
  rw [if_neg (by simp [hrlk])]
  rw [if_neg (show ¬ (({ w with resize_lock := true } : World).termHeight
      < ({ w with resize_lock := true } : World).height) from by
    show ¬ (w.termHeight < w.height)
    omega)]
  rw [if_neg (show ¬ (({ w with resize_lock := true } : World).termHeight
        > ({ w with resize_lock := true } : World).height
      ∧ ({ w with resize_lock := true } : World).threaded = true) from by
    intro hand
    have h1 : w.termHeight > w.height := hand.1
    omega)]
  exact resize_tail_run { w with resize_lock := true } due hrl har hne hcov

/-- C10 counterexample: a pending-resize `write` on a manager whose row
table is empty — as after every `leave=False` counter has been closed —
raises the `ValueError` of `max()` over the empty row dict inside
`_set_scroll_area` instead of returning; even then the pending flag is
cleared by the `finally` clause and the raw payload is never written. -/
theorem pending_resize_write_on_empty_table_raises :
    isRaised (Manager.write exC10e (Event.raw "payload") true none dueNever) = true ∧
    errMsg (Manager.write exC10e (Event.raw "payload") true none dueNever)
      = some "ValueError: max() arg is an empty sequence" ∧
    (resState (Manager.write exC10e (Event.raw "payload") true none dueNever)).resizePending
      = false ∧
    Event.raw "payload" ∉
      (resState (Manager.write exC10e (Event.raw "payload") true none dueNever)).out := by
  refine ⟨?_, ?_, ?_, ?_⟩ <;> decide

/-- C10 (amended): while at least one counter remains in the row table, a
`Manager.write` call made while a resize is pending and no handler is
running runs the resize handler — redrawing every enabled counter — clears
the pending flag, and returns without staging or writing the requested
output: a raw payload handed to that call is dropped, not deferred to a
later write.  (With an empty row table the same call raises `ValueError`
from `_set_scroll_area` instead of returning, though the flag still clears
and the payload is still dropped.) -/
theorem pending_resize_write_runs_handler_and_drops_output
    (w : World) (output : Event) (flush : Bool) (counter : Option Nat) (due : Nat → Bool)
    (hen : w.enabled = true) (hrp : w.resizePending = true) (hrlk : w.resize_lock = false)
    (hrl : w.refresh_lock = false) (har : w.autorefresh = [])
    (hne : w.counters ≠ []) (hbuf : w.buffer = [])
    (hth : w.termHeight = w.height)
    (hcov : ∀ c ∈ akeys w.counters, (alookup c w.ctrs).isSome = true) :
    ∃ w1 E, Manager.write w output flush counter due = .ok w1 ∧
      w1.resizePending = false ∧
      w1.counters = w.counters ∧ w1.ctrs = w.ctrs ∧
      w1.out = w.out ++ E ∧ w1.buffer = [] ∧
      E.all notRaw = true ∧
      (∀ c st, c ∈ akeys w.counters → alookup c w.ctrs = some st →
        st.enabled = true → Event.text c ∈ E) := by
  obtain ⟨w1, E, hrun, hc, hk, hp, he, hout, hbuf1, hall, htext⟩ :=
    resize_handler_run w due hrlk hrl har hne hth hcov
  refine ⟨{ w1 with resizePending := false }, E, ?_, rfl, hc, hk, ?_, hbuf1, hall, htext⟩
  · simp only [Manager.write]
    rw [if_neg (by simp [hen])]
    rw [if_pos (by exact ⟨hrp, by simp [hrlk]⟩)]
    rw [hrun]
  · show w1.out = w.out ++ E
    rw [hout, hbuf]
    simp

/-- C10 witness: on `exC10w`, a `write` of the raw payload runs the handler,
clears the pending flag, redraws counter 1, and never emits the payload. -/
theorem pending_resize_write_runs_handler_and_drops_output_witness :
    ∃ w1 E, Manager.write exC10w (Event.raw "payload") true none dueNever = .ok w1 ∧
      w1.resizePending = false ∧
      w1.counters = exC10w.counters ∧ w1.ctrs = exC10w.ctrs ∧
      w1.out = exC10w.out ++ E ∧ w1.buffer = [] ∧
      E.all notRaw = true ∧
      (∀ c st, c ∈ akeys exC10w.counters → alookup c exC10w.ctrs = some st →
        st.enabled = true → Event.text c ∈ E) :=
  pending_resize_write_runs_handler_and_drops_output exC10w (Event.raw "payload") true none
    dueNever (by decide) (by decide) (by decide) (by decide) (by decide)
    (by decide) (by decide) (by decide) (by decide)

end Enlighten
